import Mathlib

/-!
# examiner: a shallow embedding of `src/examiner.c`

The unit-test harness is modelled as pure functions over explicit state.

* C strings are lists of non-NUL characters; reading one at an index goes
  through `cstr_get`, which knows about the terminator and the end of the object.
  Strings held by pointer (`scope`, `name`, `filter`) are held by content, and
  `strcmp(a, b) == 0` is equality.
* Heap blocks are lists of slots, a slot being `none` until it is written;
  reading an unwritten slot or accessing a slot outside the block is undefined
  behaviour.  A registration with undefined behaviour is `none`; a run that
  meets undefined behaviour ends there with `Status.undefined`, its trace
  holding what happened before.
* Function pointers are addresses (`Nat`, `NULL = 0`); what the code at an
  address does to the program under test is given by a parameter
  `code : Nat → σ → Outcome σ`, where `Outcome.jump` is a `siglongjmp` out of the
  callee (a failed assertion) and `Outcome.done` a normal return.  Test bodies
  are taken to be non-null, as the registration macros make them.
* `rand()` is a stream `rand : Nat → Nat` indexed by the number of calls made,
  and `RAND_MAX` is a parameter.
* Calls to the `exam_print_*` reporters and (as ghost events) calls through
  function pointers are recorded in a trace.
* `size_t` counters (`count`, `passed`, lengths, capacities, indices) are
  natural numbers: they count objects that exist in memory and do not wrap.
  The `int i` of `exam_filter_test` likewise stays below the length of the
  filter string.
* `longest_name_len`, `clock()` and the colour strategy only feed the rendering
  of the reporters and are left out of the runner; `exam_init` records the
  values it assigns to them.
* The swap index of line 139 is also given with every operation in `size_t`
  (`exam_shuffle_index_size_t`), to be compared with the one in the naturals.
* The memory assertions take their buffers as lists of bytes and return the
  lines they print together with the way they end; reading past a buffer is
  undefined behaviour.
* `exam_init` takes the argument vector as a list of C strings; `strncmp` and
  `atoi` are modelled after the C standard, `atoi` being undefined outside the
  range of a 32-bit `int`.
-/

namespace Examiner

/-! ## C strings and heap blocks -/

/-- The NUL character. -/
def NUL : Char := Char.ofNat 0

/-- A C string: the characters before the terminating NUL, none of which is NUL. -/
abbrev CString := { s : List Char // NUL ∉ s }

/-- Read `s[i]` from the memory of a NUL-terminated string with contents `s`:
the contents, then the terminator; anything further is outside the object. -/
def cstr_get (s : List Char) (i : Nat) : Option Char :=
  if i < s.length then s.get? i
  else if i = s.length then some NUL
  else none

/-- A heap block of slots; a slot is `none` until it has been written. -/
abbrev Block (α : Type) := List (Option α)

/-- The block returned by `malloc` for `n` slots. -/
def Block.malloc {α : Type} (n : Nat) : Block α := List.replicate n none

/-- The block returned by `realloc` for `n` slots: the old contents, then fresh slots. -/
def Block.realloc {α : Type} (b : Block α) (n : Nat) : Block α :=
  b.take n ++ List.replicate (n - b.length) none

/-- Read slot `i`: `none` outside the block or on a slot never written. -/
def Block.read {α : Type} (b : Block α) (i : Nat) : Option α :=
  (b.get? i).join

/-- Write slot `i`: `none` outside the block. -/
def Block.write {α : Type} (b : Block α) (i : Nat) (v : α) : Option (Block α) :=
  if i < b.length then some (b.set i (some v)) else none

/-! ## Data model (`examiner.h`) -/

/-- The null function pointer. -/
def NULL : Nat := 0

/-- Modelled from the spec: the declaration of `exam_test_t` in `examiner.h`,
which is not among the sources (spec §3, Test Case).  The fields are those
`examiner.c` reads and writes. -/
structure exam_test_t where
  fn : Nat
  scope : CString
  name : CString
  pending : Bool
deriving DecidableEq

/-- Modelled from the spec: the declaration of `exam_scope_t` in `examiner.h`,
which is not among the sources (spec §3, Scope).  The fields are those
`examiner.c` reads and writes; `tests` is `NULL` (`none`) or a heap block. -/
structure exam_scope_t where
  tests : Option (Block exam_test_t)
  len : Nat
  cap : Nat
  name : CString
  before : Nat
  after : Nat
deriving DecidableEq

/-- Modelled from the spec: the declaration of the scope table in `examiner.h`,
which is not among the sources (spec §3, Registry).  The fields are those
`examiner.c` reads and writes; `scope` is `NULL` (`none`) or a heap block. -/
structure exam_tbl_t where
  scope : Option (Block exam_scope_t)
  len : Nat
  cap : Nat
deriving DecidableEq

/-- Modelled from the spec: the declaration of `exam_env_t` in `examiner.h`,
which is not among the sources (spec §2, Configuration): the run options and
the registry of `global_env`.  `repeat_` is the field `repeat`, as the `size_t`
loop bound it is compared with on line 327; `filter` is `NULL` (`none`) or a
string. -/
structure exam_env_t where
  tbl : exam_tbl_t
  filter : Option CString
  repeat_ : Nat
  list : Bool
  shuffle : Bool
  shortd : Bool
  die_on_fail : Bool

/-- The zero-initialised table of `global_env = {0}`. -/
def exam_tbl_t.zero : exam_tbl_t := { scope := none, len := 0, cap := 0 }

/-! ## Name and filter -/

/-- Lines 14-23: the qualified name `scope.name`. -/
def exam_concat_scope_name (test : exam_test_t) : List Char :=
  test.scope.val ++ ['.'] ++ test.name.val

/-- Lines 27-35: the `while (true)` loop of `exam_filter_test`, at index `i`. -/
def exam_filter_test_loop (name filter : List Char) : Nat → Nat → Option Bool
  | 0, _ => none
  | fuel + 1, i =>
    match cstr_get filter i with
    | none => none
    | some f =>
      if f = NUL then some true
      else
        match cstr_get name i with
        | none => none
        | some n =>
          if n ≠ f then some false
          else exam_filter_test_loop name filter fuel (i + 1)

/-- Lines 25-37.  The loop is given one step for every character of the filter
and one for its terminator; `none` is a read outside a string. -/
def exam_filter_test (name filter : List Char) : Option Bool :=
  exam_filter_test_loop name filter (filter.length + 1) 0

/-! ## Registry -/

/-- Lines 370-386.  The scope is passed and returned by value; `none` is a write
outside the test block.  The block is given `cap` test slots (the byte count of
lines 375 and 380 is that of `cap` scopes, which is no less). -/
def exam_insert_test_in_list (list : exam_scope_t) (scope name : CString) (fn : Nat)
    (pending : Bool) : Option exam_scope_t :=
  let list1 : exam_scope_t :=
    match list.tests with
    | none => { list with cap := 16, tests := some (Block.malloc 16), len := 0 }
    | some b =>
      if list.len + 1 ≥ list.cap then
        { list with cap := list.cap * 2, tests := some (Block.realloc b (list.cap * 2)) }
      else list
  match list1.tests with
  | none => none
  | some b =>
    match Block.write b list1.len
        { fn := fn, scope := scope, name := name, pending := pending } with
    | none => none
    | some b1 => some { list1 with tests := some b1, len := list1.len + 1 }

/-- Lines 388-395.  The zero-filled slots hold no scope yet (their names are
null) and count as unwritten. -/
def exam_ensure_tbl (tbl : exam_tbl_t) : exam_tbl_t :=
  match tbl.scope with
  | none => { scope := some (Block.malloc 8), cap := 8, len := 0 }
  | some _ => tbl

/-- Lines 397-411.  Returns the table and the index of the new scope in it. -/
def exam_insert_new_scope (tbl : exam_tbl_t) (scope : CString) : Option (exam_tbl_t × Nat) :=
  let tbl1 : exam_tbl_t :=
    if tbl.len + 1 ≥ tbl.cap then
      { tbl with cap := tbl.cap * 2,
                 scope := tbl.scope.map (fun b => Block.realloc b (tbl.cap * 2)) }
    else tbl
  match tbl1.scope with
  | none => none
  | some b =>
    match Block.write b tbl1.len
        { tests := none, len := 0, cap := 0, name := scope, before := NULL, after := NULL } with
    | none => none
    | some b1 => some ({ tbl1 with scope := some b1, len := tbl1.len + 1 }, tbl1.len)

/-- The search loop of lines 416-422 and 429-438, with `n` iterations left at
index `i`: the index of the first scope called `scope`, if any; the outer `none`
is a read of a slot that holds no scope. -/
def exam_find_scope (b : Block exam_scope_t) (scope : CString) : Nat → Nat → Option (Option Nat)
  | 0, _ => some none
  | n + 1, i =>
    match Block.read b i with
    | none => none
    | some s => if scope = s.name then some (some i) else exam_find_scope b scope n (i + 1)

/-- Lines 413-425. -/
def _exam_register_test (tbl : exam_tbl_t) (scope name : CString) (fn : Nat)
    (pending : Bool) : Option exam_tbl_t :=
  let tbl := exam_ensure_tbl tbl
  match tbl.scope with
  | none => none
  | some b =>
    match exam_find_scope b scope tbl.len 0 with
    | none => none
    | some (some i) =>
      match Block.read b i with
      | none => none
      | some s =>
        match exam_insert_test_in_list s scope name fn pending with
        | none => none
        | some s1 => (Block.write b i s1).map (fun b1 => { tbl with scope := some b1 })
    | some none =>
      match exam_insert_new_scope tbl scope with
      | none => none
      | some (tbl1, i) =>
        match tbl1.scope with
        | none => none
        | some b1 =>
          match Block.read b1 i with
          | none => none
          | some s =>
            match exam_insert_test_in_list s scope name fn pending with
            | none => none
            | some s1 => (Block.write b1 i s1).map (fun b2 => { tbl1 with scope := some b2 })

/-- Lines 427-445. -/
def _exam_register_each (tbl : exam_tbl_t) (scope : CString) (fn : Nat)
    (before : Bool) : Option exam_tbl_t :=
  let tbl := exam_ensure_tbl tbl
  match tbl.scope with
  | none => none
  | some b =>
    match exam_find_scope b scope tbl.len 0 with
    | none => none
    | some (some i) =>
      match Block.read b i with
      | none => none
      | some s =>
        let s1 : exam_scope_t := if before then { s with before := fn } else { s with after := fn }
        (Block.write b i s1).map (fun b1 => { tbl with scope := some b1 })
    | some none =>
      match exam_insert_new_scope tbl scope with
      | none => none
      | some (tbl1, i) =>
        match tbl1.scope with
        | none => none
        | some b1 =>
          match Block.read b1 i with
          | none => none
          | some s =>
            let s1 : exam_scope_t :=
              if before then { s with before := fn } else { s with after := fn }
            (Block.write b1 i s1).map (fun b2 => { tbl1 with scope := some b2 })

/-- The scope value that `exam_insert_new_scope` writes into the table. -/
def exam_scope_t.fresh (scope : CString) : exam_scope_t :=
  { tests := none, len := 0, cap := 0, name := scope, before := NULL, after := NULL }

/-- The shape shared by `_exam_register_test` and `_exam_register_each`: make
sure the table exists, look the scope up, create it if it is missing, and
apply `g` to it in place. -/
def exam_update_scope (tbl : exam_tbl_t) (scope : CString)
    (g : exam_scope_t → Option exam_scope_t) : Option exam_tbl_t :=
  let tbl := exam_ensure_tbl tbl
  match tbl.scope with
  | none => none
  | some b =>
    match exam_find_scope b scope tbl.len 0 with
    | none => none
    | some (some i) =>
      match Block.read b i with
      | none => none
      | some s =>
        match g s with
        | none => none
        | some s1 => (Block.write b i s1).map (fun b1 => { tbl with scope := some b1 })
    | some none =>
      match exam_insert_new_scope tbl scope with
      | none => none
      | some (tbl1, i) =>
        match tbl1.scope with
        | none => none
        | some b1 =>
          match Block.read b1 i with
          | none => none
          | some s =>
            match g s with
            | none => none
            | some s1 => (Block.write b1 i s1).map (fun b2 => { tbl1 with scope := some b2 })

/-- What `_exam_register_each` does to the scope it finds or creates. -/
def exam_set_hook (fn : Nat) (before : Bool) (s : exam_scope_t) : exam_scope_t :=
  if before then { s with before := fn } else { s with after := fn }

/-- One registration call. -/
inductive Registration where
  | test (scope name : CString) (fn : Nat) (pending : Bool)
  | each (scope : CString) (fn : Nat) (before : Bool)
deriving DecidableEq

/-- The scope name a registration call is made with. -/
def Registration.scope : Registration → CString
  | Registration.test s _ _ _ => s
  | Registration.each s _ _ => s

def exam_register (tbl : exam_tbl_t) : Registration → Option exam_tbl_t
  | Registration.test s n f p => _exam_register_test tbl s n f p
  | Registration.each s f b => _exam_register_each tbl s f b

/-- A sequence of registration calls, in call order; `none` once a call has
undefined behaviour. -/
def exam_register_all : exam_tbl_t → List Registration → Option exam_tbl_t
  | tbl, [] => some tbl
  | tbl, c :: cs => (exam_register tbl c).bind (fun t => exam_register_all t cs)

/-- The tests of a scope: what is written in the first `len` slots of its block. -/
def exam_scope_t.test_list (sc : exam_scope_t) : List exam_test_t :=
  match sc.tests with
  | none => []
  | some b => (b.take sc.len).reduceOption

/-- The scopes of the table: what is written in the first `len` slots of its block. -/
def exam_tbl_t.scope_list (tbl : exam_tbl_t) : List exam_scope_t :=
  match tbl.scope with
  | none => []
  | some b => (b.take tbl.len).reduceOption

/-- Every one of the first `len` slots of the scope lies in its block and is written. -/
def exam_scope_t.wf (sc : exam_scope_t) : Prop :=
  sc.test_list.length = sc.len

/-- Every one of the first `len` slots of the table lies in its block and holds
a scope whose own slots do. -/
def exam_tbl_t.wf (tbl : exam_tbl_t) : Prop :=
  tbl.scope_list.length = tbl.len ∧ ∀ sc ∈ tbl.scope_list, sc.wf

instance (sc : exam_scope_t) : Decidable sc.wf := by
  unfold exam_scope_t.wf
  infer_instance

instance (tbl : exam_tbl_t) : Decidable tbl.wf := by
  unfold exam_tbl_t.wf
  infer_instance

/-- The scope holds exactly the tests `ts`, and its block, if allocated, has
`cap` slots, more than are in use. -/
def exam_scope_t.Holds (sc : exam_scope_t) (ts : List exam_test_t) : Prop :=
  sc.len = ts.length ∧
  match sc.tests with
  | none => sc.len = 0
  | some b => b.length = sc.cap ∧ sc.len < sc.cap ∧ ∃ rest, b = ts.map some ++ rest

/-- The table holds exactly the scopes `scs`, and its block, if allocated, has
`cap` slots, more than are in use. -/
def exam_tbl_t.Holds (tbl : exam_tbl_t) (scs : List exam_scope_t) : Prop :=
  tbl.len = scs.length ∧
  match tbl.scope with
  | none => tbl.len = 0
  | some b => b.length = tbl.cap ∧ tbl.len < tbl.cap ∧ ∃ rest, b = scs.map some ++ rest

/-- The registry after the call sequence `calls`: the table holds one scope for
each distinct scope name, in order of first registration, each with the tests
and hooks registered for it. -/
def exam_tbl_t.Registered (tbl : exam_tbl_t) (names : List CString)
    (tests : CString → List exam_test_t) (hook : CString → Bool → Nat) : Prop :=
  ∃ scs : List exam_scope_t, tbl.Holds scs ∧ scs.map (fun sc => sc.name) = names ∧
    ∀ (k : Nat) (hk : k < scs.length),
      scs[k].Holds (tests scs[k].name) ∧ scs[k].before = hook scs[k].name true ∧
        scs[k].after = hook scs[k].name false

/-- Spec, §3: the distinct scope names of a call sequence, each once, in order
of first registration. -/
def spec_scope_names (calls : List Registration) : List CString :=
  calls.foldl (fun acc c => if c.scope ∈ acc then acc else acc ++ [c.scope]) []

/-- Spec, §3: the tests registered under a scope name, in call order. -/
def spec_scope_tests (calls : List Registration) (scope : CString) : List exam_test_t :=
  calls.filterMap (fun c =>
    match c with
    | Registration.test s n f p =>
      if s = scope then some { fn := f, scope := s, name := n, pending := p } else none
    | Registration.each _ _ _ => none)

/-- Spec, §4.1: what one registration call does to the hook of a scope for one
role: a hook registration for that scope and role replaces it. -/
def spec_hook_step (c : Registration) (scope : CString) (before : Bool) (old : Nat) : Nat :=
  match c with
  | Registration.test _ _ _ _ => old
  | Registration.each s f b => if s = scope ∧ b = before then f else old

/-- What one registration call does to the scope it finds or creates. -/
def exam_register_step (c : Registration) (sc : exam_scope_t) : Option exam_scope_t :=
  match c with
  | Registration.test s n f p => exam_insert_test_in_list sc s n f p
  | Registration.each _ f b => some (exam_set_hook f b sc)

/-- Spec, §4.1: the hook of a scope for one role, the last one registered for
it (`NULL` if there is none). -/
def spec_scope_hook (calls : List Registration) (scope : CString) (before : Bool) : Nat :=
  calls.foldl (fun acc c =>
    match c with
    | Registration.test _ _ _ _ => acc
    | Registration.each s f b => if s = scope ∧ b = before then f else acc) NULL

/-! ## Execution engine -/

/-- The scope read by `global_env.tbl.scope[ii]`; `none` if that slot is outside
the block or was never written. -/
def exam_env_t.scope_at (env : exam_env_t) (ii : Nat) : Option exam_scope_t :=
  env.tbl.scope.bind (fun b => Block.read b ii)

/-- The test read by `scope.tests[idx]`; `none` if that slot is outside the block
or was never written. -/
def exam_scope_t.test_at (sc : exam_scope_t) (idx : Nat) : Option exam_test_t :=
  sc.tests.bind (fun b => Block.read b idx)


/-- How a call through a function pointer ends: it returns, or a failed
assertion leaves it through `siglongjmp(global_sig, 1)`. -/
inductive Outcome (σ : Type) where
  | done (s : σ)
  | jump (s : σ)
deriving DecidableEq

/-- Calls made by the runner: the reporters, and (ghost) the calls through the
function pointers of scope index `scope` and test index `test`. -/
inductive Event where
  | printf_name (buf : List Char)
  | exam_print_running_all (count : Nat)
  | exam_print_running_test (len : Nat) (name : CString)
  | exam_print_pending (buf : List Char)
  | exam_print_run (buf : List Char)
  | exam_print_ok (buf : List Char)
  | exam_print_failed (buf : List Char)
  | exam_print_passed_scope (passed : Nat) (name : CString)
  | printf_newline
  | exam_print_passed_result (passed : Nat)
  | exam_print_final (count : Nat)
  | call_before (scope test fn : Nat)
  | call_fn (scope test fn : Nat)
  | call_after (scope test fn : Nat)
deriving DecidableEq

/-- The locals of `exam_run`, the state of the program under test, the number
of `rand()` calls made so far and the trace. -/
structure Locals (σ : Type) where
  user : σ
  trace : List Event
  rand_calls : Nat
  retValue : Nat
  count : Nat
  passed : Nat
  printed_scope : Bool
  scope_passed : Nat
deriving DecidableEq

/-- Where control goes after a piece of `exam_run`: on to the next statement,
out of the process through `exit(code)`, or into undefined behaviour. -/
inductive Flow (α : Type) where
  | next (a : α)
  | exit (code : Nat) (a : α)
  | undefined (a : α)
deriving DecidableEq

/-- How `exam_run` ends. -/
inductive Status where
  | returned (retValue : Nat)
  | exited (code : Nat)
  | undefined
deriving DecidableEq

structure RunResult (σ : Type) where
  status : Status
  final : Locals σ
deriving DecidableEq

def Locals.emit {σ : Type} (s : Locals σ) (e : Event) : Locals σ :=
  { s with trace := s.trace ++ [e] }

/-- Lines 133-135 of `exam_create_shuffle`, with `n` iterations left at index `i`. -/
def exam_shuffle_fill (array : Block Nat) : Nat → Nat → Option (Block Nat)
  | 0, _ => some array
  | n + 1, i =>
    match Block.write array i i with
    | none => none
    | some a => exam_shuffle_fill a n (i + 1)

/-- Lines 137-143, with `m` iterations left at index `i`, after `calls` calls of `rand()`. -/
def exam_shuffle_swap (RAND_MAX : Nat) (rand : Nat → Nat) (n : Nat) (array : Block Nat)
    (calls : Nat) : Nat → Nat → Option (Block Nat × Nat)
  | 0, _ => some (array, calls)
  | m + 1, i =>
    let rnd := rand calls
    let j := i + rnd / (RAND_MAX / (n - i) + 1)
    match Block.read array j with
    | none => none
    | some t =>
      match Block.read array i with
      | none => none
      | some ai =>
        match Block.write array j ai with
        | none => none
        | some a1 =>
          match Block.write a1 i t with
          | none => none
          | some a2 => exam_shuffle_swap RAND_MAX rand n a2 (calls + 1) m (i + 1)

/-- Lines 127-146.  The outer `none` is undefined behaviour; the inner one is
the `NULL` returned when shuffling is off.  The array has `tbl.len` slots. -/
def exam_create_shuffle (env : exam_env_t) (RAND_MAX : Nat) (rand : Nat → Nat) (n : Nat)
    (calls : Nat) : Option (Option (Block Nat) × Nat) :=
  if !env.shuffle then some (none, calls)
  else
    match exam_shuffle_fill (Block.malloc env.tbl.len) n 0 with
    | none => none
    | some array =>
      if n > 1 then
        match exam_shuffle_swap RAND_MAX rand n array calls (n - 1) 0 with
        | none => none
        | some (a, c) => some (some a, c)
      else some (some array, calls)

/-- A call through a function pointer inside the armed window, recorded as `e`. -/
def exam_call {σ : Type} (code : Nat → σ → Outcome σ) (fn : Nat) (e : Event)
    (s : Locals σ) : Outcome (Locals σ) :=
  match code fn s.user with
  | Outcome.done u => Outcome.done { s.emit e with user := u }
  | Outcome.jump u => Outcome.jump { s.emit e with user := u }

/-- One iteration of the repeat loop, lines 328-337. -/
def exam_run_once {σ : Type} (code : Nat → σ → Outcome σ) (sc : exam_scope_t)
    (t : exam_test_t) (ii idx : Nat) (s : Locals σ) : Outcome (Locals σ) :=
  let r1 :=
    if sc.before ≠ NULL then exam_call code sc.before (Event.call_before ii idx sc.before) s
    else Outcome.done s
  match r1 with
  | Outcome.jump s1 => Outcome.jump s1
  | Outcome.done s1 =>
    match exam_call code t.fn (Event.call_fn ii idx t.fn) s1 with
    | Outcome.jump s2 => Outcome.jump s2
    | Outcome.done s2 =>
      if sc.after ≠ NULL then exam_call code sc.after (Event.call_after ii idx sc.after) s2
      else Outcome.done s2

/-- The repeat loop, lines 327-338, with `k` iterations left. -/
def exam_run_repeat {σ : Type} (code : Nat → σ → Outcome σ) (sc : exam_scope_t)
    (t : exam_test_t) (ii idx : Nat) : Nat → Locals σ → Outcome (Locals σ)
  | 0, s => Outcome.done s
  | k + 1, s =>
    match exam_run_once code sc t ii idx s with
    | Outcome.jump s1 => Outcome.jump s1
    | Outcome.done s1 => exam_run_repeat code sc t ii idx k s1

/-- Lines 302-307: the index of the current test in its scope, and the test.
`none` is a read outside a block or of a slot never written. -/
def exam_current_test (env : exam_env_t) (sc : exam_scope_t)
    (tests_indices : Option (Block Nat)) (j : Nat) : Option (Nat × exam_test_t) :=
  let idx : Option Nat :=
    if env.shuffle then tests_indices.bind (fun a => Block.read a j) else some j
  match idx with
  | none => none
  | some idx => (sc.test_at idx).map (fun t => (idx, t))

/-- Lines 314-353: what the test loop does with a test that passed the filter. -/
def exam_run_selected {σ : Type} (env : exam_env_t) (code : Nat → σ → Outcome σ)
    (sc : exam_scope_t) (ii idx : Nat) (current_test : exam_test_t) (buf : List Char)
    (s : Locals σ) : Flow (Locals σ) :=
  let s1 : Locals σ :=
    if !s.printed_scope then
      { s.emit (Event.exam_print_running_test sc.len sc.name) with printed_scope := true }
    else s
  if current_test.pending then
    Flow.next (s1.emit (Event.exam_print_pending buf))
  else
    match exam_run_repeat code sc current_test ii idx env.repeat_
        (s1.emit (Event.exam_print_run buf)) with
    | Outcome.done s2 =>
      Flow.next
        ({ s2 with passed := s2.passed + 1, scope_passed := s2.scope_passed + 1 }.emit
          (Event.exam_print_ok buf))
    | Outcome.jump s2 =>
      let s3 : Locals σ := { s2.emit (Event.exam_print_failed buf) with retValue := 1 }
      if env.die_on_fail then Flow.exit 1 s3 else Flow.next s3

/-- The body of the test loop, lines 302-353, for scope `sc` at index `ii` and
loop index `j`. -/
def exam_run_test {σ : Type} (env : exam_env_t) (code : Nat → σ → Outcome σ)
    (sc : exam_scope_t) (ii : Nat) (tests_indices : Option (Block Nat)) (j : Nat)
    (s : Locals σ) : Flow (Locals σ) :=
  match exam_current_test env sc tests_indices j with
  | none => Flow.undefined s
  | some (idx, current_test) =>
    let buf := exam_concat_scope_name current_test
    let skip : Option Bool :=
      match env.filter with
      | none => some false
      | some f => (exam_filter_test buf f.val).map (fun r => !r)
    match skip with
    | none => Flow.undefined s
    | some true => Flow.next s
    | some false => exam_run_selected env code sc ii idx current_test buf s

/-- The test loop, lines 301-354, with `n` iterations left at index `j`. -/
def exam_run_tests {σ : Type} (env : exam_env_t) (code : Nat → σ → Outcome σ)
    (sc : exam_scope_t) (ii : Nat) (tests_indices : Option (Block Nat)) :
    Nat → Nat → Locals σ → Flow (Locals σ)
  | 0, _, s => Flow.next s
  | n + 1, j, s =>
    match exam_run_test env code sc ii tests_indices j s with
    | Flow.next s1 => exam_run_tests env code sc ii tests_indices n (j + 1) s1
    | r => r

/-- The body of the scope loop, lines 294-359, at loop index `i`. -/
def exam_run_scope {σ : Type} (env : exam_env_t) (RAND_MAX : Nat) (rand : Nat → Nat)
    (code : Nat → σ → Outcome σ) (scopes_indices : Option (Block Nat)) (i : Nat)
    (s : Locals σ) : Flow (Locals σ) :=
  let ii : Option Nat :=
    if env.shuffle then scopes_indices.bind (fun a => Block.read a i) else some i
  match ii with
  | none => Flow.undefined s
  | some ii =>
    match env.scope_at ii with
    | none => Flow.undefined s
    | some sc =>
      let s0 : Locals σ := { s with printed_scope := false, scope_passed := 0 }
      match exam_create_shuffle env RAND_MAX rand sc.len s0.rand_calls with
      | none => Flow.undefined s0
      | some (tests_indices, calls) =>
        match exam_run_tests env code sc ii tests_indices sc.len 0
            { s0 with rand_calls := calls } with
        | Flow.next s1 =>
          if s1.printed_scope then
            match env.scope_at i with
            | none => Flow.undefined s1
            | some sci =>
              Flow.next
                ((s1.emit (Event.exam_print_passed_scope s1.scope_passed sci.name)).emit
                  Event.printf_newline)
          else Flow.next s1
        | r => r

/-- The scope loop, lines 293-360, with `n` iterations left at index `i`. -/
def exam_run_scopes {σ : Type} (env : exam_env_t) (RAND_MAX : Nat) (rand : Nat → Nat)
    (code : Nat → σ → Outcome σ) (scopes_indices : Option (Block Nat)) :
    Nat → Nat → Locals σ → Flow (Locals σ)
  | 0, _, s => Flow.next s
  | n + 1, i, s =>
    match exam_run_scope env RAND_MAX rand code scopes_indices i s with
    | Flow.next s1 => exam_run_scopes env RAND_MAX rand code scopes_indices n (i + 1) s1
    | r => r

/-- The inner loop of the enumeration pass, lines 267-280, with `n` iterations
left at index `j`. -/
def exam_run_enum_tests {σ : Type} (env : exam_env_t) (sc : exam_scope_t) :
    Nat → Nat → Locals σ → Flow (Locals σ)
  | 0, _, s => Flow.next s
  | n + 1, j, s =>
    match sc.test_at j with
    | none => Flow.undefined s
    | some t =>
      let buf := exam_concat_scope_name t
      match env.filter with
      | some f =>
        match exam_filter_test buf f.val with
        | none => Flow.undefined s
        | some true =>
          let s1 := if env.list then s.emit (Event.printf_name buf) else s
          exam_run_enum_tests env sc n (j + 1) { s1 with count := s1.count + 1 }
        | some false => exam_run_enum_tests env sc n (j + 1) s
      | none => exam_run_enum_tests env sc n (j + 1) (s.emit (Event.printf_name buf))

/-- The enumeration pass, lines 261-284, with `n` iterations left at index `i`. -/
def exam_run_enum {σ : Type} (env : exam_env_t) : Nat → Nat → Locals σ → Flow (Locals σ)
  | 0, _, s => Flow.next s
  | n + 1, i, s =>
    match env.scope_at i with
    | none => Flow.undefined s
    | some sc =>
      if env.filter ≠ none ∨ env.list then
        match exam_run_enum_tests env sc sc.len 0 s with
        | Flow.next s1 => exam_run_enum env n (i + 1) s1
        | r => r
      else exam_run_enum env n (i + 1) { s with count := s.count + sc.len }

/-- Lines 258-368. -/
def exam_run {σ : Type} (env : exam_env_t) (RAND_MAX : Nat) (rand : Nat → Nat)
    (code : Nat → σ → Outcome σ) (user : σ) : RunResult σ :=
  let s0 : Locals σ :=
    { user := user, trace := [], rand_calls := 0, retValue := 0, count := 0, passed := 0,
      printed_scope := false, scope_passed := 0 }
  match exam_run_enum env env.tbl.len 0 s0 with
  | Flow.undefined s => { status := Status.undefined, final := s }
  | Flow.exit c s => { status := Status.exited c, final := s }
  | Flow.next s1 =>
    if env.list then { status := Status.exited 0, final := s1 }
    else
      match exam_create_shuffle env RAND_MAX rand env.tbl.len s1.rand_calls with
      | none => { status := Status.undefined, final := s1 }
      | some (scopes_indices, calls) =>
        let s2 := { s1 with rand_calls := calls }.emit (Event.exam_print_running_all s1.count)
        match exam_run_scopes env RAND_MAX rand code scopes_indices env.tbl.len 0 s2 with
        | Flow.undefined s => { status := Status.undefined, final := s }
        | Flow.exit c s => { status := Status.exited c, final := s }
        | Flow.next s3 =>
          { status := Status.returned s3.retValue,
            final := (s3.emit (Event.exam_print_passed_result s3.passed)).emit
              (Event.exam_print_final s3.count) }

/-! ## Reading a run -/

/-- The state a piece of `exam_run` ends in, whichever way it ends. -/
def Flow.state {α : Type} : Flow α → α
  | Flow.next a => a
  | Flow.exit _ a => a
  | Flow.undefined a => a

/-- The state a call ends in, whichever way it ends. -/
def Outcome.state {σ : Type} : Outcome σ → σ
  | Outcome.done s => s
  | Outcome.jump s => s

/-- The qualified name `scope.name` of a test passes the filter. -/
def exam_env_t.selects (env : exam_env_t) (t : exam_test_t) : Bool :=
  match env.filter with
  | none => true
  | some f => f.val.isPrefixOf (exam_concat_scope_name t)

/-- What a call through a function pointer is made for: the pointer is the
non-null `before` hook, the body or the non-null `after` hook of a test that
is stored in the table, is not pending and passes the filter.  The reporter
events carry no such obligation. -/
def Event.Justified (env : exam_env_t) : Event → Prop
  | Event.call_before ii idx fn =>
    ∃ sc t, env.scope_at ii = some sc ∧ sc.test_at idx = some t ∧ t.pending = false ∧
      sc.before = fn ∧ fn ≠ NULL ∧ env.selects t = true
  | Event.call_fn ii idx fn =>
    ∃ sc t, env.scope_at ii = some sc ∧ sc.test_at idx = some t ∧ t.pending = false ∧
      t.fn = fn ∧ env.selects t = true
  | Event.call_after ii idx fn =>
    ∃ sc t, env.scope_at ii = some sc ∧ sc.test_at idx = some t ∧ t.pending = false ∧
      sc.after = fn ∧ fn ≠ NULL ∧ env.selects t = true
  | _ => True

/-- The event is a failure report. -/
def Event.is_failed : Event → Bool
  | Event.exam_print_failed _ => true
  | _ => false

/-- The event is a call through a function pointer. -/
def Event.is_call : Event → Bool
  | Event.call_before _ _ _ => true
  | Event.call_fn _ _ _ => true
  | Event.call_after _ _ _ => true
  | _ => false

/-- What holds of the locals throughout a run: every call in the trace is
justified, and `retValue` is 0 as long as no failure has been reported and 1
from then on, a failure being reported only after some call. -/
def Locals.Inv {σ : Type} (env : exam_env_t) (s : Locals σ) : Prop :=
  (∀ e ∈ s.trace, Event.Justified env e) ∧
  ((s.retValue = 0 ∧ s.trace.all (fun e => !e.is_failed) = true) ∨
   (s.retValue = 1 ∧ s.trace.any Event.is_failed = true ∧
     s.trace.any Event.is_call = true))

/-- The qualified name of the test an event starts to process: a test is
processed by being reported pending or by being run. -/
def Event.processed : Event → Option (List Char)
  | Event.exam_print_pending buf => some buf
  | Event.exam_print_run buf => some buf
  | _ => none

/-- The qualified names of the selected tests among `ts`, in order. -/
def exam_env_t.selected_names (env : exam_env_t) (ts : List exam_test_t) : List (List Char) :=
  (ts.filter env.selects).map exam_concat_scope_name

/-- All tests of the table: scopes in table order, tests in insertion order. -/
def exam_tbl_t.all_tests (tbl : exam_tbl_t) : List exam_test_t :=
  tbl.scope_list.flatMap (fun sc => sc.test_list)

/-- The qualified names of the tests a trace processes, in order. -/
def trace_processed (trace : List Event) : List (List Char) :=
  trace.filterMap Event.processed

/-- How a piece of `exam_run` that is to process the tests named `names` leaves
the state `s`.  If it goes on to the next statement it has processed exactly
those tests, in order, and under die-on-fail `retValue` is as before.  If it
leaves through `exit`, the code is 1, die-on-fail is set, and it has processed
the tests up to one named `buf`, whose failure report is the last event.  It
does not run into undefined behaviour. -/
def Flow.Follows {σ : Type} (env : exam_env_t) (s : Locals σ) (names : List (List Char)) :
    Flow (Locals σ) → Prop
  | Flow.next s1 =>
    trace_processed s1.trace = trace_processed s.trace ++ names ∧
      (env.die_on_fail = true → s1.retValue = s.retValue)
  | Flow.exit c s1 =>
    c = 1 ∧ env.die_on_fail = true ∧
      ∃ (l : List (List Char)) (buf : List Char) (s2 : Locals σ),
        (l ++ [buf]) <+: names ∧
        trace_processed s1.trace = trace_processed s.trace ++ (l ++ [buf]) ∧
        Locals.Inv env s2 ∧ s2.retValue = s.retValue ∧
        s1.trace = s2.trace ++ [Event.exam_print_failed buf]
  | Flow.undefined _ => False

/-- What calling an optional hook does to the program under test: nothing if
the pointer is null. -/
def exam_hook {σ : Type} (code : Nat → σ → Outcome σ) (fn : Nat) (u : σ) : Outcome σ :=
  if fn ≠ NULL then code fn u else Outcome.done u

/-- The calls of one repetition up to and including the body: the `before`
hook if it is set, then the body. -/
def exam_rep_head (sc : exam_scope_t) (t : exam_test_t) (ii idx : Nat) : List Event :=
  (if sc.before ≠ NULL then [Event.call_before ii idx sc.before] else []) ++
    [Event.call_fn ii idx t.fn]

/-- The calls of one complete repetition: the `before` hook if it is set, the
body, the `after` hook if it is set. -/
def exam_rep_events (sc : exam_scope_t) (t : exam_test_t) (ii idx : Nat) : List Event :=
  exam_rep_head sc t ii idx ++
    (if sc.after ≠ NULL then [Event.call_after ii idx sc.after] else [])

/-- The scope header, printed unless it has been printed already. -/
def exam_header_events {σ : Type} (sc : exam_scope_t) (s : Locals σ) : List Event :=
  if s.printed_scope then [] else [Event.exam_print_running_test sc.len sc.name]

/-- A string literal as a C string. -/
def cstr (s : String) (h : NUL ∉ s.toList) : CString := ⟨s.toList, h⟩

/-- A program under test that logs the address of every function called; the
functions at the addresses in `failing` fail an assertion. -/
def demo_code (failing : List Nat) (fn : Nat) (u : List Nat) : Outcome (List Nat) :=
  if fn ∈ failing then Outcome.jump (u ++ [fn]) else Outcome.done (u ++ [fn])

/-- The table after the calls `calls` (the empty table if they are undefined). -/
def demo_tbl (calls : List Registration) : exam_tbl_t :=
  (exam_register_all exam_tbl_t.zero calls).getD exam_tbl_t.zero

/-- The default options of `exam_init` over the table after `calls`. -/
def demo_env (calls : List Registration) : exam_env_t :=
  { tbl := demo_tbl calls, filter := none, repeat_ := 1, list := false, shuffle := false,
    shortd := false, die_on_fail := false }

/-- The tests `math.add`, `math.sub` and `str.concat`. -/
def math_calls : List Registration :=
  [Registration.test (cstr "math" (by decide)) (cstr "add" (by decide)) 1 false,
   Registration.test (cstr "math" (by decide)) (cstr "sub" (by decide)) 2 false,
   Registration.test (cstr "str" (by decide)) (cstr "concat" (by decide)) 3 false]

/-- The filter `math.`. -/
def math_filter : CString := cstr "math." (by decide)

/-- The scope at index `i` of the table after `calls`. -/
def demo_scope (calls : List Registration) (i : Nat) : exam_scope_t :=
  ((demo_env calls).scope_at i).getD (exam_scope_t.fresh (cstr "" (by decide)))

/-- The test at index `j` of the scope at index `i` of the table after `calls`. -/
def demo_test (calls : List Registration) (i j : Nat) : exam_test_t :=
  ((demo_scope calls i).test_at j).getD
    { fn := NULL, scope := cstr "" (by decide), name := cstr "" (by decide), pending := false }

/-- The locals of `exam_run` on entry. -/
def demo_locals {σ : Type} (user : σ) : Locals σ :=
  { user := user, trace := [], rand_calls := 0, retValue := 0, count := 0, passed := 0,
    printed_scope := false, scope_passed := 0 }

/-- The run options of the filter example: filter `math.`. -/
def math_env : exam_env_t := { demo_env math_calls with filter := some math_filter }

/-- The run options of the filter example with die-on-fail on. -/
def math_die_env : exam_env_t := { math_env with die_on_fail := true }

/-- One scope `s` holding the tests `a`, a pending `p` and `b`. -/
def pending_calls : List Registration :=
  [Registration.test (cstr "s" (by decide)) (cstr "a" (by decide)) 1 false,
   Registration.test (cstr "s" (by decide)) (cstr "p" (by decide)) 2 true,
   Registration.test (cstr "s" (by decide)) (cstr "b" (by decide)) 3 false]

/-- One scope `s` holding the tests `A`, `B` and `C`, in that order. -/
def abc_calls : List Registration :=
  [Registration.test (cstr "s" (by decide)) (cstr "A" (by decide)) 1 false,
   Registration.test (cstr "s" (by decide)) (cstr "B" (by decide)) 2 false,
   Registration.test (cstr "s" (by decide)) (cstr "C" (by decide)) 3 false]

/-- The run options of the die-on-fail example. -/
def abc_env : exam_env_t := { demo_env abc_calls with die_on_fail := true }

/-- One scope `s` with a `before` hook at 10, an `after` hook at 11 and one
test with its body at 1. -/
def hook_calls : List Registration :=
  [Registration.each (cstr "s" (by decide)) 10 true,
   Registration.each (cstr "s" (by decide)) 11 false,
   Registration.test (cstr "s" (by decide)) (cstr "t" (by decide)) 1 false]

/-- The run options of the repeat example: `--repeat 3`. -/
def hook_env : exam_env_t := { demo_env hook_calls with repeat_ := 3 }

/-- A program under test with three counters: the hook at 10 increments the
first, the body at 1 the second and the hook at 11 the third. -/
def count_code (fn : Nat) (u : Nat × Nat × Nat) : Outcome (Nat × Nat × Nat) :=
  if fn = 10 then Outcome.done (u.1 + 1, u.2.1, u.2.2)
  else if fn = 1 then Outcome.done (u.1, u.2.1 + 1, u.2.2)
  else if fn = 11 then Outcome.done (u.1, u.2.1, u.2.2 + 1)
  else Outcome.done u

/-- As `count_code`, but the body fails an assertion on its second call, after
incrementing its counter. -/
def count_code_fail (fn : Nat) (u : Nat × Nat × Nat) : Outcome (Nat × Nat × Nat) :=
  if fn = 1 then
    (if u.2.1 = 1 then Outcome.jump (u.1, u.2.1 + 1, u.2.2)
     else Outcome.done (u.1, u.2.1 + 1, u.2.2))
  else count_code fn u

/-- A scope `s` whose `before` hook is registered twice, at 10 and then at 20. -/
def rehook_calls : List Registration :=
  [Registration.each (cstr "s" (by decide)) 10 true,
   Registration.test (cstr "s" (by decide)) (cstr "t" (by decide)) 1 false,
   Registration.each (cstr "s" (by decide)) 20 true]

/-- One scope `s` holding four tests. -/
def one_calls : List Registration :=
  [Registration.test (cstr "s" (by decide)) (cstr "a" (by decide)) 1 false,
   Registration.test (cstr "s" (by decide)) (cstr "b" (by decide)) 2 false,
   Registration.test (cstr "s" (by decide)) (cstr "c" (by decide)) 3 false,
   Registration.test (cstr "s" (by decide)) (cstr "d" (by decide)) 4 false]

/-- The run options `--shuffle` over the one scope of four tests. -/
def one_shuffle_env : exam_env_t := { demo_env one_calls with shuffle := true }


/-! ## Reading the report of a run -/

/-- The event is a scope header (the running banner of a scope). -/
def Event.is_header : Event → Bool
  | Event.exam_print_running_test _ _ => true
  | _ => false

/-- The event is the passed summary of a scope. -/
def Event.is_summary : Event → Bool
  | Event.exam_print_passed_scope _ _ => true
  | _ => false

/-- The event reports a test as pending. -/
def Event.is_pending : Event → Bool
  | Event.exam_print_pending _ => true
  | _ => false

/-- The event reports a test as passed. -/
def Event.is_ok : Event → Bool
  | Event.exam_print_ok _ => true
  | _ => false

/-- The test count a scope header reports; 0 for every other event. -/
def Event.banner_count : Event → Nat
  | Event.exam_print_running_test len _ => len
  | _ => 0

/-- The sum of the test counts reported by the scope headers of a trace. -/
def trace_banner_sum (trace : List Event) : Nat :=
  (trace.map Event.banner_count).sum

/-- The tests of scope `sc` in run order: those that `exam_current_test` reads
at the loop indices `0, ..., sc.len - 1`. -/
def exam_run_order (env : exam_env_t) (sc : exam_scope_t)
    (tests_indices : Option (Block Nat)) (j n : Nat) : List exam_test_t :=
  (List.range' j n).filterMap
    (fun k => (exam_current_test env sc tests_indices k).map Prod.snd)

/-- What the test loop of scope `sc` has done between the states `s` and `s1`
when it has gone through the tests `vis`, in run order.  It has added the events
`evs`: one pending report for each selected pending test, one passed or failed
report for each other selected test, no scope summary, and the scope header
exactly if it was not printed before and some test of `vis` is selected, in
which case the header comes first and is followed at once by the report that
starts the first selected test.  `passed` and `scope_passed` have grown by the
number of passed reports. -/
def Locals.Ran {σ : Type} (env : exam_env_t) (sc : exam_scope_t) (vis : List exam_test_t)
    (s s1 : Locals σ) : Prop :=
  ∃ evs : List Event, s1.trace = s.trace ++ evs ∧
    s1.printed_scope = (s.printed_scope || vis.any env.selects) ∧
    s1.count = s.count ∧
    s1.passed = s.passed + evs.countP Event.is_ok ∧
    s1.scope_passed = s.scope_passed + evs.countP Event.is_ok ∧
    evs.countP Event.is_pending
      = (vis.filter (fun t => env.selects t && t.pending)).length ∧
    evs.countP Event.is_ok + evs.countP Event.is_failed
      = (vis.filter (fun t => env.selects t && !t.pending)).length ∧
    evs.countP Event.is_summary = 0 ∧
    (s.printed_scope = true → evs.countP Event.is_header = 0) ∧
    (vis.filter env.selects = [] → evs = []) ∧
    (s.printed_scope = false → ∀ t0 l, vis.filter env.selects = t0 :: l →
      ∃ e rest, evs = Event.exam_print_running_test sc.len sc.name :: e :: rest ∧
        e.processed = some (exam_concat_scope_name t0) ∧
        (e :: rest).countP Event.is_header = 0)

/-- How the test loop of scope `sc`, set to go through the tests `vis`, leaves
the state `s`: it goes on after all of them, or leaves through `exit(1)` right
after a selected test of `vis`. -/
def Flow.Ran {σ : Type} (env : exam_env_t) (sc : exam_scope_t) (vis : List exam_test_t)
    (s : Locals σ) : Flow (Locals σ) → Prop
  | Flow.next s1 => Locals.Ran env sc vis s s1
  | Flow.exit c s1 =>
    c = 1 ∧ ∃ (pre : List exam_test_t) (t : exam_test_t) (post : List exam_test_t),
      vis = pre ++ t :: post ∧ env.selects t = true ∧ Locals.Ran env sc (pre ++ [t]) s s1
  | Flow.undefined _ => True

/-- What the scope loop has done between the states `s` and `s1` when it has
gone through the scopes `scs`: the counts of the reports it has added, against
the tests of those scopes. -/
def Locals.Tally {σ : Type} (env : exam_env_t) (scs : List exam_scope_t)
    (s s1 : Locals σ) : Prop :=
  ∃ evs : List Event, s1.trace = s.trace ++ evs ∧
    s1.count = s.count ∧
    s1.passed = s.passed + evs.countP Event.is_ok ∧
    evs.countP Event.is_pending
      = ((scs.flatMap (fun sc => sc.test_list)).filter
          (fun t => env.selects t && t.pending)).length ∧
    evs.countP Event.is_ok + evs.countP Event.is_failed
      = ((scs.flatMap (fun sc => sc.test_list)).filter
          (fun t => env.selects t && !t.pending)).length ∧
    trace_banner_sum evs
      = ((scs.filter (fun sc => sc.test_list.any env.selects)).map (fun sc => sc.len)).sum

/-- Between the states `s` and `s1` only calls through function pointers were
made: the trace has grown by call events, and the counters and the header flag
are as before. -/
def Locals.Called {σ : Type} (s s1 : Locals σ) : Prop :=
  ∃ calls : List Event, s1.trace = s.trace ++ calls ∧
    (∀ x ∈ calls, x.is_call = true) ∧
    s1.passed = s.passed ∧ s1.scope_passed = s.scope_passed ∧ s1.count = s.count ∧
    s1.printed_scope = s.printed_scope

/-! ## The swap index of the shuffle -/

/-- Line 139 in the naturals: the index that is swapped with `i`. -/
def exam_shuffle_index (RAND_MAX n i rnd : Nat) : Nat :=
  i + rnd / (RAND_MAX / (n - i) + 1)

/-- Line 139 as the machine computes it, every operation in `size_t`, which has
the values `0, ..., SIZE_MAX`: `n - i` wraps around, a division by zero is
undefined (`none`), and `+` wraps around. -/
def exam_shuffle_index_size_t (SIZE_MAX RAND_MAX n i rnd : Nat) : Option Nat :=
  let m := SIZE_MAX + 1
  let d := (n % m + m - i % m) % m
  if d = 0 then none
  else
    let q := ((RAND_MAX % m) / d + 1) % m
    if q = 0 then none
    else some ((i % m + (rnd % m) / q) % m)

/-! ## The memory assertions -/

/-- The value of the plain `char` object that holds the byte `byte`: where
plain `char` is signed (`char_signed`, as on x86-64), a byte of `0x80` or more
is the negative number `byte - 256`. -/
def char_value (char_signed : Bool) (byte : Nat) : Int :=
  if char_signed && decide (128 ≤ byte) then (byte : Int) - 256 else (byte : Int)

/-- The conversion `%02x` of `printf` on an argument that arrives as the `int`
`v`: the argument is read as an `unsigned int` (32 bits), written in lowercase
hexadecimal and padded with zeros to two digits. -/
def printf_02x (v : Int) : List Char :=
  let ds := Nat.toDigits 16 (v % 2 ^ 32).toNat
  if ds.length < 2 then '0' :: ds else ds

/-- The lines the memory assertions print, one constructor for each `printf`
call of lines 528-545 and 614-631, with what the call prints (the two pointers
of the last line apart).  In `difference_at_offset` and `same_at_offset`, `l`
and `r` are the texts the two `%02x` conversions produce. -/
inductive MemLine where
  | error_at_line (file : List Char) (line : Int)
  | difference_at_offset (i : Nat) (l r : List Char)
  | same_at_offset (i : Nat) (l r : List Char)
  | dots
  | bytes_different (differences : Nat)
  | bytes_same (differences : Nat)
deriving DecidableEq

/-- The line of lines 532 and 618 for the offset `i`, where the objects hold the
bytes `l` and `r`: the bytes are read into plain `char` objects (lines 522-523
and 608-609), which the call promotes to `int` and `%02x` prints. -/
def exam_mem_line (char_signed : Bool) (mk : Nat → List Char → List Char → MemLine)
    (i l r : Nat) : MemLine :=
  mk i (printf_02x (char_value char_signed l)) (printf_02x (char_value char_signed r))

/-- The loop of lines 521-537 and of lines 607-623, which differ in the
comparison `hit` (`l != r` or `l == r`) and in the line `report` printed for an
offset: `n` iterations left at offset `i`, with the counter `differences` and the
lines `out` printed so far.  The buffers are the objects `a` and `b`, given by
the bytes they hold (two `char` objects are equal exactly if they hold the same
byte); a read outside one of them is undefined (`none`). -/
def exam_assert_mem_loop (hit : Nat → Nat → Bool) (report : Nat → Nat → Nat → MemLine)
    (shortd : Bool) (a b : List Nat) (file : List Char) (line : Int) :
    Nat → Nat → Nat → List MemLine → Option (Nat × List MemLine)
  | 0, _, differences, out => some (differences, out)
  | n + 1, i, differences, out =>
    match a.get? i, b.get? i with
    | some l, some r =>
      if hit l r then
        let out1 :=
          if differences < 16 then
            let out0 :=
              if differences = 0 then
                (if !shortd then out ++ [MemLine.error_at_line file line] else out)
              else out
            if !shortd then out0 ++ [report i l r] else out0
          else out
        exam_assert_mem_loop hit report shortd a b file line n (i + 1) (differences + 1) out1
      else exam_assert_mem_loop hit report shortd a b file line n (i + 1) differences out
    | _, _ => none

/-- Lines 538-550 and 624-636: what follows the loop.  `Outcome.jump` is
`siglongjmp(global_sig, 1)`, `Outcome.done` the return to the test body; both
carry the lines printed. -/
def exam_assert_mem_end (total : Nat → MemLine) (shortd : Bool) (differences : Nat)
    (out : List MemLine) : Outcome (List MemLine) :=
  if differences > 0 then
    let out1 :=
      if differences ≥ 16 then (if !shortd then out ++ [MemLine.dots] else out) else out
    let out2 := if !shortd then out1 ++ [total differences] else out1
    Outcome.jump out2
  else Outcome.done out

/-- Lines 515-551, over the `len` first bytes of the objects `expected` and
`result`, with `global_env.shortd` as `shortd`, on a platform whose plain `char`
is signed or not (`char_signed`). -/
def _exam_assert_equal_mem (char_signed shortd : Bool) (expected result : List Nat)
    (len : Nat) (file : List Char) (line : Int) : Option (Outcome (List MemLine)) :=
  (exam_assert_mem_loop (fun l r => l != r)
      (exam_mem_line char_signed MemLine.difference_at_offset) shortd
      expected result file line len 0 0 []).map
    (fun p => exam_assert_mem_end MemLine.bytes_different shortd p.1 p.2)

/-- Lines 601-637, over the `len` first bytes of the objects `expected` and
`result`, with `global_env.shortd` as `shortd`, on a platform whose plain `char`
is signed or not (`char_signed`). -/
def _exam_assert_not_equal_mem (char_signed shortd : Bool) (expected result : List Nat)
    (len : Nat) (file : List Char) (line : Int) : Option (Outcome (List MemLine)) :=
  (exam_assert_mem_loop (fun l r => l == r)
      (exam_mem_line char_signed MemLine.same_at_offset) shortd
      expected result file line len 0 0 []).map
    (fun p => exam_assert_mem_end MemLine.bytes_same shortd p.1 p.2)

/-- The byte `byte` in hexadecimal, two lowercase digits. -/
def spec_hex_byte (byte : Nat) : List Char :=
  [Nat.digitChar (byte / 16 % 16), Nat.digitChar (byte % 16)]

/-- The report line of an offset with the two byte values in hexadecimal. -/
def spec_mem_line (mk : Nat → List Char → List Char → MemLine) (i l r : Nat) : MemLine :=
  mk i (spec_hex_byte l) (spec_hex_byte r)

/-- The offsets below `len` at which the bytes of `a` and `b` differ, in
increasing order. -/
def spec_differing_offsets (a b : List Nat) (len : Nat) : List Nat :=
  (List.range len).filter (fun i => a.getD i 0 != b.getD i 0)

/-- The offsets below `len` at which the bytes of `a` and `b` are the same, in
increasing order. -/
def spec_same_offsets (a b : List Nat) (len : Nat) : List Nat :=
  (List.range len).filter (fun i => a.getD i 0 == b.getD i 0)

/-- The report of a failed memory assertion in verbose mode for the offsets
`offs` found: the call site, one line for each of the first 16 offsets with the
two bytes at that offset, a line of dots if there are 16 offsets or more, and
the total. -/
def spec_failure_report (report : Nat → Nat → Nat → MemLine) (total : Nat → MemLine)
    (a b : List Nat) (file : List Char) (line : Int) (offs : List Nat) : List MemLine :=
  [MemLine.error_at_line file line]
    ++ (offs.take 16).map (fun i => report i (a.getD i 0) (b.getD i 0))
    ++ (if 16 ≤ offs.length then [MemLine.dots] else [])
    ++ [total offs.length]

/-- The lines the loop of a memory assertion has printed once it has found the
offsets `offs`: nothing in short mode, else the call site if there is an offset
and one line for each of the first 16 offsets. -/
def spec_loop_report (report : Nat → Nat → Nat → MemLine) (shortd : Bool)
    (a b : List Nat) (file : List Char) (line : Int) (offs : List Nat) : List MemLine :=
  if shortd then []
  else
    (if offs = [] then [] else [MemLine.error_at_line file line])
      ++ (offs.take 16).map (fun i => report i (a.getD i 0) (b.getD i 0))

/-! ## Startup: the command line -/

/-- The test `strncmp(s, lit, n) == 0` of the C library on two C strings: the
first `n` characters agree, the comparison ending at a terminator. -/
def strncmp_eq (s lit : List Char) (n : Nat) : Bool :=
  (s ++ [NUL]).take n == (lit ++ [NUL]).take n

/-- The white space of the C library (`isspace` in the C locale). -/
def isspace (c : Char) : Bool :=
  c.toNat = 32 || (9 ≤ c.toNat && c.toNat ≤ 13)

/-- The value of the leading decimal digits of a string, after `acc`. -/
def atoi_digits : List Char → Nat → Nat
  | [], acc => acc
  | c :: cs, acc =>
    if 48 ≤ c.toNat ∧ c.toNat ≤ 57 then atoi_digits cs (acc * 10 + (c.toNat - 48)) else acc

/-- The function `atoi` of the C library: white space is skipped, then an
optional sign and the leading decimal digits are read; a string without digits
there gives 0.  The result is undefined (`none`) if it is not a value of `int`,
taken to have 32 bits. -/
def atoi (s : List Char) : Option Int :=
  let v : Int :=
    match s.dropWhile isspace with
    | '-' :: cs => - (atoi_digits cs 0 : Int)
    | '+' :: cs => (atoi_digits cs 0 : Int)
    | cs => (atoi_digits cs 0 : Int)
  if - 2 ^ 31 ≤ v ∧ v < 2 ^ 31 then some v else none

/-- Modelled from the spec: the run options of `global_env` that `exam_init`
assigns (`examiner.h` is not among the sources).  `repeat_` is the `int` that
`atoi` returns, before any conversion to the type of the field; `color` is true
for the colored matcher. -/
structure exam_init_env where
  filter : Option CString
  color : Bool
  longest_name_len : Nat
  repeat_ : Int
  list : Bool
  shuffle : Bool
  shortd : Bool
  die_on_fail : Bool
deriving DecidableEq

/-- What `exam_init` prints before it leaves through `exit`: the five messages
on standard error of lines 184, 194, 200, 209 and 219, the help page and the
version line on standard output, and the message of line 249 with the option it
does not know. -/
inductive InitMessage where
  | filter_requires_parameter
  | repeat_requires_parameter
  | repeat_not_valid
  | color_requires_parameter
  | color_neither_on_nor_off
  | help (argv0 : CString)
  | version
  | option_not_found (arg : CString)
deriving DecidableEq

/-- How `exam_init` ends: it returns with the options set, it leaves the process
through `exit(code)` after a message, or its behaviour is undefined. -/
inductive InitResult where
  | returned (env : exam_init_env)
  | exited (code : Nat) (message : InitMessage)
  | undefined
deriving DecidableEq

/-- The options loop of lines 177-254, with the arguments `argv[i], ...,
argv[argc - 1]` still to be looked at; `(i + 1) == argc` holds when one
argument is left, and `argv[++i]` takes the one after it. -/
def exam_init_loop (argv0 : CString) : List CString → exam_init_env → InitResult
  | [], env => InitResult.returned env
  | arg :: rest, env =>
    if strncmp_eq arg.val "--list-tests".toList 12 then
      exam_init_loop argv0 rest { env with list := true }
    else if strncmp_eq arg.val "--short".toList 7 then
      exam_init_loop argv0 rest { env with shortd := true }
    else if strncmp_eq arg.val "--filter".toList 8 then
      match rest with
      | [] => InitResult.exited 1 InitMessage.filter_requires_parameter
      | v :: rest1 => exam_init_loop argv0 rest1 { env with filter := some v }
    else if strncmp_eq arg.val "--shuffle".toList 9 then
      exam_init_loop argv0 rest { env with shuffle := true }
    else if strncmp_eq arg.val "--repeat".toList 8 then
      match rest with
      | [] => InitResult.exited 1 InitMessage.repeat_requires_parameter
      | v :: rest1 =>
        match atoi v.val with
        | none => InitResult.undefined
        | some n =>
          if n = 0 then InitResult.exited 1 InitMessage.repeat_not_valid
          else exam_init_loop argv0 rest1 { env with repeat_ := n }
    else if strncmp_eq arg.val "--die-on-fail".toList 13 then
      exam_init_loop argv0 rest { env with die_on_fail := true }
    else if strncmp_eq arg.val "--color".toList 7 then
      match rest with
      | [] => InitResult.exited 1 InitMessage.color_requires_parameter
      | v :: rest1 =>
        if strncmp_eq v.val "on".toList 2 then
          exam_init_loop argv0 rest1 { env with color := true }
        else if strncmp_eq v.val "off".toList 3 then
          exam_init_loop argv0 rest1 { env with color := false }
        else InitResult.exited 1 InitMessage.color_neither_on_nor_off
    else if strncmp_eq arg.val "--help".toList 6 || strncmp_eq arg.val "-h".toList 2 then
      InitResult.exited 0 (InitMessage.help argv0)
    else if strncmp_eq arg.val "--version".toList 8 || strncmp_eq arg.val "-v".toList 2 then
      InitResult.exited 0 InitMessage.version
    else InitResult.exited 1 (InitMessage.option_not_found arg)

/-- The options as lines 168-175 set them. -/
def exam_init_default : exam_init_env :=
  { filter := none, color := true, longest_name_len := 0, repeat_ := 1, list := false,
    shuffle := false, shortd := false, die_on_fail := false }

/-- Lines 165-256 on the argument vector `argv` (`argc` is its length). -/
def exam_init (argv : List CString) : InitResult :=
  match argv with
  | [] => InitResult.returned exam_init_default
  | argv0 :: args => exam_init_loop argv0 args exam_init_default

/-- The argument is accepted by none of the comparisons of the options loop. -/
def exam_init_unknown (arg : CString) : Bool :=
  !(strncmp_eq arg.val "--list-tests".toList 12 || strncmp_eq arg.val "--short".toList 7
    || strncmp_eq arg.val "--filter".toList 8 || strncmp_eq arg.val "--shuffle".toList 9
    || strncmp_eq arg.val "--repeat".toList 8 || strncmp_eq arg.val "--die-on-fail".toList 13
    || strncmp_eq arg.val "--color".toList 7 || strncmp_eq arg.val "--help".toList 6
    || strncmp_eq arg.val "-h".toList 2 || strncmp_eq arg.val "--version".toList 8
    || strncmp_eq arg.val "-v".toList 2)

/-- The recognised flags of the command line, as the help page lists them. -/
def spec_recognised_flags : List (List Char) :=
  ["--list-tests".toList, "--short".toList, "--filter".toList, "--shuffle".toList,
   "--repeat".toList, "--die-on-fail".toList, "--color".toList, "--help".toList,
   "-h".toList, "--version".toList, "-v".toList]

/-! ## More concrete registries and runs -/

/-- The run options of the banner example: filter `math.a` over `math.add`,
`math.sub` and `str.concat`. -/
def math_a_env : exam_env_t :=
  { demo_env math_calls with filter := some (cstr "math.a" (by decide)) }

/-- The scope `a` holding the test `x` and the scope `b` holding the test `y`. -/
def two_calls : List Registration :=
  [Registration.test (cstr "a" (by decide)) (cstr "x" (by decide)) 1 false,
   Registration.test (cstr "b" (by decide)) (cstr "y" (by decide)) 2 false]

/-- The run options `--shuffle` over the scopes `a` and `b`. -/
def two_shuffle_env : exam_env_t := { demo_env two_calls with shuffle := true }

/-! ## The capacity invariant of the registry -/

/-- What holds of the storage of a scope once its test block is allocated: the
block has `cap` slots, fewer than `cap` of them are in use, and `cap` is 16
doubled some number of times. -/
def exam_scope_t.Capacity (sc : exam_scope_t) : Prop :=
  ∀ b, sc.tests = some b → b.length = sc.cap ∧ sc.len < sc.cap ∧ ∃ k, sc.cap = 16 * 2 ^ k

/-- What holds of the storage of the table: once its block is allocated, the
block has `cap` slots, fewer than `cap` of them are in use, and `cap` is 8
doubled some number of times; and every scope in the table satisfies the
invariant of its own storage. -/
def exam_tbl_t.Capacity (tbl : exam_tbl_t) : Prop :=
  (∀ b, tbl.scope = some b →
    b.length = tbl.cap ∧ tbl.len < tbl.cap ∧ ∃ k, tbl.cap = 8 * 2 ^ k) ∧
  ∀ sc ∈ tbl.scope_list, sc.Capacity

/-- The scope `sc1` is what a registration call has made of the scope `sc`: it
has the same name, its tests begin with the tests of `sc`, and if the test block
was allocated already the capacity is as before or twice that. -/
def exam_scope_t.Grown (sc sc1 : exam_scope_t) : Prop :=
  sc1.name = sc.name ∧ sc.test_list <+: sc1.test_list ∧
    (sc.tests ≠ none → sc1.tests ≠ none ∧ (sc1.cap = sc.cap ∨ sc1.cap = 2 * sc.cap))

/-- The table `tbl1` is what a registration call has made of the table `tbl`:
if the block was allocated already the capacity is as before or twice that, and
every scope of `tbl` is found at its index in `tbl1`, grown. -/
def exam_tbl_t.Grown (tbl tbl1 : exam_tbl_t) : Prop :=
  (tbl.scope ≠ none → tbl1.cap = tbl.cap ∨ tbl1.cap = 2 * tbl.cap) ∧
  ∀ (k : Nat) (sc : exam_scope_t), tbl.scope_list[k]? = some sc →
    ∃ sc1, tbl1.scope_list[k]? = some sc1 ∧ sc.Grown sc1

/-- The test `s.t`, registered again and again. -/
def same_test : Registration :=
  Registration.test (cstr "s" (by decide)) (cstr "t" (by decide)) 1 false

/-- Hooks for the seven scopes `a`, ..., `g`. -/
def seven_scopes : List Registration :=
  [Registration.each (cstr "a" (by decide)) 10 true,
   Registration.each (cstr "b" (by decide)) 10 true,
   Registration.each (cstr "c" (by decide)) 10 true,
   Registration.each (cstr "d" (by decide)) 10 true,
   Registration.each (cstr "e" (by decide)) 10 true,
   Registration.each (cstr "f" (by decide)) 10 true,
   Registration.each (cstr "g" (by decide)) 10 true]

/-! ## What the reporters print -/

/-- What the runner writes on the standard output, one constructor for each
`printf` of lines 60-125 and of `exam_run`, with the arguments it prints, the
colour codes apart.  `running_scope` is the scope header of verbose mode (line
68), `scope_name` the scope header of short mode (line 71: the name, padded or
cut to `longest_name_len` characters, and a colon); `mark` is the line of short
mode that consists of the colour code `colour` and the reset code alone (lines
80, 94 and 102). -/
inductive Printed where
  | name_line (buf : List Char)
  | running_all (count : Nat)
  | running_scope (len : Nat) (name : CString)
  | scope_name (name : CString)
  | pending (name : List Char)
  | run (name : List Char)
  | ok (name : List Char)
  | failed (name : List Char)
  | mark (colour : Nat)
  | passed_scope (passed : Nat) (name : CString)
  | newline
  | passed_result (passed : Nat)
  | final (count : Nat)
deriving DecidableEq

/-- What a call of a reporter prints, lines 60-125, with `global_env.shortd` as
`shortd`: `exam_print_running_all`, `exam_print_run`, `exam_print_passed_scope`,
`exam_print_passed_result` and `exam_print_final` print in verbose mode only;
`exam_print_running_test` prints in both modes; `exam_print_pending`,
`exam_print_ok` and `exam_print_failed` print a line in verbose mode and colour
codes in short mode.  The two plain `printf` calls of `exam_run` print in both
modes.  A call through a function pointer is not a reporter: what the program
under test prints is not part of the output modelled. -/
def exam_print (shortd : Bool) : Event → List Printed
  | Event.printf_name buf => [Printed.name_line buf]
  | Event.exam_print_running_all count =>
    if !shortd then [Printed.running_all count] else []
  | Event.exam_print_running_test len name =>
    if !shortd then [Printed.running_scope len name] else [Printed.scope_name name]
  | Event.exam_print_pending buf =>
    if !shortd then [Printed.pending buf] else [Printed.mark 34]
  | Event.exam_print_run buf => if !shortd then [Printed.run buf] else []
  | Event.exam_print_ok buf => if !shortd then [Printed.ok buf] else [Printed.mark 32]
  | Event.exam_print_failed buf =>
    if !shortd then [Printed.failed buf] else [Printed.mark 31]
  | Event.exam_print_passed_scope passed name =>
    if !shortd then [Printed.passed_scope passed name] else []
  | Event.printf_newline => [Printed.newline]
  | Event.exam_print_passed_result passed =>
    if !shortd then [Printed.passed_result passed] else []
  | Event.exam_print_final count => if !shortd then [Printed.final count] else []
  | Event.call_before _ _ _ => []
  | Event.call_fn _ _ _ => []
  | Event.call_after _ _ _ => []

/-- What the reporter calls of a trace print, in order. -/
def exam_stdout (shortd : Bool) (trace : List Event) : List Printed :=
  trace.flatMap (exam_print shortd)

/-- The printed item is a scope header, in either mode. -/
def Printed.is_header : Printed → Bool
  | Printed.running_scope _ _ => true
  | Printed.scope_name _ => true
  | _ => false

/-- The printed item is the passed summary of a scope. -/
def Printed.is_summary : Printed → Bool
  | Printed.passed_scope _ _ => true
  | _ => false

/-- The scope header as it is printed in the mode `shortd`. -/
def Printed.header (shortd : Bool) (sc : exam_scope_t) : Printed :=
  if shortd then Printed.scope_name sc.name else Printed.running_scope sc.len sc.name

/-! ## What a run does to the program under test -/

/-- The program under test at the end of a call made by the runner, with the
way the call ended. -/
def Outcome.user {σ : Type} : Outcome (Locals σ) → Outcome σ
  | Outcome.done s => Outcome.done s.user
  | Outcome.jump s => Outcome.jump s.user

/-- What one iteration of the repeat loop, lines 328-337, does to the program
under test: the `before` hook if it is set, the body, the `after` hook if it is
set, up to the first of them that fails an assertion. -/
def exam_once_user {σ : Type} (code : Nat → σ → Outcome σ) (sc : exam_scope_t)
    (t : exam_test_t) (u : σ) : Outcome σ :=
  match exam_hook code sc.before u with
  | Outcome.jump u1 => Outcome.jump u1
  | Outcome.done u1 =>
    match code t.fn u1 with
    | Outcome.jump u2 => Outcome.jump u2
    | Outcome.done u2 => exam_hook code sc.after u2

/-- What the repeat loop, lines 327-338, does to the program under test, with
`k` iterations left: `Outcome.jump` if an iteration fails an assertion, which
ends the loop, `Outcome.done` otherwise. -/
def exam_repeat_user {σ : Type} (code : Nat → σ → Outcome σ) (sc : exam_scope_t)
    (t : exam_test_t) : Nat → σ → Outcome σ
  | 0, u => Outcome.done u
  | k + 1, u =>
    match exam_once_user code sc t u with
    | Outcome.jump u1 => Outcome.jump u1
    | Outcome.done u1 => exam_repeat_user code sc t k u1

/-- The tests of the table in run order with shuffling off, each with its
scope: scopes in table order, tests in insertion order. -/
def exam_tbl_t.run_items (tbl : exam_tbl_t) : List (exam_scope_t × exam_test_t) :=
  tbl.scope_list.flatMap (fun sc => sc.test_list.map (fun t => (sc, t)))

/-- What running the tests `items` one after another does to the program under
test, as long as none fails: a test that the filter rejects or that is pending
is not executed; `Outcome.jump` is the state in which the first failing test
left the program under test, the tests after it not being executed. -/
def exam_tests_user {σ : Type} (env : exam_env_t) (code : Nat → σ → Outcome σ) :
    List (exam_scope_t × exam_test_t) → σ → Outcome σ
  | [], u => Outcome.done u
  | (sc, t) :: rest, u =>
    if env.selects t && !t.pending then
      match exam_repeat_user code sc t env.repeat_ u with
      | Outcome.jump u1 => Outcome.jump u1
      | Outcome.done u1 => exam_tests_user env code rest u1
    else exam_tests_user env code rest u

/-- How a piece of `exam_run` that is to go through the tests `items` under
die-on-fail leaves the state `s`.  If all of them pass, it goes on to the next
statement, having processed the selected ones, with the program under test as
they left it.  If the test `t` is the first to fail, it leaves through
`exit(1)`, having processed the selected tests before `t` and then `t`, with
the program under test as the failing repetition left it. -/
def Flow.Tracks {σ : Type} (env : exam_env_t) (code : Nat → σ → Outcome σ) (s : Locals σ)
    (items : List (exam_scope_t × exam_test_t)) (r : Flow (Locals σ)) : Prop :=
  (∀ u1, exam_tests_user env code items s.user = Outcome.done u1 →
    ∃ s1, r = Flow.next s1 ∧ s1.user = u1 ∧
      trace_processed s1.trace
        = trace_processed s.trace ++ env.selected_names (items.map Prod.snd)) ∧
  (∀ pre sc t post u1 u2, items = pre ++ (sc, t) :: post →
    exam_tests_user env code pre s.user = Outcome.done u1 →
    env.selects t = true → t.pending = false →
    exam_repeat_user code sc t env.repeat_ u1 = Outcome.jump u2 →
    ∃ s1, r = Flow.exit 1 s1 ∧ s1.user = u2 ∧
      trace_processed s1.trace
        = trace_processed s.trace ++ env.selected_names (pre.map Prod.snd)
            ++ [exam_concat_scope_name t])

/-- The run options of the filter example in short mode. -/
def math_short_env : exam_env_t := { math_env with shortd := true }

/-! ## The filter predicate -/

theorem cstr_get_lt {s : List Char} {i : Nat} (h : i < s.length) :
    cstr_get s i = some s[i] := by
  simp [cstr_get, h]

theorem cstr_get_length (s : List Char) : cstr_get s s.length = some NUL := by
  simp [cstr_get]

/-- The loop of `exam_filter_test` from index `i` decides whether what is left
of the filter is a prefix of what is left of the name. -/
theorem exam_filter_test_loop_eq (name filter : List Char) (hf : NUL ∉ filter) :
    ∀ (fuel i : Nat), i ≤ filter.length → i ≤ name.length → filter.length + 1 ≤ fuel + i →
      exam_filter_test_loop name filter fuel i
        = some ((filter.drop i).isPrefixOf (name.drop i)) := by
  intro fuel
  induction fuel with
  | zero => intro i hi _ hfuel; omega
  | succ fuel ih =>
    intro i hi hin hfuel
    unfold exam_filter_test_loop
    rcases Nat.lt_or_ge i filter.length with hlt | hge
    · have hfi : filter[i] ≠ NUL := fun h => hf (h ▸ List.getElem_mem _)
      rw [cstr_get_lt hlt]
      simp only [hfi, if_false]
      rw [List.drop_eq_getElem_cons hlt]
      rcases Nat.lt_or_ge i name.length with hn | hn
      · rw [cstr_get_lt hn, List.drop_eq_getElem_cons hn]
        by_cases hc : name[i] = filter[i]
        · simp only [hc, ne_eq, not_true_eq_false, if_false]
          rw [ih (i + 1) (by omega) (by omega) (by omega)]
          simp [List.isPrefixOf]
        · have hc2 : ¬ filter[i] = name[i] := fun h => hc h.symm
          simp [List.isPrefixOf, hc, hc2]
      · have hne : i = name.length := by omega
        subst hne
        rw [cstr_get_length]
        have hc : ¬ NUL = filter[name.length] := fun h => hfi h.symm
        simp only [ne_eq, hc, not_false_eq_true, if_true, List.drop_length]
        rfl
    · have : i = filter.length := by omega
      subst this
      simp [cstr_get_length, List.isPrefixOf]

theorem exam_filter_test_eq (name : List Char) (filter : CString) :
    exam_filter_test name filter.val = some (filter.val.isPrefixOf name) := by
  have := exam_filter_test_loop_eq name filter.val filter.property (filter.val.length + 1) 0
    (Nat.zero_le _) (Nat.zero_le _) (by omega)
  simpa [exam_filter_test] using this

/-- C1: `exam_filter_test name filter` returns, and returns true exactly when
`filter` is a prefix of `name`; so the empty filter matches every name and a
filter longer than the name matches none. -/
theorem exam_filter_test_prefix (name filter : CString) :
    (∃ r : Bool, exam_filter_test name.val filter.val = some r ∧
      (r = true ↔ filter.val <+: name.val)) ∧
    (filter.val = [] → exam_filter_test name.val filter.val = some true) ∧
    (name.val.length < filter.val.length →
      exam_filter_test name.val filter.val = some false) := by
  have h := exam_filter_test_eq name.val filter
  refine ⟨⟨_, h, by simp⟩, ?_, ?_⟩
  · intro he
    rw [h, he]
    simp
  · intro hlen
    rw [h]
    have : ¬ filter.val <+: name.val := fun hp => by
      have := hp.length_le
      omega
    cases hb : filter.val.isPrefixOf name.val with
    | false => rfl
    | true => exact absurd (List.isPrefixOf_iff_prefix.mp hb) this

/-- C1 at the name `math.add` and the filter `math.`. -/
theorem exam_filter_test_prefix_witness :
    (∃ r : Bool, exam_filter_test "math.add".toList "math.".toList = some r ∧
      (r = true ↔ "math.".toList <+: "math.add".toList)) ∧
    ("math.".toList = [] → exam_filter_test "math.add".toList "math.".toList = some true) ∧
    ("math.add".toList.length < "math.".toList.length →
      exam_filter_test "math.add".toList "math.".toList = some false) :=
  exam_filter_test_prefix ⟨"math.add".toList, by decide⟩ ⟨"math.".toList, by decide⟩

/-! ## Heap blocks -/

theorem Block.read_map_some {α : Type} (l : List α) (rest : Block α) (i : Nat)
    (h : i < l.length) : Block.read (l.map some ++ rest) i = some l[i] := by
  simp [Block.read, List.getElem?_append_left, h]

theorem Block.write_map_some_set {α : Type} (l : List α) (rest : Block α) (i : Nat) (v : α)
    (h : i < l.length) :
    Block.write (l.map some ++ rest) i v = some ((l.set i v).map some ++ rest) := by
  have h1 : i < (l.map some ++ rest).length := by simp; omega
  simp only [Block.write, h1, if_true]
  rw [List.set_append_left _ _ (by simpa using h), List.map_set]

theorem Block.write_map_some_push {α : Type} (l : List α) (rest : Block α) (v : α)
    (h : rest ≠ []) :
    Block.write (l.map some ++ rest) l.length v = some ((l ++ [v]).map some ++ rest.tail) := by
  obtain ⟨r, rs, rfl⟩ := List.exists_cons_of_ne_nil h
  have h1 : l.length < (l.map some ++ r :: rs).length := by simp
  simp only [Block.write, h1, if_true]
  rw [List.set_append_right _ _ (by simp)]
  simp

theorem Block.realloc_map_some {α : Type} (l : List α) (rest : Block α) (n : Nat)
    (h : (l.map some ++ rest).length ≤ n) :
    Block.realloc (l.map some ++ rest) n
      = l.map some ++ (rest ++ List.replicate (n - (l.map some ++ rest).length) none) := by
  simp only [Block.realloc]
  rw [List.take_of_length_le h, List.append_assoc]

theorem Block.length_realloc {α : Type} (b : Block α) (n : Nat) (h : b.length ≤ n) :
    (Block.realloc b n).length = n := by
  simp [Block.realloc]
  omega

theorem reduceOption_map_some {α : Type} (l : List α) : (l.map some).reduceOption = l := by
  induction l with
  | nil => rfl
  | cons a l ih => simp [List.reduceOption_cons_of_some, ih]

theorem eq_map_some_of_reduceOption_length {α : Type} :
    ∀ (l : List (Option α)), l.reduceOption.length = l.length → l = l.reduceOption.map some
  | [], _ => rfl
  | none :: l, h => by
    have := List.reduceOption_length_le l
    simp [List.reduceOption_cons_of_none] at h
    omega
  | some a :: l, h => by
    simp [List.reduceOption_cons_of_some] at h
    simp only [List.reduceOption_cons_of_some, List.map_cons]
    rw [← eq_map_some_of_reduceOption_length l h]

/-- If the written slots among the first `n` of a block number `n`, the block
starts with `n` written slots. -/
theorem Block.eq_of_reduceOption_length {α : Type} (b : Block α) (n : Nat)
    (h : (b.take n).reduceOption.length = n) :
    b = (b.take n).reduceOption.map some ++ b.drop n := by
  have h1 := List.reduceOption_length_le (b.take n)
  have h2 : (b.take n).length ≤ n := by simp
  have h3 : (b.take n).reduceOption.length = (b.take n).length := by omega
  rw [← eq_map_some_of_reduceOption_length _ h3, List.take_append_drop]

theorem take_map_some_append {α : Type} (l : List α) (rest : Block α) :
    ((l.map some ++ rest).take l.length).reduceOption = l := by
  have h : (l.map some ++ rest).take l.length = l.map some := by
    rw [List.take_append_of_le_length (by simp), List.take_of_length_le (by simp)]
  rw [h, reduceOption_map_some]

/-! ## Registry -/

theorem exam_scope_t.Holds.test_list {sc : exam_scope_t} {ts : List exam_test_t}
    (h : sc.Holds ts) : sc.test_list = ts := by
  obtain ⟨hlen, hb⟩ := h
  unfold exam_scope_t.test_list
  cases hts : sc.tests with
  | none =>
    rw [hts] at hb
    simp only at hb ⊢
    exact (List.length_eq_zero.mp (by omega)).symm
  | some b =>
    rw [hts] at hb
    obtain ⟨_, _, rest, rfl⟩ := hb
    simp only [hlen]
    exact take_map_some_append ts rest

theorem exam_scope_t.Holds.scope_wf {sc : exam_scope_t} {ts : List exam_test_t}
    (h : sc.Holds ts) : sc.wf := by
  unfold exam_scope_t.wf
  rw [h.test_list, h.1]

theorem exam_tbl_t.Holds.scope_list {tbl : exam_tbl_t} {scs : List exam_scope_t}
    (h : tbl.Holds scs) : tbl.scope_list = scs := by
  obtain ⟨hlen, hb⟩ := h
  unfold exam_tbl_t.scope_list
  cases hts : tbl.scope with
  | none =>
    rw [hts] at hb
    simp only at hb ⊢
    exact (List.length_eq_zero.mp (by omega)).symm
  | some b =>
    rw [hts] at hb
    obtain ⟨_, _, rest, rfl⟩ := hb
    simp only [hlen]
    exact take_map_some_append scs rest

/-- Lines 370-386 append the test to the scope and keep `len < cap`. -/
theorem exam_insert_test_in_list_holds (sc : exam_scope_t) (ts : List exam_test_t)
    (scope name : CString) (fn : Nat) (pending : Bool) (h : sc.Holds ts) :
    ∃ sc1, exam_insert_test_in_list sc scope name fn pending = some sc1 ∧
      sc1.Holds (ts ++ [{ fn := fn, scope := scope, name := name, pending := pending }]) ∧
      sc1.name = sc.name ∧ sc1.before = sc.before ∧ sc1.after = sc.after := by
  obtain ⟨hlen, hb⟩ := h
  cases hts : sc.tests with
  | none =>
    rw [hts] at hb
    simp only at hb
    have hnil : ts = [] := List.length_eq_zero.mp (by omega)
    subst hnil
    refine ⟨_, by simp [exam_insert_test_in_list, hts, Block.malloc, Block.write]; rfl, ?_⟩
    refine ⟨⟨by simp, ?_⟩, rfl, rfl, rfl⟩
    simp only
    refine ⟨by simp, by simp, List.replicate 15 none, ?_⟩
    simp [List.replicate]
  | some b =>
    rw [hts] at hb
    obtain ⟨hcap, hlt, rest, rfl⟩ := hb
    by_cases hgrow : sc.len + 1 ≥ sc.cap
    · have hle : (ts.map some ++ rest).length ≤ sc.cap * 2 := by omega
      have hne : rest ++ List.replicate (sc.cap * 2 - (ts.map some ++ rest).length) none ≠ [] := by
        intro h0
        have := congrArg List.length h0
        simp at this
        simp at hcap
        omega
      refine ⟨_, by
        simp only [exam_insert_test_in_list, hts, hgrow, if_true]
        rw [Block.realloc_map_some _ _ _ hle, hlen, Block.write_map_some_push _ _ _ hne], ?_⟩
      refine ⟨⟨by simp, ?_⟩, rfl, rfl, rfl⟩
      simp only
      refine ⟨?_, by omega, _, rfl⟩
      simp at hcap ⊢
      have : rest.length + (sc.cap * 2 - (ts.length + rest.length)) ≥ 1 := by omega
      omega
    · have hne : rest ≠ [] := by
        intro h0
        subst h0
        simp at hcap
        omega
      refine ⟨_, by
        simp only [exam_insert_test_in_list, hts, hgrow, if_false]
        rw [hlen, Block.write_map_some_push _ _ _ hne], ?_⟩
      refine ⟨⟨by simp, ?_⟩, rfl, rfl, rfl⟩
      simp only
      refine ⟨?_, by omega, _, rfl⟩
      obtain ⟨r, rs, rfl⟩ := List.exists_cons_of_ne_nil hne
      simp at hcap ⊢
      omega

theorem _exam_register_test_eq (tbl : exam_tbl_t) (scope name : CString) (fn : Nat)
    (pending : Bool) :
    _exam_register_test tbl scope name fn pending
      = exam_update_scope tbl scope
          (fun s => exam_insert_test_in_list s scope name fn pending) := rfl

theorem _exam_register_each_eq (tbl : exam_tbl_t) (scope : CString) (fn : Nat)
    (before : Bool) :
    _exam_register_each tbl scope fn before
      = exam_update_scope tbl scope (fun s => some (exam_set_hook fn before s)) := by
  unfold _exam_register_each exam_update_scope exam_set_hook
  rfl

theorem exam_ensure_tbl_holds (tbl : exam_tbl_t) (scs : List exam_scope_t)
    (h : tbl.Holds scs) :
    (exam_ensure_tbl tbl).Holds scs ∧ (exam_ensure_tbl tbl).scope ≠ none := by
  obtain ⟨hlen, hb⟩ := h
  unfold exam_ensure_tbl
  cases hs : tbl.scope with
  | none =>
    rw [hs] at hb
    simp only at hb
    have hnil : scs = [] := List.length_eq_zero.mp (by omega)
    subst hnil
    refine ⟨⟨rfl, ?_⟩, by simp⟩
    simp only
    exact ⟨by simp [Block.malloc], by decide, Block.malloc 8, rfl⟩
  | some b =>
    simp only
    exact ⟨⟨hlen, by rw [hs] at hb ⊢; exact hb⟩, by simp [hs]⟩

/-- The search loop finds a scope of that name, or there is none from `i` on. -/
theorem exam_find_scope_spec (scs : List exam_scope_t) (rest : Block exam_scope_t)
    (scope : CString) :
    ∀ (n i : Nat), n + i = scs.length →
      (∃ (k : Nat) (hk : k < scs.length),
        exam_find_scope (scs.map some ++ rest) scope n i = some (some k) ∧
          scs[k].name = scope) ∨
      (exam_find_scope (scs.map some ++ rest) scope n i = some none ∧
        ∀ (k : Nat) (hk : k < scs.length), i ≤ k → scs[k].name ≠ scope) := by
  intro n
  induction n with
  | zero =>
    intro i hi
    right
    exact ⟨rfl, fun k hk hik => by omega⟩
  | succ n ih =>
    intro i hi
    have hlt : i < scs.length := by omega
    unfold exam_find_scope
    rw [Block.read_map_some scs rest i hlt]
    by_cases hc : scope = scs[i].name
    · left
      exact ⟨i, hlt, by simp [hc], hc.symm⟩
    · simp only [hc, if_false]
      rcases ih (i + 1) (by omega) with ⟨k, hk, h1, h2⟩ | ⟨h1, h2⟩
      · left
        exact ⟨k, hk, h1, h2⟩
      · right
        refine ⟨h1, fun k hk hik => ?_⟩
        rcases Nat.eq_or_lt_of_le hik with heq | hlt2
        · subst heq
          exact fun h => hc h.symm
        · exact h2 k hk hlt2

/-- Lines 397-411 append a fresh scope to the table and keep `len < cap`. -/
theorem exam_insert_new_scope_holds (tbl : exam_tbl_t) (scs : List exam_scope_t)
    (scope : CString) (h : tbl.Holds scs) (hne : tbl.scope ≠ none) :
    ∃ tbl1, exam_insert_new_scope tbl scope = some (tbl1, scs.length) ∧
      tbl1.Holds (scs ++ [exam_scope_t.fresh scope]) ∧
      tbl1.scope ≠ none := by
  obtain ⟨hlen, hb⟩ := h
  cases hs : tbl.scope with
  | none => exact absurd hs hne
  | some b =>
    rw [hs] at hb
    obtain ⟨hcap, hlt, rest, rfl⟩ := hb
    by_cases hgrow : tbl.len + 1 ≥ tbl.cap
    · have hle : (scs.map some ++ rest).length ≤ tbl.cap * 2 := by omega
      have hne2 : rest ++ List.replicate (tbl.cap * 2 - (scs.map some ++ rest).length) none
          ≠ [] := by
        intro h0
        have := congrArg List.length h0
        simp at this
        simp at hcap
        omega
      refine ⟨_, by
        simp only [exam_insert_new_scope, hs, hgrow, if_true, Option.map_some']
        rw [Block.realloc_map_some _ _ _ hle, hlen, Block.write_map_some_push _ _ _ hne2], ?_⟩
      refine ⟨⟨by simp, ?_⟩, by simp⟩
      simp only
      refine ⟨?_, by omega, _, rfl⟩
      simp at hcap ⊢
      have : rest.length + (tbl.cap * 2 - (scs.length + rest.length)) ≥ 1 := by omega
      omega
    · have hne2 : rest ≠ [] := by
        intro h0
        subst h0
        simp at hcap
        omega
      refine ⟨_, by
        simp only [exam_insert_new_scope, hs, hgrow, if_false]
        rw [hlen, Block.write_map_some_push _ _ _ hne2], ?_⟩
      refine ⟨⟨by simp, ?_⟩, by simp⟩
      simp only
      refine ⟨?_, by omega, _, rfl⟩
      obtain ⟨r, rs, rfl⟩ := List.exists_cons_of_ne_nil hne2
      simp at hcap ⊢
      omega

/-- The shared shape of the two registration functions: the scope called
`scope` is updated in place if the table has one, and a fresh one is appended
and updated otherwise. -/
theorem exam_update_scope_holds (tbl : exam_tbl_t) (scs : List exam_scope_t)
    (scope : CString) (g : exam_scope_t → Option exam_scope_t) (h : tbl.Holds scs)
    (hg : ∀ (k : Nat) (hk : k < scs.length), ∃ sc1, g scs[k] = some sc1)
    (hg0 : ∃ sc1, g (exam_scope_t.fresh scope) = some sc1) :
    ∃ tbl1 scs1, exam_update_scope tbl scope g = some tbl1 ∧ tbl1.Holds scs1 ∧
      ((∃ (k : Nat) (hk : k < scs.length) (sc1 : exam_scope_t), scs[k].name = scope ∧
          g scs[k] = some sc1 ∧ scs1 = scs.set k sc1) ∨
       ((∀ (k : Nat) (hk : k < scs.length), scs[k].name ≠ scope) ∧
          ∃ sc1, g (exam_scope_t.fresh scope) = some sc1 ∧ scs1 = scs ++ [sc1])) := by
  obtain ⟨h1, hne⟩ := exam_ensure_tbl_holds tbl scs h
  unfold exam_update_scope
  simp only
  generalize exam_ensure_tbl tbl = t at h1 hne
  cases hs : t.scope with
  | none => exact absurd hs hne
  | some b =>
    have h1' := h1
    obtain ⟨hlen, hb⟩ := h1'
    rw [hs] at hb
    obtain ⟨hcap, hlt, rest, rfl⟩ := hb
    simp only
    rcases exam_find_scope_spec scs rest scope t.len 0 (by omega) with
      ⟨k, hk, hf, hname⟩ | ⟨hf, hno⟩
    · rw [hf]
      simp only
      rw [Block.read_map_some scs rest k hk]
      obtain ⟨sc1, hsc1⟩ := hg k hk
      simp only [hsc1]
      rw [Block.write_map_some_set scs rest k sc1 hk]
      refine ⟨_, scs.set k sc1, rfl, ⟨by simpa using hlen, ?_⟩, Or.inl ⟨k, hk, sc1, hname, hsc1, rfl⟩⟩
      simp only
      refine ⟨?_, hlt, rest, rfl⟩
      simpa using hcap
    · rw [hf]
      simp only
      obtain ⟨tbl1, hins, hh, hne1⟩ := exam_insert_new_scope_holds t scs scope h1 hne
      rw [hins]
      simp only
      cases hs1 : tbl1.scope with
      | none => exact absurd hs1 hne1
      | some b1 =>
        obtain ⟨hlen1, hb1⟩ := hh
        rw [hs1] at hb1
        obtain ⟨hcap1, hlt1, rest1, rfl⟩ := hb1
        simp only
        have hk : scs.length < (scs ++ [exam_scope_t.fresh scope]).length := by simp
        rw [Block.read_map_some _ rest1 scs.length hk]
        obtain ⟨sc1, hsc1⟩ := hg0
        simp only [List.getElem_concat_length, hsc1]
        rw [Block.write_map_some_set _ rest1 scs.length sc1 hk]
        have hset : (scs ++ [exam_scope_t.fresh scope]).set scs.length sc1
            = scs ++ [sc1] := by
          rw [List.set_append_right _ _ (Nat.le_refl _)]
          simp
        rw [hset]
        refine ⟨_, scs ++ [sc1], rfl, ⟨by simpa using hlen1, ?_⟩,
          Or.inr ⟨fun k hk => hno k hk (Nat.zero_le _), sc1, rfl, rfl⟩⟩
        simp only
        refine ⟨?_, hlt1, rest1, rfl⟩
        simpa using hcap1

/-! ## The registry after a sequence of calls -/

theorem spec_scope_names_append (calls : List Registration) (c : Registration) :
    spec_scope_names (calls ++ [c])
      = if c.scope ∈ spec_scope_names calls then spec_scope_names calls
        else spec_scope_names calls ++ [c.scope] := by
  simp [spec_scope_names, List.foldl_append]

theorem spec_scope_tests_append (calls : List Registration) (c : Registration)
    (scope : CString) :
    spec_scope_tests (calls ++ [c]) scope
      = spec_scope_tests calls scope ++ spec_scope_tests [c] scope := by
  simp [spec_scope_tests, List.filterMap_append]

theorem spec_scope_hook_append_step (calls : List Registration) (c : Registration)
    (scope : CString) (before : Bool) :
    spec_scope_hook (calls ++ [c]) scope before
      = spec_hook_step c scope before (spec_scope_hook calls scope before) := by
  simp only [spec_scope_hook, List.foldl_append, List.foldl_cons, List.foldl_nil]
  cases c <;> rfl

theorem mem_spec_scope_names (calls : List Registration) (x : CString) :
    x ∈ spec_scope_names calls ↔ ∃ c ∈ calls, c.scope = x := by
  induction calls using List.reverseRecOn with
  | nil => simp [spec_scope_names]
  | append_singleton calls c ih =>
    rw [spec_scope_names_append]
    by_cases hc : c.scope ∈ spec_scope_names calls
    · simp only [hc, if_true, ih, List.mem_append, List.mem_singleton]
      constructor
      · rintro ⟨d, hd, rfl⟩
        exact ⟨d, Or.inl hd, rfl⟩
      · rintro ⟨d, hd | rfl, rfl⟩
        · exact ⟨d, hd, rfl⟩
        · exact ih.mp hc
    · simp only [hc, if_false, List.mem_append, List.mem_singleton, ih]
      constructor
      · rintro (⟨d, hd, rfl⟩ | rfl)
        · exact ⟨d, Or.inl hd, rfl⟩
        · exact ⟨c, Or.inr rfl, rfl⟩
      · rintro ⟨d, hd | rfl, rfl⟩
        · exact Or.inl ⟨d, hd, rfl⟩
        · exact Or.inr rfl

theorem spec_scope_names_nodup (calls : List Registration) :
    (spec_scope_names calls).Nodup := by
  induction calls using List.reverseRecOn with
  | nil => simp [spec_scope_names]
  | append_singleton calls c ih =>
    rw [spec_scope_names_append]
    by_cases hc : c.scope ∈ spec_scope_names calls
    · simpa [hc] using ih
    · simp only [hc, if_false]
      exact List.Nodup.append ih (List.nodup_singleton _) (by simpa using hc)

theorem spec_scope_tests_eq_nil (calls : List Registration) (scope : CString)
    (h : scope ∉ spec_scope_names calls) : spec_scope_tests calls scope = [] := by
  rw [mem_spec_scope_names] at h
  simp only [spec_scope_tests, List.filterMap_eq_nil_iff]
  intro c hc
  cases c with
  | test s n f p =>
    have : s ≠ scope := fun e => h ⟨_, hc, e⟩
    simp [this]
  | each s f b => rfl

theorem spec_scope_hook_eq_null (calls : List Registration) (scope : CString) (before : Bool)
    (h : scope ∉ spec_scope_names calls) : spec_scope_hook calls scope before = NULL := by
  induction calls using List.reverseRecOn with
  | nil => rfl
  | append_singleton calls c ih =>
    rw [spec_scope_names_append] at h
    have h1 : scope ∉ spec_scope_names calls := by
      by_cases hc : c.scope ∈ spec_scope_names calls
      · simpa [hc] using h
      · simp only [hc, if_false, List.mem_append, not_or] at h
        exact h.1
    have h2 : c.scope ≠ scope := by
      intro e
      by_cases hc : c.scope ∈ spec_scope_names calls
      · exact h1 (e ▸ hc)
      · simp only [hc, if_false, List.mem_append, List.mem_singleton, not_or] at h
        exact h.2 e.symm
    rw [spec_scope_hook_append_step]
    cases c with
    | test s n f p => exact ih h1
    | each s f b =>
      have : s ≠ scope := h2
      simp [spec_hook_step, this, ih h1]

theorem spec_scope_tests_single_ne (c : Registration) (scope : CString)
    (h : c.scope ≠ scope) : spec_scope_tests [c] scope = [] := by
  cases c with
  | test s n f p =>
    have : s ≠ scope := h
    simp [spec_scope_tests, this]
  | each s f b => rfl

theorem spec_hook_step_ne (c : Registration) (scope : CString) (before : Bool) (old : Nat)
    (h : c.scope ≠ scope) : spec_hook_step c scope before old = old := by
  cases c with
  | test s n f p => rfl
  | each s f b =>
    have : s ≠ scope := h
    simp [spec_hook_step, this]

/-- Scopes of a table with distinct names are told apart by their names. -/
theorem scope_index_of_name (scs : List exam_scope_t)
    (hnd : (scs.map (fun sc => sc.name)).Nodup) (i j : Nat) (hi : i < scs.length)
    (hj : j < scs.length) (h : scs[i].name = scs[j].name) : i = j :=
  (@List.Nodup.getElem_inj_iff _ _ hnd i (by simpa using hi) j (by simpa using hj)).mp
    (by simpa using h)

theorem exam_register_eq (tbl : exam_tbl_t) (c : Registration) :
    exam_register tbl c = exam_update_scope tbl c.scope (exam_register_step c) := by
  cases c with
  | test s n f p => rfl
  | each s f b => exact _exam_register_each_eq tbl s f b

/-- One registration call on the scope it is meant for: the scope keeps its
name, gains the test of a test registration and has the hook of a hook
registration replaced. -/
theorem exam_register_step_holds (c : Registration) (sc : exam_scope_t)
    (ts : List exam_test_t) (h : sc.Holds ts) (hn : sc.name = c.scope) :
    ∃ sc1, exam_register_step c sc = some sc1 ∧ sc1.name = sc.name ∧
      sc1.Holds (ts ++ spec_scope_tests [c] sc.name) ∧
      sc1.before = spec_hook_step c sc.name true sc.before ∧
      sc1.after = spec_hook_step c sc.name false sc.after := by
  cases c with
  | test s n f p =>
    obtain ⟨sc1, h1, h2, h3, h4, h5⟩ := exam_insert_test_in_list_holds sc ts s n f p h
    have hs : s = sc.name := hn.symm
    refine ⟨sc1, h1, h3, ?_, h4, h5⟩
    simpa [spec_scope_tests, hs] using h2
  | each s f b =>
    have hs : s = sc.name := hn.symm
    refine ⟨_, rfl, ?_, ?_, ?_, ?_⟩
    · cases b <;> rfl
    · have : spec_scope_tests [Registration.each s f b] sc.name = [] := rfl
      rw [this, List.append_nil]
      cases b <;> exact h
    · cases b <;> simp [exam_register_step, exam_set_hook, spec_hook_step, hs]
    · cases b <;> simp [exam_register_step, exam_set_hook, spec_hook_step, hs]

/-- One more registration call keeps the table in step with the call sequence. -/
theorem exam_register_registered (tbl : exam_tbl_t) (calls : List Registration)
    (c : Registration)
    (h : tbl.Registered (spec_scope_names calls) (spec_scope_tests calls)
      (spec_scope_hook calls)) :
    ∃ tbl1, exam_register tbl c = some tbl1 ∧
      tbl1.Registered (spec_scope_names (calls ++ [c])) (spec_scope_tests (calls ++ [c]))
        (spec_scope_hook (calls ++ [c])) := by
  obtain ⟨scs, hH, hnames, hall⟩ := h
  have hnd : (scs.map (fun sc => sc.name)).Nodup := hnames ▸ spec_scope_names_nodup calls
  have hfresh : (exam_scope_t.fresh c.scope).Holds [] := ⟨rfl, rfl⟩
  obtain ⟨tbl1, scs1, h1, hH1, hcase⟩ :=
    exam_update_scope_holds tbl scs c.scope (exam_register_step c) hH
      (fun k hk => by
        by_cases hn : scs[k].name = c.scope
        · obtain ⟨sc1, hsc1, _⟩ := exam_register_step_holds c scs[k] _ (hall k hk).1 hn
          exact ⟨sc1, hsc1⟩
        · cases c with
          | test s n f p =>
            obtain ⟨sc1, hsc1, _⟩ :=
              exam_insert_test_in_list_holds scs[k] _ s n f p (hall k hk).1
            exact ⟨sc1, hsc1⟩
          | each s f b => exact ⟨_, rfl⟩)
      (by
        obtain ⟨sc1, hsc1, _⟩ := exam_register_step_holds c _ _ hfresh rfl
        exact ⟨sc1, hsc1⟩)
  refine ⟨tbl1, by rw [exam_register_eq]; exact h1, scs1, hH1, ?_⟩
  rcases hcase with ⟨k, hk, sc1, hname, hg, rfl⟩ | ⟨hno, sc1, hg, rfl⟩
  · obtain ⟨sc1', hsc1', hn1, hh1, hb1, ha1⟩ :=
      exam_register_step_holds c scs[k] _ (hall k hk).1 hname
    have he : sc1' = sc1 := Option.some.inj (hsc1'.symm.trans hg)
    subst he
    have hmem : c.scope ∈ spec_scope_names calls := by
      rw [← hnames, ← hname]
      exact List.mem_map.mpr ⟨scs[k], List.getElem_mem _, rfl⟩
    refine ⟨?_, ?_⟩
    · rw [spec_scope_names_append, if_pos hmem, ← hnames, List.map_set]
      apply List.ext_getElem (by simp)
      intro i h1 h2
      rw [List.getElem_set]
      split
      · next h => subst h; simp [hn1]
      · rfl
    · intro k' hk'
      have hk2 : k' < scs.length := by simpa using hk'
      rw [List.getElem_set]
      split
      · next h =>
        subst h
        rw [spec_scope_tests_append, spec_scope_hook_append_step, spec_scope_hook_append_step,
          hn1, ← (hall k hk2).2.1, ← (hall k hk2).2.2]
        exact ⟨hh1, hb1, ha1⟩
      · next h =>
        have hne : c.scope ≠ scs[k'].name := by
          intro e
          have := scope_index_of_name scs hnd k' k hk2 hk (by rw [← e, hname])
          exact h this.symm
        rw [spec_scope_tests_append, spec_scope_tests_single_ne c _ hne, List.append_nil,
          spec_scope_hook_append_step, spec_scope_hook_append_step,
          spec_hook_step_ne c _ _ _ hne, spec_hook_step_ne c _ _ _ hne]
        exact hall k' hk2
  · obtain ⟨sc1', hsc1', hn1, hh1, hb1, ha1⟩ := exam_register_step_holds c _ _ hfresh rfl
    have he : sc1' = sc1 := Option.some.inj (hsc1'.symm.trans hg)
    subst he
    have hnmem : c.scope ∉ spec_scope_names calls := by
      rw [← hnames]
      intro hm
      obtain ⟨sc, hsc, hsn⟩ := List.mem_map.mp hm
      obtain ⟨k, hk, rfl⟩ := List.getElem_of_mem hsc
      exact hno k hk hsn
    have hn2 : sc1'.name = c.scope := hn1
    refine ⟨?_, ?_⟩
    · rw [spec_scope_names_append, if_neg hnmem, ← hnames]
      simp [hn2]
    · intro k' hk'
      rcases Nat.lt_or_ge k' scs.length with hlt | hge
      · rw [List.getElem_append_left hlt]
        have hne : c.scope ≠ scs[k'].name := fun e => hno k' hlt e.symm
        rw [spec_scope_tests_append, spec_scope_tests_single_ne c _ hne, List.append_nil,
          spec_scope_hook_append_step, spec_scope_hook_append_step,
          spec_hook_step_ne c _ _ _ hne, spec_hook_step_ne c _ _ _ hne]
        exact hall k' hlt
      · have hk3 : k' = scs.length := by
          simp at hk'
          omega
        subst hk3
        simp only [List.getElem_concat_length]
        rw [spec_scope_tests_append, spec_scope_hook_append_step, spec_scope_hook_append_step,
          hn2, spec_scope_tests_eq_nil calls _ hnmem, spec_scope_hook_eq_null calls _ _ hnmem,
          spec_scope_hook_eq_null calls _ _ hnmem]
        exact ⟨hh1, hb1, ha1⟩

theorem exam_register_all_append (tbl : exam_tbl_t) (calls : List Registration)
    (c : Registration) :
    exam_register_all tbl (calls ++ [c])
      = (exam_register_all tbl calls).bind (fun t => exam_register t c) := by
  induction calls generalizing tbl with
  | nil =>
    simp only [List.nil_append, exam_register_all, Option.some_bind]
    cases exam_register tbl c <;> rfl
  | cons d calls ih =>
    simp only [List.cons_append, exam_register_all]
    cases exam_register tbl d with
    | none => rfl
    | some t => simpa using ih t

/-- Every sequence of registration calls from the empty registry is defined and
leaves the table in step with the calls. -/
theorem exam_register_all_registered (calls : List Registration) :
    ∃ tbl, exam_register_all exam_tbl_t.zero calls = some tbl ∧
      tbl.Registered (spec_scope_names calls) (spec_scope_tests calls)
        (spec_scope_hook calls) := by
  induction calls using List.reverseRecOn with
  | nil =>
    exact ⟨exam_tbl_t.zero, rfl, [], ⟨rfl, rfl⟩, rfl, fun k hk => absurd hk (by simp)⟩
  | append_singleton calls c ih =>
    obtain ⟨tbl, h1, h2⟩ := ih
    obtain ⟨tbl1, h3, h4⟩ := exam_register_registered tbl calls c h2
    exact ⟨tbl1, by rw [exam_register_all_append, h1]; exact h3, h4⟩

theorem exam_tbl_t.Registered.tbl_wf {tbl : exam_tbl_t} {names : List CString}
    {tests : CString → List exam_test_t} {hook : CString → Bool → Nat}
    (h : tbl.Registered names tests hook) : tbl.wf := by
  obtain ⟨scs, hH, _, hall⟩ := h
  refine ⟨by rw [hH.scope_list, hH.1], ?_⟩
  rw [hH.scope_list]
  intro sc hsc
  obtain ⟨k, hk, rfl⟩ := List.getElem_of_mem hsc
  exact (hall k hk).1.scope_wf

/-- C8: after any sequence of `_exam_register_test` and `_exam_register_each`
calls from the empty registry, the table is defined, holds each distinct scope
name exactly once in order of first registration, and each scope holds exactly
the tests registered under its name, in call order, duplicates included. -/
theorem exam_register_all_scopes (calls : List Registration) :
    ∃ tbl, exam_register_all exam_tbl_t.zero calls = some tbl ∧ tbl.wf ∧
      tbl.scope_list.map (fun sc => sc.name) = spec_scope_names calls ∧
      (tbl.scope_list.map (fun sc => sc.name)).Nodup ∧
      (∀ x, x ∈ tbl.scope_list.map (fun sc => sc.name) ↔ ∃ c ∈ calls, c.scope = x) ∧
      ∀ sc ∈ tbl.scope_list, sc.test_list = spec_scope_tests calls sc.name := by
  obtain ⟨tbl, h1, h2⟩ := exam_register_all_registered calls
  have hwf := h2.tbl_wf
  obtain ⟨scs, hH, hnames, hall⟩ := h2
  refine ⟨tbl, h1, hwf, ?_, ?_, ?_, ?_⟩
  · rw [hH.scope_list, hnames]
  · rw [hH.scope_list, hnames]
    exact spec_scope_names_nodup calls
  · intro x
    rw [hH.scope_list, hnames]
    exact mem_spec_scope_names calls x
  · rw [hH.scope_list]
    intro sc hsc
    obtain ⟨k, hk, rfl⟩ := List.getElem_of_mem hsc
    exact (hall k hk).1.test_list

/-! ## What holds throughout a run -/

theorem Locals.Inv.congr {σ : Type} {env : exam_env_t} {s s1 : Locals σ}
    (h : Locals.Inv env s) (ht : s1.trace = s.trace) (hr : s1.retValue = s.retValue) :
    Locals.Inv env s1 := by
  unfold Locals.Inv at *
  rw [ht, hr]
  exact h

theorem Locals.Inv.emit {σ : Type} {env : exam_env_t} {s : Locals σ}
    (h : Locals.Inv env s) (e : Event) (hj : Event.Justified env e)
    (hf : e.is_failed = false) : Locals.Inv env (s.emit e) := by
  obtain ⟨h1, h2⟩ := h
  refine ⟨?_, ?_⟩
  · intro x hx
    simp only [Locals.emit, List.mem_append, List.mem_singleton] at hx
    rcases hx with hx | rfl
    · exact h1 x hx
    · exact hj
  · rcases h2 with ⟨h3, h4⟩ | ⟨h3, h4⟩
    · left
      refine ⟨h3, ?_⟩
      simp only [Locals.emit, List.all_append, h4, List.all_cons, hf, List.all_nil]
      rfl
    · right
      refine ⟨h3, ?_, ?_⟩
      · simp only [Locals.emit, List.any_append, h4.1, Bool.true_or]
      · simp only [Locals.emit, List.any_append, h4.2, Bool.true_or]

theorem Locals.Inv.failed {σ : Type} {env : exam_env_t} {s : Locals σ}
    (h : Locals.Inv env s) (buf : List Char) (hcall : s.trace.any Event.is_call = true) :
    Locals.Inv env { s.emit (Event.exam_print_failed buf) with retValue := 1 } := by
  obtain ⟨h1, _⟩ := h
  refine ⟨?_, Or.inr ⟨rfl, ?_, ?_⟩⟩
  · intro x hx
    simp only [Locals.emit, List.mem_append, List.mem_singleton] at hx
    rcases hx with hx | rfl
    · exact h1 x hx
    · exact True.intro
  · simp [Locals.emit, Event.is_failed]
  · simp only [Locals.emit, List.any_append, hcall, Bool.true_or]

/-- A call that is left through the failure channel is in the trace. -/
theorem exam_call_jump_call {σ : Type} (code : Nat → σ → Outcome σ) (fn : Nat) (e : Event)
    (s s1 : Locals σ) (he : e.is_call = true) (h : exam_call code fn e s = Outcome.jump s1) :
    s1.trace.any Event.is_call = true := by
  unfold exam_call at h
  cases hc : code fn s.user with
  | done u => simp [hc] at h
  | jump u =>
    simp only [hc, Outcome.jump.injEq] at h
    subst h
    simp [Locals.emit, he]

theorem exam_run_once_jump_call {σ : Type} (code : Nat → σ → Outcome σ)
    (sc : exam_scope_t) (t : exam_test_t) (ii idx : Nat) (s s1 : Locals σ)
    (h : exam_run_once code sc t ii idx s = Outcome.jump s1) :
    s1.trace.any Event.is_call = true := by
  unfold exam_run_once at h
  simp only at h
  split at h
  · next s2 hb =>
    cases h
    split at hb
    · exact exam_call_jump_call code sc.before (Event.call_before ii idx sc.before) s _ rfl hb
    · cases hb
  · next s2 _ =>
    split at h
    · next s3 hf =>
      cases h
      exact exam_call_jump_call code t.fn (Event.call_fn ii idx t.fn) s2 _ rfl hf
    · next s3 _ =>
      split at h
      · exact exam_call_jump_call code sc.after (Event.call_after ii idx sc.after) s3 _ rfl h
      · cases h

theorem exam_run_repeat_jump_call {σ : Type} (code : Nat → σ → Outcome σ)
    (sc : exam_scope_t) (t : exam_test_t) (ii idx : Nat) :
    ∀ (k : Nat) (s s1 : Locals σ),
      exam_run_repeat code sc t ii idx k s = Outcome.jump s1 →
        s1.trace.any Event.is_call = true := by
  intro k
  induction k with
  | zero => intro s s1 h; cases h
  | succ k ih =>
    intro s s1 h
    unfold exam_run_repeat at h
    split at h
    · next s2 ho =>
      cases h
      exact exam_run_once_jump_call code sc t ii idx s _ ho
    · next s2 _ => exact ih s2 s1 h

theorem exam_call_inv {σ : Type} (env : exam_env_t) (code : Nat → σ → Outcome σ) (fn : Nat)
    (e : Event) (s : Locals σ) (h : Locals.Inv env s) (hj : Event.Justified env e)
    (hf : e.is_failed = false) : Locals.Inv env (exam_call code fn e s).state := by
  unfold exam_call
  cases code fn s.user <;> exact (h.emit e hj hf).congr rfl rfl

theorem exam_run_once_inv {σ : Type} (env : exam_env_t) (code : Nat → σ → Outcome σ)
    (sc : exam_scope_t) (t : exam_test_t) (ii idx : Nat) (s : Locals σ)
    (hsc : env.scope_at ii = some sc) (ht : sc.test_at idx = some t)
    (hp : t.pending = false) (hsel : env.selects t = true) (h : Locals.Inv env s) :
    Locals.Inv env (exam_run_once code sc t ii idx s).state := by
  unfold exam_run_once
  have h1 : Locals.Inv env
      (if sc.before ≠ NULL then
        exam_call code sc.before (Event.call_before ii idx sc.before) s
       else Outcome.done s).state := by
    split
    · next hb => exact exam_call_inv env code _ _ s h ⟨sc, t, hsc, ht, hp, rfl, hb, hsel⟩ rfl
    · exact h
  revert h1
  generalize (if sc.before ≠ NULL then
        exam_call code sc.before (Event.call_before ii idx sc.before) s
       else Outcome.done s) = r1
  intro h1
  cases r1 with
  | jump s1 => exact h1
  | done s1 =>
    simp only
    have h2 := exam_call_inv env code t.fn (Event.call_fn ii idx t.fn) s1 h1
      ⟨sc, t, hsc, ht, hp, rfl, hsel⟩ rfl
    revert h2
    generalize exam_call code t.fn (Event.call_fn ii idx t.fn) s1 = r2
    intro h2
    cases r2 with
    | jump s2 => exact h2
    | done s2 =>
      simp only
      split
      · next ha => exact exam_call_inv env code _ _ s2 h2 ⟨sc, t, hsc, ht, hp, rfl, ha, hsel⟩ rfl
      · exact h2

theorem exam_run_repeat_inv {σ : Type} (env : exam_env_t) (code : Nat → σ → Outcome σ)
    (sc : exam_scope_t) (t : exam_test_t) (ii idx : Nat)
    (hsc : env.scope_at ii = some sc) (ht : sc.test_at idx = some t)
    (hp : t.pending = false) (hsel : env.selects t = true) :
    ∀ (k : Nat) (s : Locals σ), Locals.Inv env s →
      Locals.Inv env (exam_run_repeat code sc t ii idx k s).state := by
  intro k
  induction k with
  | zero => intro s h; exact h
  | succ k ih =>
    intro s h
    unfold exam_run_repeat
    have h1 := exam_run_once_inv env code sc t ii idx s hsc ht hp hsel h
    revert h1
    generalize exam_run_once code sc t ii idx s = r
    intro h1
    cases r with
    | jump s1 => exact h1
    | done s1 => exact ih s1 h1

theorem exam_current_test_some (env : exam_env_t) (sc : exam_scope_t)
    (ti : Option (Block Nat)) (j idx : Nat) (t : exam_test_t)
    (h : exam_current_test env sc ti j = some (idx, t)) : sc.test_at idx = some t := by
  unfold exam_current_test at h
  simp only at h
  split at h
  · exact absurd h (by simp)
  · next i _ =>
    cases hr : sc.test_at i with
    | none => simp [hr] at h
    | some t1 =>
      simp only [hr, Option.map_some', Option.some.injEq, Prod.mk.injEq] at h
      obtain ⟨rfl, rfl⟩ := h
      exact hr

theorem exam_run_selected_inv {σ : Type} (env : exam_env_t) (code : Nat → σ → Outcome σ)
    (sc : exam_scope_t) (ii idx : Nat) (t : exam_test_t) (buf : List Char) (s : Locals σ)
    (hsc : env.scope_at ii = some sc) (ht : sc.test_at idx = some t)
    (hsel : env.selects t = true) (h : Locals.Inv env s) :
    Locals.Inv env (exam_run_selected env code sc ii idx t buf s).state := by
  unfold exam_run_selected
  have h1 : Locals.Inv env
      (if (!s.printed_scope) = true then
        { s.emit (Event.exam_print_running_test sc.len sc.name) with printed_scope := true }
       else s) := by
    split
    · exact (h.emit (Event.exam_print_running_test sc.len sc.name) True.intro rfl).congr
        rfl rfl
    · exact h
  revert h1
  generalize (if (!s.printed_scope) = true then
        { s.emit (Event.exam_print_running_test sc.len sc.name) with printed_scope := true }
       else s) = s1
  intro h1
  cases hp : t.pending with
  | true => exact h1.emit (Event.exam_print_pending buf) True.intro rfl
  | false =>
    simp only [Bool.false_eq_true, if_false]
    have h2 := exam_run_repeat_inv env code sc t ii idx hsc ht hp hsel env.repeat_
      (s1.emit (Event.exam_print_run buf)) (h1.emit (Event.exam_print_run buf) True.intro rfl)
    have h4 := exam_run_repeat_jump_call code sc t ii idx env.repeat_
      (s1.emit (Event.exam_print_run buf))
    revert h2 h4
    generalize exam_run_repeat code sc t ii idx env.repeat_
      (s1.emit (Event.exam_print_run buf)) = r
    intro h2 h4
    cases r with
    | done s2 =>
      have h3 : Locals.Inv env
          { s2 with passed := s2.passed + 1, scope_passed := s2.scope_passed + 1 } :=
        h2.congr rfl rfl
      exact h3.emit (Event.exam_print_ok buf) True.intro rfl
    | jump s2 =>
      simp only
      split <;> exact h2.failed _ (h4 s2 rfl)

theorem exam_run_test_inv {σ : Type} (env : exam_env_t) (code : Nat → σ → Outcome σ)
    (sc : exam_scope_t) (ii : Nat) (ti : Option (Block Nat)) (j : Nat) (s : Locals σ)
    (hsc : env.scope_at ii = some sc) (h : Locals.Inv env s) :
    Locals.Inv env (exam_run_test env code sc ii ti j s).state := by
  unfold exam_run_test
  cases hc : exam_current_test env sc ti j with
  | none => exact h
  | some p =>
    obtain ⟨idx, t⟩ := p
    have ht := exam_current_test_some env sc ti j idx t hc
    simp only
    cases hf : env.filter with
    | none =>
      exact exam_run_selected_inv env code sc ii idx t _ s hsc ht
        (by simp [exam_env_t.selects, hf]) h
    | some f =>
      simp only [exam_filter_test_eq, Option.map_some']
      cases hpre : f.val.isPrefixOf (exam_concat_scope_name t) with
      | false => exact h
      | true =>
        exact exam_run_selected_inv env code sc ii idx t _ s hsc ht
          (by simp [exam_env_t.selects, hf, hpre]) h

/-- A property of the locals kept by every iteration is kept by the test loop. -/
theorem exam_run_tests_state {σ : Type} (env : exam_env_t) (code : Nat → σ → Outcome σ)
    (sc : exam_scope_t) (ii : Nat) (ti : Option (Block Nat)) (P : Locals σ → Prop)
    (hstep : ∀ j s, P s → P (exam_run_test env code sc ii ti j s).state) :
    ∀ (n j : Nat) (s : Locals σ), P s → P (exam_run_tests env code sc ii ti n j s).state := by
  intro n
  induction n with
  | zero => intro j s h; exact h
  | succ n ih =>
    intro j s h
    unfold exam_run_tests
    have h1 := hstep j s h
    revert h1
    generalize exam_run_test env code sc ii ti j s = r
    intro h1
    cases r with
    | next s1 => exact ih (j + 1) s1 h1
    | exit c s1 => exact h1
    | undefined s1 => exact h1

/-- A property of the locals kept by every iteration is kept by the scope loop. -/
theorem exam_run_scopes_state {σ : Type} (env : exam_env_t) (RAND_MAX : Nat)
    (rand : Nat → Nat) (code : Nat → σ → Outcome σ) (si : Option (Block Nat))
    (P : Locals σ → Prop)
    (hstep : ∀ i s, P s → P (exam_run_scope env RAND_MAX rand code si i s).state) :
    ∀ (n i : Nat) (s : Locals σ), P s →
      P (exam_run_scopes env RAND_MAX rand code si n i s).state := by
  intro n
  induction n with
  | zero => intro i s h; exact h
  | succ n ih =>
    intro i s h
    unfold exam_run_scopes
    have h1 := hstep i s h
    revert h1
    generalize exam_run_scope env RAND_MAX rand code si i s = r
    intro h1
    cases r with
    | next s1 => exact ih (i + 1) s1 h1
    | exit c s1 => exact h1
    | undefined s1 => exact h1

theorem exam_run_scope_inv {σ : Type} (env : exam_env_t) (RAND_MAX : Nat)
    (rand : Nat → Nat) (code : Nat → σ → Outcome σ) (si : Option (Block Nat)) (i : Nat)
    (s : Locals σ) (h : Locals.Inv env s) :
    Locals.Inv env (exam_run_scope env RAND_MAX rand code si i s).state := by
  unfold exam_run_scope
  simp only
  split
  · exact h
  · next ii _ =>
    cases hsc : env.scope_at ii with
    | none => exact h
    | some sc =>
      simp only
      cases hsh : exam_create_shuffle env RAND_MAX rand sc.len s.rand_calls with
      | none => exact h.congr rfl rfl
      | some p =>
        obtain ⟨ti, calls⟩ := p
        simp only
        have h0 : Locals.Inv env
            { s with printed_scope := false, scope_passed := 0, rand_calls := calls } :=
          h.congr rfl rfl
        have h1 := exam_run_tests_state env code sc ii ti (Locals.Inv env)
          (fun j s hs => exam_run_test_inv env code sc ii ti j s hsc hs) sc.len 0 _ h0
        revert h1
        generalize exam_run_tests env code sc ii ti sc.len 0
          { s with printed_scope := false, scope_passed := 0, rand_calls := calls } = r
        intro h1
        cases r with
        | exit c s1 => exact h1
        | undefined s1 => exact h1
        | next s1 =>
          simp only
          split
          · cases env.scope_at i with
            | none => exact h1
            | some sci =>
              exact (Locals.Inv.emit h1 (Event.exam_print_passed_scope s1.scope_passed sci.name)
                True.intro rfl).emit Event.printf_newline True.intro rfl
          · exact h1

/-- A property of the locals that no listing line and no change of `count`
disturbs is kept by the inner loop of the enumeration pass. -/
theorem exam_run_enum_tests_state {σ : Type} (env : exam_env_t) (sc : exam_scope_t)
    (P : Locals σ → Prop)
    (hemit : ∀ s buf, P s → P (s.emit (Event.printf_name buf)))
    (hcount : ∀ (s : Locals σ) n, P s → P { s with count := n }) :
    ∀ (n j : Nat) (s : Locals σ), P s → P (exam_run_enum_tests env sc n j s).state := by
  intro n
  induction n with
  | zero => intro j s h; exact h
  | succ n ih =>
    intro j s h
    unfold exam_run_enum_tests
    cases sc.test_at j with
    | none => exact h
    | some t =>
      simp only
      cases env.filter with
      | none => exact ih (j + 1) _ (hemit s _ h)
      | some f =>
        simp only
        cases exam_filter_test (exam_concat_scope_name t) f.val with
        | none => exact h
        | some b =>
          cases b with
          | false => exact ih (j + 1) s h
          | true =>
            simp only
            apply ih
            split
            · exact hcount _ _ (hemit s _ h)
            · exact hcount _ _ h

/-- A property of the locals that no listing line and no change of `count`
disturbs is kept by the enumeration pass. -/
theorem exam_run_enum_state {σ : Type} (env : exam_env_t) (P : Locals σ → Prop)
    (hemit : ∀ s buf, P s → P (s.emit (Event.printf_name buf)))
    (hcount : ∀ (s : Locals σ) n, P s → P { s with count := n }) :
    ∀ (n i : Nat) (s : Locals σ), P s → P (exam_run_enum env n i s).state := by
  intro n
  induction n with
  | zero => intro i s h; exact h
  | succ n ih =>
    intro i s h
    unfold exam_run_enum
    cases env.scope_at i with
    | none => exact h
    | some sc =>
      simp only
      split
      · have h1 := exam_run_enum_tests_state env sc P hemit hcount sc.len 0 s h
        revert h1
        generalize exam_run_enum_tests env sc sc.len 0 s = r
        intro h1
        cases r with
        | next s1 => exact ih (i + 1) s1 h1
        | exit c s1 => exact h1
        | undefined s1 => exact h1
      · exact ih (i + 1) _ (hcount _ _ h)

theorem exam_run_enum_inv {σ : Type} (env : exam_env_t) (n i : Nat) (s : Locals σ)
    (h : Locals.Inv env s) : Locals.Inv env (exam_run_enum env n i s).state :=
  exam_run_enum_state env (Locals.Inv env)
    (fun _ buf hs => hs.emit (Event.printf_name buf) True.intro rfl)
    (fun _ _ hs => hs.congr rfl rfl) n i s h

/-- Every run of `exam_run` ends with the invariant: the calls in its trace are
justified and `retValue` tells whether a failure was reported. -/
theorem exam_run_inv {σ : Type} (env : exam_env_t) (RAND_MAX : Nat) (rand : Nat → Nat)
    (code : Nat → σ → Outcome σ) (user : σ) :
    Locals.Inv env (exam_run env RAND_MAX rand code user).final := by
  unfold exam_run
  simp only
  have h0 : Locals.Inv env
      ({ user := user, trace := [], rand_calls := 0, retValue := 0, count := 0, passed := 0,
         printed_scope := false, scope_passed := 0 } : Locals σ) :=
    ⟨fun e he => absurd he (List.not_mem_nil e), Or.inl ⟨rfl, rfl⟩⟩
  have h1 := exam_run_enum_inv env env.tbl.len 0 _ h0
  revert h1
  generalize exam_run_enum env env.tbl.len 0
    ({ user := user, trace := [], rand_calls := 0, retValue := 0, count := 0, passed := 0,
       printed_scope := false, scope_passed := 0 } : Locals σ) = r
  intro h1
  cases r with
  | exit c s1 => exact h1
  | undefined s1 => exact h1
  | next s1 =>
    simp only
    split
    · exact h1
    · cases exam_create_shuffle env RAND_MAX rand env.tbl.len s1.rand_calls with
      | none => exact h1
      | some p =>
        obtain ⟨si, calls⟩ := p
        simp only
        have h2 : Locals.Inv env
            ({ s1 with rand_calls := calls }.emit (Event.exam_print_running_all s1.count)) :=
          Locals.Inv.emit (h1.congr rfl rfl) _ True.intro rfl
        have h3 := exam_run_scopes_state env RAND_MAX rand code si (Locals.Inv env)
          (fun i s hs => exam_run_scope_inv env RAND_MAX rand code si i s hs)
          env.tbl.len 0 _ h2
        revert h3
        generalize exam_run_scopes env RAND_MAX rand code si env.tbl.len 0
          ({ s1 with rand_calls := calls }.emit (Event.exam_print_running_all s1.count)) = r2
        intro h3
        cases r2 with
        | exit c s2 => exact h3
        | undefined s2 => exact h3
        | next s2 =>
          exact (Locals.Inv.emit h3 (Event.exam_print_passed_result s2.passed) True.intro
            rfl).emit (Event.exam_print_final s2.count) True.intro rfl

/-- C3: a test registered as pending is never run.  In every run of `exam_run`,
whatever the filter, shuffling, the repeat count and die-on-fail, no call of a
body, a `before` hook or an `after` hook is made for a pending test; and the
iteration of the test loop that meets a pending test goes on to the next test
(it does not leave through `exit`) with the program under test, both passed
counts and `retValue` untouched, adding only reporter lines that are no failure
reports. -/
theorem exam_run_pending_not_run {σ : Type} (env : exam_env_t) (RAND_MAX : Nat)
    (rand : Nat → Nat) (code : Nat → σ → Outcome σ) (user : σ) :
    (∀ (ii idx fn : Nat) (sc : exam_scope_t) (t : exam_test_t),
      env.scope_at ii = some sc → sc.test_at idx = some t → t.pending = true →
        Event.call_before ii idx fn ∉ (exam_run env RAND_MAX rand code user).final.trace ∧
        Event.call_fn ii idx fn ∉ (exam_run env RAND_MAX rand code user).final.trace ∧
        Event.call_after ii idx fn ∉ (exam_run env RAND_MAX rand code user).final.trace) ∧
    (∀ (sc : exam_scope_t) (ii : Nat) (ti : Option (Block Nat)) (j idx : Nat)
      (t : exam_test_t) (s : Locals σ),
      exam_current_test env sc ti j = some (idx, t) → t.pending = true →
        ∃ s1 evs, exam_run_test env code sc ii ti j s = Flow.next s1 ∧
          s1.user = s.user ∧ s1.passed = s.passed ∧ s1.scope_passed = s.scope_passed ∧
          s1.retValue = s.retValue ∧ s1.trace = s.trace ++ evs ∧
          ∀ e ∈ evs, e.is_call = false ∧ e.is_failed = false) := by
  refine ⟨?_, ?_⟩
  · intro ii idx fn sc t hsc ht hp
    have hinv := (exam_run_inv env RAND_MAX rand code user).1
    refine ⟨fun hm => ?_, fun hm => ?_, fun hm => ?_⟩
    · obtain ⟨sc1, t1, h1, h2, h3, _⟩ := hinv _ hm
      rw [hsc] at h1
      cases h1
      rw [ht] at h2
      cases h2
      rw [hp] at h3
      exact absurd h3 (by decide)
    · obtain ⟨sc1, t1, h1, h2, h3, _⟩ := hinv _ hm
      rw [hsc] at h1
      cases h1
      rw [ht] at h2
      cases h2
      rw [hp] at h3
      exact absurd h3 (by decide)
    · obtain ⟨sc1, t1, h1, h2, h3, _⟩ := hinv _ hm
      rw [hsc] at h1
      cases h1
      rw [ht] at h2
      cases h2
      rw [hp] at h3
      exact absurd h3 (by decide)
  · intro sc ii ti j idx t s hc hp
    unfold exam_run_test
    rw [hc]
    simp only
    cases hf : env.filter with
    | none =>
      simp only [exam_run_selected, hp, if_true]
      cases hps : s.printed_scope with
      | false =>
        exact ⟨_, [Event.exam_print_running_test sc.len sc.name,
          Event.exam_print_pending (exam_concat_scope_name t)], rfl, rfl, rfl, rfl, rfl,
          by simp [Locals.emit], by simp [Event.is_call, Event.is_failed]⟩
      | true =>
        exact ⟨_, [Event.exam_print_pending (exam_concat_scope_name t)], rfl, rfl, rfl, rfl,
          rfl, by simp [Locals.emit], by simp [Event.is_call, Event.is_failed]⟩
    | some f =>
      simp only [exam_filter_test_eq, Option.map_some']
      cases (f.val.isPrefixOf (exam_concat_scope_name t)) with
      | false => exact ⟨s, [], rfl, rfl, rfl, rfl, rfl, by simp, by simp⟩
      | true =>
        simp only [Bool.not_true, exam_run_selected, hp, if_true]
        cases hps : s.printed_scope with
        | false =>
          exact ⟨_, [Event.exam_print_running_test sc.len sc.name,
            Event.exam_print_pending (exam_concat_scope_name t)], rfl, rfl, rfl, rfl, rfl,
            by simp [Locals.emit], by simp [Event.is_call, Event.is_failed]⟩
        | true =>
          exact ⟨_, [Event.exam_print_pending (exam_concat_scope_name t)], rfl, rfl, rfl, rfl,
            rfl, by simp [Locals.emit], by simp [Event.is_call, Event.is_failed]⟩

theorem spec_scope_hook_skip (a b : List Registration) (s : CString) (f : Nat)
    (role : Bool) (scope : CString) (before : Bool) (h : ¬ (s = scope ∧ role = before)) :
    spec_scope_hook (a ++ [Registration.each s f role] ++ b) scope before
      = spec_scope_hook (a ++ b) scope before := by
  induction b using List.reverseRecOn with
  | nil =>
    rw [List.append_nil, List.append_nil, spec_scope_hook_append_step]
    simp [spec_hook_step, h]
  | append_singleton b c ih =>
    rw [← List.append_assoc, ← List.append_assoc, spec_scope_hook_append_step,
      spec_scope_hook_append_step, ih]

theorem spec_scope_tests_skip (a b : List Registration) (s : CString) (f : Nat)
    (role : Bool) (scope : CString) :
    spec_scope_tests (a ++ [Registration.each s f role] ++ b) scope
      = spec_scope_tests (a ++ b) scope := by
  simp [spec_scope_tests, List.filterMap_append]

theorem exam_tbl_t.Holds.scope_at_eq {env : exam_env_t} {scs : List exam_scope_t}
    (h : env.tbl.Holds scs) (k : Nat) (hk : k < scs.length) :
    env.scope_at k = some scs[k] := by
  obtain ⟨hlen, hb⟩ := h
  unfold exam_env_t.scope_at
  cases hs : env.tbl.scope with
  | none =>
    rw [hs] at hb
    simp only at hb
    omega
  | some b =>
    rw [hs] at hb
    obtain ⟨_, _, rest, rfl⟩ := hb
    exact Block.read_map_some scs rest k hk

/-- C9: hook registration is last-write-wins.  After any calls `pre`, a hook
registration `f` for a role of scope `s`, any calls `mid` and a second hook
registration `g` for the same role of `s`, the table holds exactly one scope
called `s`; its hook for that role is `g`; its hook for the other role and its
tests are those registered by `pre` and `mid`; and in every run of `exam_run`
over that table each call made as that scope's hook of that role calls `g`. -/
theorem exam_register_each_last_wins {σ : Type} (pre mid : List Registration)
    (s : CString) (f g : Nat) (role : Bool) (env : exam_env_t)
    (henv : exam_register_all exam_tbl_t.zero
      (pre ++ [Registration.each s f role] ++ mid ++ [Registration.each s g role])
        = some env.tbl) :
    ∃ (k : Nat) (sc : exam_scope_t), env.scope_at k = some sc ∧ sc ∈ env.tbl.scope_list ∧
      sc.name = s ∧ (∀ sc1 ∈ env.tbl.scope_list, sc1.name = s → sc1 = sc) ∧
      (if role then sc.before else sc.after) = g ∧
      (if role then sc.after else sc.before) = spec_scope_hook (pre ++ mid) s (!role) ∧
      sc.test_list = spec_scope_tests (pre ++ mid) s ∧
      ∀ (RAND_MAX : Nat) (rand : Nat → Nat) (code : Nat → σ → Outcome σ) (user : σ)
        (ii idx fn : Nat), env.scope_at ii = some sc →
        (role = true →
          Event.call_before ii idx fn ∈ (exam_run env RAND_MAX rand code user).final.trace →
            fn = g) ∧
        (role = false →
          Event.call_after ii idx fn ∈ (exam_run env RAND_MAX rand code user).final.trace →
            fn = g) := by
  obtain ⟨tbl, h1, h2⟩ := exam_register_all_registered
    (pre ++ [Registration.each s f role] ++ mid ++ [Registration.each s g role])
  rw [h1] at henv
  cases henv
  obtain ⟨scs, hH, hnames, hall⟩ := h2
  have hmem : s ∈ scs.map (fun sc => sc.name) := by
    rw [hnames, mem_spec_scope_names]
    exact ⟨Registration.each s g role, by simp, rfl⟩
  obtain ⟨sc, hsc, hname⟩ := List.mem_map.mp hmem
  obtain ⟨k, hk, rfl⟩ := List.getElem_of_mem hsc
  have hnd : (scs.map (fun sc => sc.name)).Nodup := hnames ▸ spec_scope_names_nodup _
  obtain ⟨hh, hb, ha⟩ := hall k hk
  rw [hname] at hh hb ha
  rw [spec_scope_hook_append_step] at hb ha
  have hat := hH.scope_at_eq k hk
  refine ⟨k, scs[k], hat, by rw [hH.scope_list]; exact hsc, hname, ?_, ?_, ?_, ?_, ?_⟩
  · rw [hH.scope_list]
    intro sc1 hsc1 hn1
    obtain ⟨k1, hk1, rfl⟩ := List.getElem_of_mem hsc1
    have := scope_index_of_name scs hnd k1 k hk1 hk (by rw [hn1, hname])
    subst this
    rfl
  · cases role with
    | true => simpa [spec_hook_step] using hb
    | false => simpa [spec_hook_step] using ha
  · cases role with
    | true =>
      simp only [if_true, Bool.not_true]
      rw [ha, spec_scope_hook_skip _ _ _ _ _ _ _ (by simp)]
      simp [spec_hook_step]
    | false =>
      simp only [Bool.false_eq_true, if_false, Bool.not_false]
      rw [hb, spec_scope_hook_skip _ _ _ _ _ _ _ (by simp)]
      simp [spec_hook_step]
  · rw [hh.test_list, spec_scope_tests_append]
    have : spec_scope_tests [Registration.each s g role] s = [] := rfl
    rw [this, List.append_nil, spec_scope_tests_skip]
  · intro RAND_MAX rand code user ii idx fn hii
    have hinv := (exam_run_inv env RAND_MAX rand code user).1
    refine ⟨fun hr hm => ?_, fun hr hm => ?_⟩
    · obtain ⟨sc1, t1, h3, _, _, h4, _⟩ := hinv _ hm
      rw [hii] at h3
      cases h3
      subst hr
      rw [← h4, hb]
      simp [spec_hook_step]
    · obtain ⟨sc1, t1, h3, _, _, h4, _⟩ := hinv _ hm
      rw [hii] at h3
      cases h3
      subst hr
      rw [← h4, ha]
      simp [spec_hook_step]

/-! ## Runs over a well-formed table without shuffling -/

theorem exam_scope_t.wf.test_at_wf {sc : exam_scope_t} (h : sc.wf) (j : Nat)
    (hj : j < sc.len) : ∃ hj1 : j < sc.test_list.length, sc.test_at j = some sc.test_list[j] := by
  unfold exam_scope_t.wf at h
  refine ⟨by omega, ?_⟩
  unfold exam_scope_t.test_at
  revert h
  unfold exam_scope_t.test_list
  cases hs : sc.tests with
  | none =>
    intro h
    simp at h
    omega
  | some b =>
    intro h
    simp only at h ⊢
    have hb := Block.eq_of_reduceOption_length b sc.len h
    have hj1 : j < ((b.take sc.len).reduceOption).length := by omega
    have := Block.read_map_some ((b.take sc.len).reduceOption) (b.drop sc.len) j hj1
    rw [← hb] at this
    exact this

theorem exam_tbl_t.wf.scope_at_wf {env : exam_env_t} (h : env.tbl.wf) (i : Nat)
    (hi : i < env.tbl.len) :
    ∃ hi1 : i < env.tbl.scope_list.length,
      env.scope_at i = some env.tbl.scope_list[i] ∧ env.tbl.scope_list[i].wf := by
  obtain ⟨h1, h2⟩ := h
  refine ⟨by omega, ?_, h2 _ (List.getElem_mem _)⟩
  unfold exam_env_t.scope_at
  revert h1
  unfold exam_tbl_t.scope_list
  cases hs : env.tbl.scope with
  | none =>
    intro h
    simp at h
    omega
  | some b =>
    intro h
    simp only at h ⊢
    have hb := Block.eq_of_reduceOption_length b env.tbl.len h
    have hj1 : i < ((b.take env.tbl.len).reduceOption).length := by omega
    have := Block.read_map_some ((b.take env.tbl.len).reduceOption) (b.drop env.tbl.len) i hj1
    rw [← hb] at this
    exact this

theorem exam_call_quiet {σ : Type} (code : Nat → σ → Outcome σ) (fn : Nat)
    (e : Event) (s : Locals σ) (he : e.processed = none) :
    trace_processed (exam_call code fn e s).state.trace = trace_processed s.trace ∧
      (exam_call code fn e s).state.retValue = s.retValue := by
  unfold exam_call
  cases code fn s.user <;>
    simp [Outcome.state, Locals.emit, trace_processed, List.filterMap_append, he]

theorem exam_run_once_quiet {σ : Type} (code : Nat → σ → Outcome σ)
    (sc : exam_scope_t) (t : exam_test_t) (ii idx : Nat) (s : Locals σ) :
    trace_processed (exam_run_once code sc t ii idx s).state.trace = trace_processed s.trace ∧
      (exam_run_once code sc t ii idx s).state.retValue = s.retValue := by
  unfold exam_run_once
  have h1 : trace_processed (if sc.before ≠ NULL then
        exam_call code sc.before (Event.call_before ii idx sc.before) s
       else Outcome.done s).state.trace = trace_processed s.trace ∧
      (if sc.before ≠ NULL then
        exam_call code sc.before (Event.call_before ii idx sc.before) s
       else Outcome.done s).state.retValue = s.retValue := by
    split
    · exact exam_call_quiet code _ _ s rfl
    · exact ⟨rfl, rfl⟩
  revert h1
  generalize (if sc.before ≠ NULL then
        exam_call code sc.before (Event.call_before ii idx sc.before) s
       else Outcome.done s) = r1
  intro h1
  cases r1 with
  | jump s1 => exact h1
  | done s1 =>
    simp only
    have h2 := exam_call_quiet code t.fn (Event.call_fn ii idx t.fn) s1 rfl
    revert h2
    generalize exam_call code t.fn (Event.call_fn ii idx t.fn) s1 = r2
    intro h2
    simp only [Outcome.state] at h1
    cases r2 with
    | jump s2 => exact ⟨h2.1.trans h1.1, h2.2.trans h1.2⟩
    | done s2 =>
      simp only
      simp only [Outcome.state] at h2
      split
      · have h3 := exam_call_quiet code sc.after (Event.call_after ii idx sc.after) s2 rfl
        exact ⟨h3.1.trans (h2.1.trans h1.1), h3.2.trans (h2.2.trans h1.2)⟩
      · exact ⟨h2.1.trans h1.1, h2.2.trans h1.2⟩

theorem exam_run_repeat_quiet {σ : Type} (code : Nat → σ → Outcome σ)
    (sc : exam_scope_t) (t : exam_test_t) (ii idx : Nat) :
    ∀ (k : Nat) (s : Locals σ),
      trace_processed (exam_run_repeat code sc t ii idx k s).state.trace
          = trace_processed s.trace ∧
        (exam_run_repeat code sc t ii idx k s).state.retValue = s.retValue := by
  intro k
  induction k with
  | zero => intro s; exact ⟨rfl, rfl⟩
  | succ k ih =>
    intro s
    unfold exam_run_repeat
    have h1 := exam_run_once_quiet code sc t ii idx s
    revert h1
    generalize exam_run_once code sc t ii idx s = r
    intro h1
    cases r with
    | jump s1 => exact h1
    | done s1 =>
      simp only [Outcome.state] at h1
      exact ⟨(ih s1).1.trans h1.1, (ih s1).2.trans h1.2⟩

theorem exam_current_test_eq (env : exam_env_t) (sc : exam_scope_t)
    (ti : Option (Block Nat)) (j : Nat) (hsh : env.shuffle = false) (hwf : sc.wf)
    (hj : j < sc.len) :
    ∃ hj1 : j < sc.test_list.length,
      exam_current_test env sc ti j = some (j, sc.test_list[j]) := by
  obtain ⟨hj1, h⟩ := hwf.test_at_wf j hj
  refine ⟨hj1, ?_⟩
  unfold exam_current_test
  simp [hsh, h]

theorem selected_names_single (env : exam_env_t) (t : exam_test_t) :
    env.selected_names [t] = if env.selects t then [exam_concat_scope_name t] else [] := by
  unfold exam_env_t.selected_names
  cases h : env.selects t <;> simp [List.filter, h]

theorem selected_names_append (env : exam_env_t) (a b : List exam_test_t) :
    env.selected_names (a ++ b) = env.selected_names a ++ env.selected_names b := by
  simp [exam_env_t.selected_names]

theorem trace_processed_emit {σ : Type} (s : Locals σ) (e : Event) :
    trace_processed (s.emit e).trace
      = trace_processed s.trace ++ (match e.processed with | some b => [b] | none => []) := by
  simp only [Locals.emit, trace_processed, List.filterMap_append]
  cases h : e.processed <;> simp [List.filterMap, h]

/-- A selected test is processed: reported pending, or run and then reported
passed or failed. -/
theorem exam_run_selected_follows {σ : Type} (env : exam_env_t)
    (code : Nat → σ → Outcome σ) (sc : exam_scope_t) (ii idx : Nat) (t : exam_test_t)
    (buf : List Char) (s : Locals σ) (hsc : env.scope_at ii = some sc)
    (ht : sc.test_at idx = some t) (hsel : env.selects t = true)
    (hinv : Locals.Inv env s) :
    Flow.Follows env s [buf] (exam_run_selected env code sc ii idx t buf s) := by
  unfold exam_run_selected
  have h1 : trace_processed (if (!s.printed_scope) = true then
          { s.emit (Event.exam_print_running_test sc.len sc.name) with printed_scope := true }
         else s).trace = trace_processed s.trace ∧
      (if (!s.printed_scope) = true then
          { s.emit (Event.exam_print_running_test sc.len sc.name) with printed_scope := true }
         else s).retValue = s.retValue ∧
      Locals.Inv env (if (!s.printed_scope) = true then
          { s.emit (Event.exam_print_running_test sc.len sc.name) with printed_scope := true }
         else s) := by
    split
    · refine ⟨?_, rfl, (hinv.emit (Event.exam_print_running_test sc.len sc.name) True.intro
        rfl).congr rfl rfl⟩
      have := trace_processed_emit s (Event.exam_print_running_test sc.len sc.name)
      simpa [Event.processed] using this
    · exact ⟨rfl, rfl, hinv⟩
  revert h1
  generalize (if (!s.printed_scope) = true then
          { s.emit (Event.exam_print_running_test sc.len sc.name) with printed_scope := true }
         else s) = s1
  rintro ⟨h1, h2, h3⟩
  cases hp : t.pending with
  | true =>
    simp only [if_true]
    refine ⟨?_, fun _ => h2⟩
    rw [trace_processed_emit, h1]
    rfl
  | false =>
    simp only [Bool.false_eq_true, if_false]
    have hq := exam_run_repeat_quiet code sc t ii idx env.repeat_
      (s1.emit (Event.exam_print_run buf))
    have hi := exam_run_repeat_inv env code sc t ii idx hsc ht hp hsel env.repeat_
      (s1.emit (Event.exam_print_run buf))
      (h3.emit (Event.exam_print_run buf) True.intro rfl)
    rw [trace_processed_emit, h1] at hq
    revert hq hi
    generalize exam_run_repeat code sc t ii idx env.repeat_
      (s1.emit (Event.exam_print_run buf)) = r
    intro hq hi
    cases r with
    | done s2 =>
      simp only [Outcome.state] at hq hi
      refine ⟨?_, fun _ => hq.2.trans h2⟩
      have := trace_processed_emit
        ({ s2 with passed := s2.passed + 1, scope_passed := s2.scope_passed + 1 })
        (Event.exam_print_ok buf)
      rw [this, hq.1]
      simp [Event.processed]
    | jump s2 =>
      simp only [Outcome.state] at hq hi
      have hp3 : trace_processed
          ({ s2.emit (Event.exam_print_failed buf) with retValue := 1 } : Locals σ).trace
          = trace_processed s.trace ++ [buf] := by
        have := trace_processed_emit s2 (Event.exam_print_failed buf)
        simp only [Event.processed, List.append_nil] at this
        rw [this, hq.1]
        rfl
      simp only
      cases hd : env.die_on_fail with
      | true =>
        simp only [if_true]
        exact ⟨rfl, hd, [], buf, s2, by simp, hp3, hi, hq.2.trans h2, rfl⟩
      | false =>
        simp only [Bool.false_eq_true, if_false]
        exact ⟨hp3, fun h => absurd (hd.symm.trans h) (by decide)⟩

/-- One iteration of the test loop processes the test at its index if the
filter selects it, and nothing otherwise. -/
theorem exam_run_test_follows {σ : Type} (env : exam_env_t) (code : Nat → σ → Outcome σ)
    (sc : exam_scope_t) (ii : Nat) (ti : Option (Block Nat)) (j : Nat) (s : Locals σ)
    (hsh : env.shuffle = false) (hwf : sc.wf) (hj : j < sc.len)
    (hsc : env.scope_at ii = some sc) (hinv : Locals.Inv env s) :
    ∃ hj1 : j < sc.test_list.length,
      Flow.Follows env s (env.selected_names [sc.test_list[j]])
        (exam_run_test env code sc ii ti j s) := by
  obtain ⟨hj1, hc⟩ := exam_current_test_eq env sc ti j hsh hwf hj
  refine ⟨hj1, ?_⟩
  have ht := exam_current_test_some env sc ti j j _ hc
  generalize sc.test_list[j] = t at hc ht
  rw [selected_names_single]
  unfold exam_run_test
  rw [hc]
  simp only
  cases hf : env.filter with
  | none =>
    have hsel : env.selects t = true := by simp [exam_env_t.selects, hf]
    simp only [hsel, if_true]
    exact exam_run_selected_follows env code sc ii j t _ s hsc ht hsel hinv
  | some f =>
    have hsel : env.selects t = f.val.isPrefixOf (exam_concat_scope_name t) := by
      simp [exam_env_t.selects, hf]
    simp only [exam_filter_test_eq, Option.map_some', hsel]
    cases hpre : f.val.isPrefixOf (exam_concat_scope_name t) with
    | false => exact ⟨by simp, fun _ => rfl⟩
    | true =>
      exact exam_run_selected_follows env code sc ii j t _ s hsc ht
        (by rw [hsel, hpre]) hinv

theorem Flow.Follows.trans {σ : Type} {env : exam_env_t} {s s1 : Locals σ}
    {l1 l2 : List (List Char)} {r : Flow (Locals σ)}
    (h1 : Flow.Follows env s l1 (Flow.next s1)) (h2 : Flow.Follows env s1 l2 r) :
    Flow.Follows env s (l1 ++ l2) r := by
  obtain ⟨h3, h4⟩ := h1
  cases r with
  | next s2 =>
    obtain ⟨h5, h6⟩ := h2
    exact ⟨by rw [h5, h3, List.append_assoc], fun hd => (h6 hd).trans (h4 hd)⟩
  | exit c s2 =>
    obtain ⟨h5, h6, l, buf, s3, h7, h8, h9, h10, h11⟩ := h2
    refine ⟨h5, h6, l1 ++ l, buf, s3, ?_, ?_, h9, h10.trans (h4 h6), h11⟩
    · rw [List.append_assoc]
      exact (List.prefix_append_right_inj l1).mpr h7
    · rw [h8, h3, List.append_assoc, List.append_assoc]
  | undefined s2 => exact h2

theorem Flow.Follows.exit_mono {σ : Type} {env : exam_env_t} {s s1 : Locals σ}
    {l1 : List (List Char)} {c : Nat} (l2 : List (List Char))
    (h : Flow.Follows env s l1 (Flow.exit c s1)) :
    Flow.Follows env s (l1 ++ l2) (Flow.exit c s1) := by
  obtain ⟨h5, h6, l, buf, s3, h7, h8, h9, h10, h11⟩ := h
  exact ⟨h5, h6, l, buf, s3, h7.trans (List.prefix_append l1 l2), h8, h9, h10, h11⟩

theorem Flow.Follows.congr_left {σ : Type} {env : exam_env_t} {s s0 : Locals σ}
    {l : List (List Char)} {r : Flow (Locals σ)} (h : Flow.Follows env s0 l r)
    (ht : trace_processed s0.trace = trace_processed s.trace)
    (hr : s0.retValue = s.retValue) : Flow.Follows env s l r := by
  cases r with
  | next s2 =>
    obtain ⟨h5, h6⟩ := h
    exact ⟨by rw [h5, ht], fun hd => (h6 hd).trans hr⟩
  | exit c s2 =>
    obtain ⟨h5, h6, l, buf, s3, h7, h8, h9, h10, h11⟩ := h
    exact ⟨h5, h6, l, buf, s3, h7, by rw [h8, ht], h9, h10.trans hr, h11⟩
  | undefined s2 => exact h

/-- The test loop from index `j` processes the selected tests from `j` on. -/
theorem exam_run_tests_follows {σ : Type} (env : exam_env_t) (code : Nat → σ → Outcome σ)
    (sc : exam_scope_t) (ii : Nat) (ti : Option (Block Nat))
    (hsh : env.shuffle = false) (hwf : sc.wf) (hsc : env.scope_at ii = some sc) :
    ∀ (n j : Nat) (s : Locals σ), j + n = sc.len → Locals.Inv env s →
      Flow.Follows env s (env.selected_names (sc.test_list.drop j))
        (exam_run_tests env code sc ii ti n j s) := by
  intro n
  induction n with
  | zero =>
    intro j s hj _
    have : sc.test_list.drop j = [] := List.drop_of_length_le (by rw [hwf]; omega)
    rw [this]
    exact ⟨by simp [exam_env_t.selected_names], fun _ => rfl⟩
  | succ n ih =>
    intro j s hj hinv
    obtain ⟨hj1, hstep⟩ := exam_run_test_follows env code sc ii ti j s hsh hwf (by omega)
      hsc hinv
    have hinv1 := exam_run_test_inv env code sc ii ti j s hsc hinv
    have hdrop : sc.test_list.drop j = [sc.test_list[j]] ++ sc.test_list.drop (j + 1) := by
      rw [List.drop_eq_getElem_cons hj1]
      rfl
    rw [hdrop, selected_names_append]
    unfold exam_run_tests
    revert hstep hinv1
    generalize exam_run_test env code sc ii ti j s = r
    intro hstep hinv1
    cases r with
    | next s1 => exact hstep.trans (ih (j + 1) s1 (by omega) hinv1)
    | exit c s1 => exact hstep.exit_mono _
    | undefined s1 => exact hstep

theorem exam_create_shuffle_off (env : exam_env_t) (RAND_MAX : Nat) (rand : Nat → Nat)
    (n calls : Nat) (hsh : env.shuffle = false) :
    exam_create_shuffle env RAND_MAX rand n calls = some (none, calls) := by
  simp [exam_create_shuffle, hsh]

/-- One iteration of the scope loop processes the selected tests of its scope. -/
theorem exam_run_scope_follows {σ : Type} (env : exam_env_t) (RAND_MAX : Nat)
    (rand : Nat → Nat) (code : Nat → σ → Outcome σ) (si : Option (Block Nat)) (i : Nat)
    (s : Locals σ) (hsh : env.shuffle = false) (hwf : env.tbl.wf) (hi : i < env.tbl.len)
    (hinv : Locals.Inv env s) :
    ∃ hi1 : i < env.tbl.scope_list.length,
      Flow.Follows env s (env.selected_names env.tbl.scope_list[i].test_list)
        (exam_run_scope env RAND_MAX rand code si i s) := by
  obtain ⟨hi1, hat, hscwf⟩ := hwf.scope_at_wf i hi
  refine ⟨hi1, ?_⟩
  generalize env.tbl.scope_list[i] = sc at hat hscwf
  unfold exam_run_scope
  simp only [hsh, Bool.false_eq_true, if_false, hat, exam_create_shuffle_off env RAND_MAX rand _ _ hsh]
  have h0 : Locals.Inv env
      { s with printed_scope := false, scope_passed := 0, rand_calls := s.rand_calls } :=
    hinv.congr rfl rfl
  have h1 := exam_run_tests_follows env code sc i none hsh hscwf hat sc.len 0 _ (by omega) h0
  rw [List.drop_zero] at h1
  revert h1
  generalize exam_run_tests env code sc i none sc.len 0
    { s with printed_scope := false, scope_passed := 0, rand_calls := s.rand_calls } = r
  intro h1
  cases r with
  | exit c s1 => exact h1.congr_left rfl rfl
  | undefined s1 => exact h1
  | next s1 =>
    simp only
    split
    · have h2 : Flow.Follows env s1 []
          (Flow.next ((s1.emit (Event.exam_print_passed_scope s1.scope_passed sc.name)).emit
            Event.printf_newline)) := by
        refine ⟨?_, fun _ => rfl⟩
        rw [trace_processed_emit, trace_processed_emit]
        simp [Event.processed]
      have h3 : Flow.Follows env s (env.selected_names sc.test_list) (Flow.next s1) :=
        h1.congr_left rfl rfl
      have := h3.trans h2
      simpa using this
    · exact h1.congr_left rfl rfl

/-- The scope loop from index `i` processes the selected tests of the scopes
from `i` on. -/
theorem exam_run_scopes_follows {σ : Type} (env : exam_env_t) (RAND_MAX : Nat)
    (rand : Nat → Nat) (code : Nat → σ → Outcome σ) (si : Option (Block Nat))
    (hsh : env.shuffle = false) (hwf : env.tbl.wf) :
    ∀ (n i : Nat) (s : Locals σ), i + n = env.tbl.len → Locals.Inv env s →
      Flow.Follows env s
        (env.selected_names ((env.tbl.scope_list.drop i).flatMap (fun sc => sc.test_list)))
        (exam_run_scopes env RAND_MAX rand code si n i s) := by
  intro n
  induction n with
  | zero =>
    intro i s hi _
    have : env.tbl.scope_list.drop i = [] := List.drop_of_length_le (by rw [hwf.1]; omega)
    rw [this]
    exact ⟨by simp [exam_env_t.selected_names], fun _ => rfl⟩
  | succ n ih =>
    intro i s hi hinv
    obtain ⟨hi1, hstep⟩ := exam_run_scope_follows env RAND_MAX rand code si i s hsh hwf
      (by omega) hinv
    have hinv1 := exam_run_scope_inv env RAND_MAX rand code si i s hinv
    have hdrop : env.tbl.scope_list.drop i
        = [env.tbl.scope_list[i]] ++ env.tbl.scope_list.drop (i + 1) := by
      rw [List.drop_eq_getElem_cons hi1]
      rfl
    rw [hdrop, List.flatMap_append, selected_names_append]
    have hone : [env.tbl.scope_list[i]].flatMap (fun sc => sc.test_list)
        = env.tbl.scope_list[i].test_list := by simp [List.flatMap]
    rw [hone]
    unfold exam_run_scopes
    revert hstep hinv1
    generalize exam_run_scope env RAND_MAX rand code si i s = r
    intro hstep hinv1
    cases r with
    | next s1 => exact hstep.trans (ih (i + 1) s1 (by omega) hinv1)
    | exit c s1 => exact hstep.exit_mono _
    | undefined s1 => exact hstep

theorem selected_names_all (env : exam_env_t) (ts : List exam_test_t)
    (h : env.filter = none) : env.selected_names ts = ts.map exam_concat_scope_name := by
  have : env.selects = fun _ => true := by
    funext t
    simp [exam_env_t.selects, h]
  simp [exam_env_t.selected_names, this]

/-- The inner loop of the enumeration pass, outside list mode, counts the
selected tests. -/
theorem exam_run_enum_tests_eq {σ : Type} (env : exam_env_t) (sc : exam_scope_t)
    (f : CString) (hf : env.filter = some f) (hl : env.list = false) (hwf : sc.wf) :
    ∀ (n j : Nat) (s : Locals σ), j + n = sc.len →
      exam_run_enum_tests env sc n j s
        = Flow.next { s with count := s.count
            + (env.selected_names (sc.test_list.drop j)).length } := by
  intro n
  induction n with
  | zero =>
    intro j s hj
    have : sc.test_list.drop j = [] := List.drop_of_length_le (by rw [hwf]; omega)
    rw [this]
    rfl
  | succ n ih =>
    intro j s hj
    obtain ⟨hj1, hat⟩ := hwf.test_at_wf j (by omega)
    have hdrop : sc.test_list.drop j = [sc.test_list[j]] ++ sc.test_list.drop (j + 1) := by
      rw [List.drop_eq_getElem_cons hj1]
      rfl
    rw [hdrop, selected_names_append, selected_names_single]
    unfold exam_run_enum_tests
    rw [hat]
    simp only [hf, exam_filter_test_eq]
    have hsel : env.selects sc.test_list[j]
        = f.val.isPrefixOf (exam_concat_scope_name sc.test_list[j]) := by
      simp [exam_env_t.selects, hf]
    rw [hsel]
    cases f.val.isPrefixOf (exam_concat_scope_name sc.test_list[j]) with
    | false =>
      simp only
      rw [ih (j + 1) s (by omega)]
      simp
    | true =>
      simp only [hl, Bool.false_eq_true, if_false, if_true]
      rw [ih (j + 1) _ (by omega)]
      simp only [List.length_append, List.length_singleton, Flow.next.injEq]
      congr 1
      omega

/-- The enumeration pass, outside list mode, adds the number of selected tests
to `count` and changes nothing else. -/
theorem exam_run_enum_eq {σ : Type} (env : exam_env_t) (hl : env.list = false)
    (hwf : env.tbl.wf) :
    ∀ (n i : Nat) (s : Locals σ), i + n = env.tbl.len →
      exam_run_enum env n i s
        = Flow.next { s with count := s.count
            + (env.selected_names
                ((env.tbl.scope_list.drop i).flatMap (fun sc => sc.test_list))).length } := by
  intro n
  induction n with
  | zero =>
    intro i s hi
    have : env.tbl.scope_list.drop i = [] := List.drop_of_length_le (by rw [hwf.1]; omega)
    rw [this]
    rfl
  | succ n ih =>
    intro i s hi
    obtain ⟨hi1, hat, hscwf⟩ := hwf.scope_at_wf i (by omega)
    have hdrop : env.tbl.scope_list.drop i
        = [env.tbl.scope_list[i]] ++ env.tbl.scope_list.drop (i + 1) := by
      rw [List.drop_eq_getElem_cons hi1]
      rfl
    have hone : [env.tbl.scope_list[i]].flatMap (fun sc => sc.test_list)
        = env.tbl.scope_list[i].test_list := by simp [List.flatMap]
    rw [hdrop, List.flatMap_append, selected_names_append, hone]
    unfold exam_run_enum
    rw [hat]
    simp only
    cases hf : env.filter with
    | none =>
      simp only [hl, ne_eq, not_true_eq_false, Bool.false_eq_true, or_self, if_false]
      rw [ih (i + 1) _ (by omega)]
      have hlen : (env.selected_names env.tbl.scope_list[i].test_list).length
          = env.tbl.scope_list[i].len := by
        rw [selected_names_all env _ hf, List.length_map]
        exact hscwf
      simp only [List.length_append, hlen, Flow.next.injEq]
      congr 1
      omega
    | some f =>
      simp only [ne_eq, reduceCtorEq, not_false_eq_true, true_or, if_true]
      rw [exam_run_enum_tests_eq env _ f hf hl hscwf _ 0 s (by omega), List.drop_zero]
      simp only
      rw [ih (i + 1) _ (by omega)]
      simp only [List.length_append, Flow.next.injEq]
      congr 1
      omega

/-- Outside list mode and without shuffling, a run over a well-formed table is
the scope loop started right after the opening banner, and then the closing
lines. -/
theorem exam_run_eq_scopes {σ : Type} (env : exam_env_t) (RAND_MAX : Nat)
    (rand : Nat → Nat) (code : Nat → σ → Outcome σ) (user : σ) (hwf : env.tbl.wf)
    (hsh : env.shuffle = false) (hl : env.list = false) :
    ∃ s2 : Locals σ,
      exam_run env RAND_MAX rand code user
        = (match exam_run_scopes env RAND_MAX rand code none env.tbl.len 0 s2 with
          | Flow.undefined s => { status := Status.undefined, final := s }
          | Flow.exit c s => { status := Status.exited c, final := s }
          | Flow.next s3 =>
            { status := Status.returned s3.retValue,
              final := (s3.emit (Event.exam_print_passed_result s3.passed)).emit
                (Event.exam_print_final s3.count) }) ∧
      Locals.Inv env s2 ∧ trace_processed s2.trace = [] ∧ s2.retValue = 0 ∧
      s2.user = user ∧ s2.passed = 0 ∧
      s2.count = (env.selected_names env.tbl.all_tests).length ∧
      s2.trace = [Event.exam_print_running_all s2.count] := by
  unfold exam_run
  simp only
  rw [exam_run_enum_eq env hl hwf env.tbl.len 0 _ (by omega)]
  simp only [hl, Bool.false_eq_true, if_false, exam_create_shuffle_off env RAND_MAX rand _ _ hsh]
  refine ⟨_, rfl, ?_, rfl, rfl, rfl, rfl, ?_, ?_⟩
  · have h0 : Locals.Inv env
        ({ user := user, trace := [], rand_calls := 0, retValue := 0, count := 0, passed := 0,
           printed_scope := false, scope_passed := 0 } : Locals σ) :=
      ⟨fun e he => absurd he (List.not_mem_nil e), Or.inl ⟨rfl, rfl⟩⟩
    exact Locals.Inv.emit (h0.congr rfl rfl) _ True.intro rfl
  · simp [Locals.emit, exam_tbl_t.all_tests]
  · simp [Locals.emit]

/-- A run over a well-formed table without shuffling and outside list mode
either returns `retValue` after processing exactly the selected tests in table
order, or leaves through `exit(1)` under die-on-fail right after the failure
report of the last test it processed, with no failure reported before. -/
theorem exam_run_shape {σ : Type} (env : exam_env_t) (RAND_MAX : Nat) (rand : Nat → Nat)
    (code : Nat → σ → Outcome σ) (user : σ) (hwf : env.tbl.wf)
    (hsh : env.shuffle = false) (hl : env.list = false) :
    ((exam_run env RAND_MAX rand code user).status
        = Status.returned (exam_run env RAND_MAX rand code user).final.retValue ∧
      trace_processed (exam_run env RAND_MAX rand code user).final.trace
        = env.selected_names env.tbl.all_tests ∧
      (env.die_on_fail = true → (exam_run env RAND_MAX rand code user).final.retValue = 0)) ∨
    ((exam_run env RAND_MAX rand code user).status = Status.exited 1 ∧
      env.die_on_fail = true ∧
      ∃ (l : List (List Char)) (buf : List Char) (s2 : Locals σ),
        (l ++ [buf]) <+: env.selected_names env.tbl.all_tests ∧
        trace_processed (exam_run env RAND_MAX rand code user).final.trace = l ++ [buf] ∧
        Locals.Inv env s2 ∧ s2.retValue = 0 ∧
        (exam_run env RAND_MAX rand code user).final.trace
          = s2.trace ++ [Event.exam_print_failed buf]) := by
  obtain ⟨s2, heq, hinv2, htr2, hrv2, _, _, _, _⟩ :=
    exam_run_eq_scopes env RAND_MAX rand code user hwf hsh hl
  rw [heq]
  have h1 := exam_run_scopes_follows env RAND_MAX rand code none hsh hwf env.tbl.len 0 s2
    (by omega) hinv2
  rw [List.drop_zero] at h1
  revert h1
  generalize exam_run_scopes env RAND_MAX rand code none env.tbl.len 0 s2 = r
  intro h1
  cases r with
  | undefined s3 => exact absurd h1 id
  | next s3 =>
    obtain ⟨h2, h3⟩ := h1
    left
    refine ⟨rfl, ?_, fun hd => (h3 hd).trans hrv2⟩
    simp only
    rw [trace_processed_emit, trace_processed_emit, h2, htr2]
    simp [Event.processed, exam_tbl_t.all_tests]
  | exit c s3 =>
    obtain ⟨h5, h6, l, buf, s4, h7, h8, h9, h10, h11⟩ := h1
    right
    subst h5
    refine ⟨rfl, h6, l, buf, s4, h7, ?_, h9, h10.trans hrv2, h11⟩
    simp only
    rw [h8, htr2]
    rfl

/-- In list mode `exam_run` does not return, and reports no failure. -/
theorem exam_run_list {σ : Type} (env : exam_env_t) (RAND_MAX : Nat) (rand : Nat → Nat)
    (code : Nat → σ → Outcome σ) (user : σ) (hl : env.list = true) :
    (∀ v, (exam_run env RAND_MAX rand code user).status ≠ Status.returned v) ∧
      (exam_run env RAND_MAX rand code user).final.retValue = 0 := by
  unfold exam_run
  simp only
  have h1 := exam_run_enum_state env (fun s : Locals σ => s.retValue = 0)
    (fun _ _ hs => hs) (fun _ _ hs => hs) env.tbl.len 0
    ({ user := user, trace := [], rand_calls := 0, retValue := 0, count := 0, passed := 0,
       printed_scope := false, scope_passed := 0 } : Locals σ) rfl
  revert h1
  generalize exam_run_enum env env.tbl.len 0
    ({ user := user, trace := [], rand_calls := 0, retValue := 0, count := 0, passed := 0,
       printed_scope := false, scope_passed := 0 } : Locals σ) = r
  intro h1
  cases r with
  | undefined s => exact ⟨fun v h => (by cases h), h1⟩
  | exit c s => exact ⟨fun v h => (by cases h), h1⟩
  | next s =>
    simp only [hl, if_true]
    exact ⟨fun v h => (by cases h), h1⟩

theorem exam_tbl_t.Registered.all_tests {tbl : exam_tbl_t} {names : List CString}
    {tests : CString → List exam_test_t} {hook : CString → Bool → Nat}
    (h : tbl.Registered names tests hook) : tbl.all_tests = names.flatMap tests := by
  obtain ⟨scs, hH, hnames, hall⟩ := h
  unfold exam_tbl_t.all_tests
  rw [hH.scope_list, ← hnames, List.flatMap_map]
  have : ∀ sc ∈ scs, sc.test_list = tests sc.name := by
    intro sc hsc
    obtain ⟨k, hk, rfl⟩ := List.getElem_of_mem hsc
    exact (hall k hk).1.test_list
  simp only [List.flatMap, List.map_congr_left this]

/-- The registered tests of a call sequence: scopes in order of creation, the
tests of each scope in insertion order. -/
theorem exam_register_all_tests (calls : List Registration) (tbl : exam_tbl_t)
    (h : exam_register_all exam_tbl_t.zero calls = some tbl) :
    tbl.wf ∧ tbl.all_tests = (spec_scope_names calls).flatMap (spec_scope_tests calls) := by
  obtain ⟨tbl1, h1, h2⟩ := exam_register_all_registered calls
  rw [h1] at h
  cases h
  exact ⟨h2.tbl_wf, h2.all_tests⟩

theorem selected_names_filter (env : exam_env_t) (f : CString) (hf : env.filter = some f)
    (ts : List exam_test_t) :
    env.selected_names ts
      = (ts.map exam_concat_scope_name).filter (fun q => f.val.isPrefixOf q) := by
  have : env.selects = (fun q => f.val.isPrefixOf q) ∘ exam_concat_scope_name := by
    funext t
    simp [exam_env_t.selects, hf]
  rw [exam_env_t.selected_names, this, List.filter_map]

/-- C2, as amended: with shuffling off and a filter set, a run of `exam_run`
over the registered tests that returns (one that list mode or die-on-fail does
not end early) has processed exactly the registered tests whose qualified name
starts with the filter, each once, scopes in order of creation and tests in
insertion order; and outside list mode and with die-on-fail off the run does
return. -/
theorem exam_run_filter_selects {σ : Type} (calls : List Registration) (env : exam_env_t)
    (f : CString) (RAND_MAX : Nat) (rand : Nat → Nat) (code : Nat → σ → Outcome σ)
    (user : σ) (henv : exam_register_all exam_tbl_t.zero calls = some env.tbl)
    (hsh : env.shuffle = false) (hf : env.filter = some f) :
    (env.list = false → env.die_on_fail = false →
      ∃ v, (exam_run env RAND_MAX rand code user).status = Status.returned v) ∧
    (∀ v, (exam_run env RAND_MAX rand code user).status = Status.returned v →
      trace_processed (exam_run env RAND_MAX rand code user).final.trace
        = (((spec_scope_names calls).flatMap (spec_scope_tests calls)).map
            exam_concat_scope_name).filter (fun q => f.val.isPrefixOf q)) := by
  obtain ⟨hwf, hall⟩ := exam_register_all_tests calls env.tbl henv
  refine ⟨fun hl hd => ?_, fun v hv => ?_⟩
  · rcases exam_run_shape env RAND_MAX rand code user hwf hsh hl with ⟨h1, _⟩ | ⟨_, h2, _⟩
    · exact ⟨_, h1⟩
    · rw [hd] at h2
      exact absurd h2 (by decide)
  · cases hl : env.list with
    | true => exact absurd hv ((exam_run_list env RAND_MAX rand code user hl).1 v)
    | false =>
      rcases exam_run_shape env RAND_MAX rand code user hwf hsh hl with ⟨_, h1, _⟩ | ⟨h2, _⟩
      · rw [h1, selected_names_filter env f hf, hall]
      · rw [h2] at hv
        cases hv

theorem Locals.Inv.no_failed {σ : Type} {env : exam_env_t} {s : Locals σ}
    (h : Locals.Inv env s) (h0 : s.retValue = 0) : ∀ e ∈ s.trace, e.is_failed = false := by
  rcases h.2 with ⟨_, h2⟩ | ⟨h1, _⟩
  · intro e he
    have := List.all_eq_true.mp h2 e he
    simpa using this
  · omega

theorem Locals.Inv.some_failed {σ : Type} {env : exam_env_t} {s : Locals σ}
    (h : Locals.Inv env s) (h0 : s.retValue ≠ 0) :
    s.retValue = 1 ∧ ∃ e ∈ s.trace, e.is_failed = true := by
  rcases h.2 with ⟨h1, _⟩ | ⟨h1, h2, _⟩
  · exact absurd h1 h0
  · exact ⟨h1, by simpa using h2⟩

/-- A reported failure ends a run with die-on-fail: with die-on-fail enabled and
shuffling off, if a failure is reported in a run over the registered tests, the
run has left through `exit(1)`; the failure report is the last event of the
trace, so nothing is reported and no body or hook is called after it; no
failure is reported before it; and the tests processed are the selected tests
in run order up to and including the failing one. -/
theorem exam_run_die_on_fail {σ : Type} (calls : List Registration) (env : exam_env_t)
    (RAND_MAX : Nat) (rand : Nat → Nat) (code : Nat → σ → Outcome σ) (user : σ)
    (henv : exam_register_all exam_tbl_t.zero calls = some env.tbl)
    (hsh : env.shuffle = false) (hdie : env.die_on_fail = true) (buf : List Char)
    (hfail : Event.exam_print_failed buf ∈ (exam_run env RAND_MAX rand code user).final.trace) :
    (exam_run env RAND_MAX rand code user).status = Status.exited 1 ∧
    ∃ (pre : List Event) (l : List (List Char)),
      (exam_run env RAND_MAX rand code user).final.trace
        = pre ++ [Event.exam_print_failed buf] ∧
      (∀ e ∈ pre, e.is_failed = false) ∧
      trace_processed (exam_run env RAND_MAX rand code user).final.trace = l ++ [buf] ∧
      (l ++ [buf]) <+:
        env.selected_names ((spec_scope_names calls).flatMap (spec_scope_tests calls)) := by
  obtain ⟨hwf, hall⟩ := exam_register_all_tests calls env.tbl henv
  have hinv := exam_run_inv env RAND_MAX rand code user
  cases hl : env.list with
  | true =>
    have h0 := (exam_run_list env RAND_MAX rand code user hl).2
    have := hinv.no_failed h0 _ hfail
    exact absurd this (by simp [Event.is_failed])
  | false =>
    rcases exam_run_shape env RAND_MAX rand code user hwf hsh hl with
      ⟨_, _, h1⟩ | ⟨h2, _, l, buf1, s2, h3, h4, h5, h6, h7⟩
    · have := hinv.no_failed (h1 hdie) _ hfail
      exact absurd this (by simp [Event.is_failed])
    · have hnf := h5.no_failed h6
      have hb : buf = buf1 := by
        rw [h7, List.mem_append, List.mem_singleton] at hfail
        rcases hfail with hm | he
        · exact absurd (hnf _ hm) (by simp [Event.is_failed])
        · cases he
          rfl
      subst hb
      exact ⟨h2, s2.trace, l, h7, hnf, h4, hall ▸ h3⟩

/-! ## Repetitions -/

theorem exam_call_done {σ : Type} (code : Nat → σ → Outcome σ) (fn : Nat) (e : Event)
    (s : Locals σ) (u : σ) (h : code fn s.user = Outcome.done u) :
    exam_call code fn e s = Outcome.done { s with user := u, trace := s.trace ++ [e] } := by
  simp [exam_call, h, Locals.emit]

theorem exam_call_jump {σ : Type} (code : Nat → σ → Outcome σ) (fn : Nat) (e : Event)
    (s : Locals σ) (u : σ) (h : code fn s.user = Outcome.jump u) :
    exam_call code fn e s = Outcome.jump { s with user := u, trace := s.trace ++ [e] } := by
  simp [exam_call, h, Locals.emit]

/-- A repetition in which the `before` hook, the body and the `after` hook all
return calls them in that order. -/
theorem exam_run_once_done {σ : Type} (code : Nat → σ → Outcome σ) (sc : exam_scope_t)
    (t : exam_test_t) (ii idx : Nat) (s : Locals σ) (b c u : σ)
    (hb : exam_hook code sc.before s.user = Outcome.done b)
    (hc : code t.fn b = Outcome.done c)
    (ha : exam_hook code sc.after c = Outcome.done u) :
    exam_run_once code sc t ii idx s
      = Outcome.done { s with user := u, trace := s.trace ++ exam_rep_events sc t ii idx } := by
  unfold exam_run_once exam_rep_events exam_rep_head
  unfold exam_hook at hb ha
  by_cases h1 : sc.before ≠ NULL
  · rw [if_pos h1] at hb
    simp only [if_pos h1, exam_call_done code _ _ s b hb]
    rw [exam_call_done code t.fn _ _ c (by exact hc)]
    by_cases h2 : sc.after ≠ NULL
    · rw [if_pos h2] at ha
      simp only [if_pos h2]
      rw [exam_call_done code _ _ _ u (by exact ha)]
      simp
    · rw [if_neg h2] at ha
      cases ha
      simp [if_neg h2]
  · rw [if_neg h1] at hb
    cases hb
    simp only [if_neg h1]
    rw [exam_call_done code t.fn _ _ c (by exact hc)]
    by_cases h2 : sc.after ≠ NULL
    · rw [if_pos h2] at ha
      simp only [if_pos h2]
      rw [exam_call_done code _ _ _ u (by exact ha)]
      simp
    · rw [if_neg h2] at ha
      cases ha
      simp [if_neg h2]

/-- A repetition whose body fires the failure channel calls the `before` hook
and the body, and not the `after` hook. -/
theorem exam_run_once_jump {σ : Type} (code : Nat → σ → Outcome σ) (sc : exam_scope_t)
    (t : exam_test_t) (ii idx : Nat) (s : Locals σ) (b u : σ)
    (hb : exam_hook code sc.before s.user = Outcome.done b)
    (hc : code t.fn b = Outcome.jump u) :
    exam_run_once code sc t ii idx s
      = Outcome.jump { s with user := u, trace := s.trace ++ exam_rep_head sc t ii idx } := by
  unfold exam_run_once exam_rep_head
  unfold exam_hook at hb
  by_cases h1 : sc.before ≠ NULL
  · rw [if_pos h1] at hb
    simp only [if_pos h1, exam_call_done code _ _ s b hb]
    rw [exam_call_jump code t.fn _ _ u (by exact hc)]
    simp
  · rw [if_neg h1] at hb
    cases hb
    simp only [if_neg h1]
    rw [exam_call_jump code t.fn _ _ u (by exact hc)]
    simp

/-- The first `k` repetitions, when none of them fails: `us i` is the program
under test before repetition `i`. -/
theorem exam_run_repeat_first {σ : Type} (code : Nat → σ → Outcome σ) (sc : exam_scope_t)
    (t : exam_test_t) (ii idx : Nat) :
    ∀ (k n : Nat) (us bs cs : Nat → σ) (s : Locals σ), s.user = us 0 →
      (∀ i, i < k → exam_hook code sc.before (us i) = Outcome.done (bs i) ∧
        code t.fn (bs i) = Outcome.done (cs i) ∧
        exam_hook code sc.after (cs i) = Outcome.done (us (i + 1))) →
      exam_run_repeat code sc t ii idx (k + n) s
        = exam_run_repeat code sc t ii idx n
            { s with user := us k,
                     trace := s.trace ++ (List.replicate k (exam_rep_events sc t ii idx)).flatten } := by
  intro k
  induction k with
  | zero =>
    intro n us bs cs s hs _
    simp only [Nat.zero_add, List.replicate_zero, List.flatten_nil, List.append_nil]
    rw [← hs]
  | succ k ih =>
    intro n us bs cs s hs h
    obtain ⟨h1, h2, h3⟩ := h 0 (by omega)
    have hk : k + 1 + n = (k + n) + 1 := by omega
    rw [hk, exam_run_repeat]
    rw [exam_run_once_done code sc t ii idx s (bs 0) (cs 0) (us 1) (hs ▸ h1) h2 h3]
    simp only
    rw [ih n (fun i => us (i + 1)) (fun i => bs (i + 1)) (fun i => cs (i + 1)) _ rfl
      (fun i hi => h (i + 1) (by omega))]
    simp [List.replicate_succ, List.append_assoc]

theorem count_replicate_flatten (l : List Event) (a : Event) :
    ∀ k : Nat, (List.replicate k l).flatten.count a = k * l.count a
  | 0 => by simp
  | k + 1 => by
    rw [List.replicate_succ, List.flatten_cons, List.count_append, count_replicate_flatten l a k]
    ring

theorem count_rep_head (sc : exam_scope_t) (t : exam_test_t) (ii idx : Nat) :
    (exam_rep_head sc t ii idx).count (Event.call_fn ii idx t.fn) = 1 ∧
    (sc.before ≠ NULL →
      (exam_rep_head sc t ii idx).count (Event.call_before ii idx sc.before) = 1) ∧
    (exam_rep_head sc t ii idx).count (Event.call_after ii idx sc.after) = 0 := by
  unfold exam_rep_head
  by_cases h : sc.before ≠ NULL <;> simp [h, List.count_cons]

theorem count_rep_events (sc : exam_scope_t) (t : exam_test_t) (ii idx : Nat) :
    (exam_rep_events sc t ii idx).count (Event.call_fn ii idx t.fn) = 1 ∧
    (sc.before ≠ NULL →
      (exam_rep_events sc t ii idx).count (Event.call_before ii idx sc.before) = 1) ∧
    (sc.after ≠ NULL →
      (exam_rep_events sc t ii idx).count (Event.call_after ii idx sc.after) = 1) := by
  obtain ⟨h1, h2, h3⟩ := count_rep_head sc t ii idx
  unfold exam_rep_events
  refine ⟨?_, fun hb => ?_, fun ha => ?_⟩
  · rw [List.count_append, h1]
    by_cases h : sc.after ≠ NULL <;> simp [h, List.count_cons]
  · rw [List.count_append, h2 hb]
    by_cases h : sc.after ≠ NULL <;> simp [h, List.count_cons]
  · rw [List.count_append, h3]
    simp [ha, List.count_cons]

theorem exam_run_test_selected {σ : Type} (env : exam_env_t) (code : Nat → σ → Outcome σ)
    (sc : exam_scope_t) (ii : Nat) (ti : Option (Block Nat)) (j idx : Nat)
    (t : exam_test_t) (s : Locals σ)
    (hc : exam_current_test env sc ti j = some (idx, t)) (hsel : env.selects t = true) :
    exam_run_test env code sc ii ti j s
      = exam_run_selected env code sc ii idx t (exam_concat_scope_name t) s := by
  unfold exam_run_test
  rw [hc]
  simp only
  cases hf : env.filter with
  | none => rfl
  | some f =>
    have : f.val.isPrefixOf (exam_concat_scope_name t) = true := by
      simpa [exam_env_t.selects, hf] using hsel
    simp [exam_filter_test_eq, this]

theorem exam_header_emit {σ : Type} (sc : exam_scope_t) (s : Locals σ) :
    (if (!s.printed_scope) = true then
        { s.emit (Event.exam_print_running_test sc.len sc.name) with printed_scope := true }
      else s)
      = { s with trace := s.trace ++ exam_header_events sc s, printed_scope := true } := by
  unfold exam_header_events
  cases h : s.printed_scope with
  | false => simp [Locals.emit]
  | true =>
    cases s
    simp_all

/-- C6: if the body of a selected, non-pending test fires the failure channel
for the first time during repetition `k` (`1 ≤ k ≤ repeat`), the repetitions
before it having completed, then `exam_run` makes `k - 1` complete repetitions,
calls the `before` hook and the body once more and stops repeating: the body is
called `k` times, the `before` hook `k` times and the `after` hook `k - 1`
times; the test is reported failed, `retValue` becomes 1 and neither passed
count moves; and the run goes on to the next test when die-on-fail is off (and
leaves through `exit(1)` when it is on). -/
theorem exam_run_test_fails {σ : Type} (env : exam_env_t) (code : Nat → σ → Outcome σ)
    (sc : exam_scope_t) (ii : Nat) (ti : Option (Block Nat)) (j idx : Nat)
    (t : exam_test_t) (s : Locals σ) (k : Nat) (us bs cs : Nat → σ) (uf : σ)
    (hc : exam_current_test env sc ti j = some (idx, t)) (hsel : env.selects t = true)
    (hp : t.pending = false) (hk1 : 1 ≤ k) (hkr : k ≤ env.repeat_)
    (hs : s.user = us 0)
    (hok : ∀ i, i < k - 1 → exam_hook code sc.before (us i) = Outcome.done (bs i) ∧
      code t.fn (bs i) = Outcome.done (cs i) ∧
      exam_hook code sc.after (cs i) = Outcome.done (us (i + 1)))
    (hbk : exam_hook code sc.before (us (k - 1)) = Outcome.done (bs (k - 1)))
    (hfail : code t.fn (bs (k - 1)) = Outcome.jump uf) :
    ∃ (s1 : Locals σ) (calls : List Event),
      exam_run_test env code sc ii ti j s
        = (if env.die_on_fail then Flow.exit 1 s1 else Flow.next s1) ∧
      calls = (List.replicate (k - 1) (exam_rep_events sc t ii idx)).flatten ++
        exam_rep_head sc t ii idx ∧
      s1.trace = s.trace ++ exam_header_events sc s ++
        [Event.exam_print_run (exam_concat_scope_name t)] ++ calls ++
        [Event.exam_print_failed (exam_concat_scope_name t)] ∧
      calls.count (Event.call_fn ii idx t.fn) = k ∧
      (sc.before ≠ NULL → calls.count (Event.call_before ii idx sc.before) = k) ∧
      (sc.after ≠ NULL → calls.count (Event.call_after ii idx sc.after) = k - 1) ∧
      s1.user = uf ∧ s1.passed = s.passed ∧ s1.scope_passed = s.scope_passed ∧
      s1.retValue = 1 := by
  obtain ⟨c1, c2, c3⟩ := count_rep_events sc t ii idx
  obtain ⟨d1, d2, d3⟩ := count_rep_head sc t ii idx
  rw [exam_run_test_selected env code sc ii ti j idx t s hc hsel]
  unfold exam_run_selected
  simp only [hp, Bool.false_eq_true, if_false, exam_header_emit]
  have hsplit : env.repeat_ = (k - 1) + ((env.repeat_ - k) + 1) := by omega
  rw [hsplit]
  rw [exam_run_repeat_first code sc t ii idx (k - 1) ((env.repeat_ - k) + 1) us bs cs
    (({ s with trace := s.trace ++ exam_header_events sc s, printed_scope := true } :
      Locals σ).emit (Event.exam_print_run (exam_concat_scope_name t))) hs hok]
  rw [exam_run_repeat]
  rw [exam_run_once_jump code sc t ii idx _ (bs (k - 1)) uf hbk hfail]
  simp only
  have hcount : ((List.replicate (k - 1) (exam_rep_events sc t ii idx)).flatten ++
        exam_rep_head sc t ii idx).count (Event.call_fn ii idx t.fn) = k ∧
      (sc.before ≠ NULL → ((List.replicate (k - 1) (exam_rep_events sc t ii idx)).flatten ++
        exam_rep_head sc t ii idx).count (Event.call_before ii idx sc.before) = k) ∧
      (sc.after ≠ NULL → ((List.replicate (k - 1) (exam_rep_events sc t ii idx)).flatten ++
        exam_rep_head sc t ii idx).count (Event.call_after ii idx sc.after) = k - 1) := by
    refine ⟨?_, fun h => ?_, fun h => ?_⟩
    · rw [List.count_append, count_replicate_flatten, c1, d1]
      omega
    · rw [List.count_append, count_replicate_flatten, c2 h, d2 h]
      omega
    · rw [List.count_append, count_replicate_flatten, c3 h, d3]
      omega
  cases env.die_on_fail with
  | true =>
    exact ⟨_, _, rfl, rfl, by simp [Locals.emit], hcount.1, hcount.2.1, hcount.2.2,
      rfl, rfl, rfl, rfl⟩
  | false =>
    exact ⟨_, _, rfl, rfl, by simp [Locals.emit], hcount.1, hcount.2.1, hcount.2.2,
      rfl, rfl, rfl, rfl⟩

/-! ## Shuffling -/

theorem Block.write_none {α : Type} (b : Block α) (i : Nat) (v : α) (h : b.length ≤ i) :
    Block.write b i v = none := by
  simp [Block.write, Nat.not_lt.mpr h]

theorem Block.length_write {α : Type} (b b1 : Block α) (i : Nat) (v : α)
    (h : Block.write b i v = some b1) : b1.length = b.length := by
  unfold Block.write at h
  split at h
  · cases h
    simp
  · cases h

/-- The fill loop writes `i, i + 1, ...` into the slots from `i` on. -/
theorem exam_shuffle_fill_eq :
    ∀ (n i : Nat) (l : List Nat) (rest : Block Nat), l.length = i → n ≤ rest.length →
      exam_shuffle_fill (l.map some ++ rest) n i
        = some ((l ++ List.range' i n).map some ++ rest.drop n) := by
  intro n
  induction n with
  | zero =>
    intro i l rest _ _
    simp [exam_shuffle_fill]
  | succ n ih =>
    intro i l rest hl hn
    have hne : rest ≠ [] := by
      intro h
      subst h
      simp at hn
    unfold exam_shuffle_fill
    rw [← hl, Block.write_map_some_push l rest l.length hne]
    simp only
    obtain ⟨r, rs, rfl⟩ := List.exists_cons_of_ne_nil hne
    rw [ih (l.length + 1) (l ++ [l.length]) _ (by simp) (by simpa using hn)]
    simp [List.range'_succ]

/-- The fill loop runs off the end of an array with fewer than `n` slots. -/
theorem exam_shuffle_fill_none :
    ∀ (n i : Nat) (array : Block Nat), i ≤ array.length → array.length < i + n →
      exam_shuffle_fill array n i = none := by
  intro n
  induction n with
  | zero =>
    intro i array h1 h2
    omega
  | succ n ih =>
    intro i array h1 h2
    unfold exam_shuffle_fill
    rcases Nat.lt_or_ge i array.length with hlt | hge
    · cases hw : Block.write array i i with
      | none => rfl
      | some a =>
        have := Block.length_write array a i i hw
        exact ih (i + 1) a (by omega) (by omega)
    · rw [Block.write_none array i i hge]

theorem set_set_perm (l : List Nat) (i j : Nat) (hi : i < l.length) (hj : j < l.length) :
    ((l.set j l[i]).set i l[j]).Perm l := by
  rw [List.perm_iff_count]
  intro a
  have hi2 : i < (l.set j l[i]).length := by simpa using hi
  rw [List.count_set _ _ _ _ hi2, List.count_set _ _ _ _ hj]
  have hget : (l.set j l[i])[i] = l[i] := by
    rw [List.getElem_set]
    split <;> rfl
  rw [hget]
  have h1 : (if (l[j] == a) = true then 1 else 0) ≤ l.count a := by
    split
    · next h =>
      have : l[j] = a := by simpa using h
      exact List.count_pos_iff.mpr (this ▸ List.getElem_mem _)
    · exact Nat.zero_le _
  omega

/-- The swap index of line 139 lies between `i` and `n`. -/
theorem exam_shuffle_index_lt (RAND_MAX rnd n i : Nat) (hr : rnd ≤ RAND_MAX) (hi : i < n) :
    i + rnd / (RAND_MAX / (n - i) + 1) < n := by
  have hpos : 0 < n - i := by omega
  have h1 : RAND_MAX < (RAND_MAX / (n - i) + 1) * (n - i) := by
    have := Nat.lt_succ_self (RAND_MAX / (n - i))
    exact (Nat.div_lt_iff_lt_mul hpos).mp this
  have h2 : rnd / (RAND_MAX / (n - i) + 1) < n - i := by
    apply (Nat.div_lt_iff_lt_mul (Nat.succ_pos _)).mpr
    calc rnd ≤ RAND_MAX := hr
      _ < (RAND_MAX / (n - i) + 1) * (n - i) := h1
      _ = (n - i) * (RAND_MAX / (n - i) + 1) := Nat.mul_comm _ _
  omega

/-- The swap loop permutes the first `n` slots and calls `rand()` once per step. -/
theorem exam_shuffle_swap_perm (RAND_MAX : Nat) (rand : Nat → Nat) (n : Nat)
    (hr : ∀ c, rand c ≤ RAND_MAX) (rest : Block Nat) :
    ∀ (m i : Nat) (l : List Nat) (calls : Nat), l.length = n → i + m < n →
      ∃ l1 : List Nat,
        exam_shuffle_swap RAND_MAX rand n (l.map some ++ rest) calls m i
          = some (l1.map some ++ rest, calls + m) ∧ l1.Perm l := by
  intro m
  induction m with
  | zero =>
    intro i l calls _ _
    exact ⟨l, rfl, List.Perm.refl l⟩
  | succ m ih =>
    intro i l calls hl him
    have hi : i < l.length := by omega
    have hj : i + rand calls / (RAND_MAX / (n - i) + 1) < l.length := by
      rw [hl]
      exact exam_shuffle_index_lt RAND_MAX (rand calls) n i (hr calls) (by omega)
    unfold exam_shuffle_swap
    simp only
    rw [Block.read_map_some l rest _ hj, Block.read_map_some l rest i hi]
    simp only
    rw [Block.write_map_some_set l rest _ _ hj]
    simp only
    rw [Block.write_map_some_set _ rest i _ (by simpa using hi)]
    simp only
    obtain ⟨l1, h1, h2⟩ := ih (i + 1)
      ((l.set (i + rand calls / (RAND_MAX / (n - i) + 1)) l[i]).set i
        l[i + rand calls / (RAND_MAX / (n - i) + 1)]) (calls + 1) (by simpa using hl) (by omega)
    refine ⟨l1, ?_, h2.trans (set_set_perm l i _ hi hj)⟩
    rw [h1]
    congr 2
    omega

/-- With shuffling on, an index array that has room for `n` entries and `rand()`
values within `[0, RAND_MAX]`, `exam_create_shuffle n` returns an array whose
first `n` slots hold a permutation of `0, ..., n - 1`. -/
theorem exam_create_shuffle_perm (env : exam_env_t) (RAND_MAX : Nat) (rand : Nat → Nat)
    (n calls : Nat) (hsh : env.shuffle = true) (hr : ∀ c, rand c ≤ RAND_MAX)
    (hn : n ≤ env.tbl.len) :
    ∃ (l : List Nat) (rest : Block Nat) (c : Nat),
      exam_create_shuffle env RAND_MAX rand n calls = some (some (l.map some ++ rest), c) ∧
      l.Perm (List.range n) := by
  unfold exam_create_shuffle
  simp only [hsh, Bool.not_true, Bool.false_eq_true, if_false]
  have hfill := exam_shuffle_fill_eq n 0 [] (Block.malloc env.tbl.len) rfl
    (by simpa [Block.malloc] using hn)
  simp only [List.map_nil, List.nil_append] at hfill
  rw [hfill, ← List.range_eq_range']
  simp only
  by_cases h1 : n > 1
  · simp only [h1, if_true]
    obtain ⟨l1, h2, h3⟩ := exam_shuffle_swap_perm RAND_MAX rand n hr
      ((Block.malloc env.tbl.len : Block Nat).drop n) (n - 1) 0 (List.range n) calls
      (by simp) (by omega)
    rw [h2]
    exact ⟨l1, _, _, rfl, h3⟩
  · simp only [h1, if_false]
    exact ⟨List.range n, _, _, rfl, List.Perm.refl _⟩

/-- With shuffling on, `exam_create_shuffle n` writes past its array, which has
`tbl.len` slots, as soon as `n` is larger than the number of scopes. -/
theorem exam_create_shuffle_overflow (env : exam_env_t) (RAND_MAX : Nat) (rand : Nat → Nat)
    (n calls : Nat) (hsh : env.shuffle = true) (hn : env.tbl.len < n) :
    exam_create_shuffle env RAND_MAX rand n calls = none := by
  unfold exam_create_shuffle
  simp only [hsh, Bool.not_true, Bool.false_eq_true, if_false]
  rw [exam_shuffle_fill_none n 0 (Block.malloc env.tbl.len) (Nat.zero_le _)
    (by simpa [Block.malloc] using hn)]

/-! ## Runs that return -/

theorem exam_run_selected_next {σ : Type} (env : exam_env_t) (code : Nat → σ → Outcome σ)
    (sc : exam_scope_t) (ii idx : Nat) (t : exam_test_t) (buf : List Char) (s : Locals σ)
    (hd : env.die_on_fail = false) :
    ∃ s1, exam_run_selected env code sc ii idx t buf s = Flow.next s1 := by
  unfold exam_run_selected
  simp only [hd, Bool.false_eq_true, if_false]
  split
  · exact ⟨_, rfl⟩
  · split <;> exact ⟨_, rfl⟩

theorem exam_run_test_next {σ : Type} (env : exam_env_t) (code : Nat → σ → Outcome σ)
    (sc : exam_scope_t) (ii : Nat) (ti : Option (Block Nat)) (j : Nat) (s : Locals σ)
    (hd : env.die_on_fail = false) (p : Nat × exam_test_t)
    (hc : exam_current_test env sc ti j = some p) :
    ∃ s1, exam_run_test env code sc ii ti j s = Flow.next s1 := by
  obtain ⟨idx, t⟩ := p
  unfold exam_run_test
  rw [hc]
  simp only
  cases env.filter with
  | none => exact exam_run_selected_next env code sc ii _ _ _ s hd
  | some f =>
    simp only [exam_filter_test_eq, Option.map_some']
    cases f.val.isPrefixOf (exam_concat_scope_name t) with
    | false => exact ⟨s, rfl⟩
    | true => exact exam_run_selected_next env code sc ii _ _ _ s hd

/-- With shuffling on, an index array holding indices below `len` makes every
lookup of the current test succeed over a well-formed scope. -/
theorem exam_current_test_shuffled (env : exam_env_t) (sc : exam_scope_t) (l : List Nat)
    (rest : Block Nat) (j : Nat) (hsh : env.shuffle = true) (hwf : sc.wf)
    (hj : j < l.length) (hl : ∀ x ∈ l, x < sc.len) :
    ∃ p, exam_current_test env sc (some (l.map some ++ rest)) j = some p := by
  obtain ⟨_, h⟩ := hwf.test_at_wf l[j] (hl _ (List.getElem_mem _))
  unfold exam_current_test
  simp only [hsh, if_true, Option.some_bind, Block.read_map_some l rest j hj, h,
    Option.map_some']
  exact ⟨_, rfl⟩

theorem exam_run_tests_next {σ : Type} (env : exam_env_t) (code : Nat → σ → Outcome σ)
    (sc : exam_scope_t) (ii : Nat) (ti : Option (Block Nat))
    (hd : env.die_on_fail = false)
    (hc : ∀ j, j < sc.len → ∃ p, exam_current_test env sc ti j = some p) :
    ∀ (n j : Nat) (s : Locals σ), j + n = sc.len →
      ∃ s1, exam_run_tests env code sc ii ti n j s = Flow.next s1 := by
  intro n
  induction n with
  | zero => intro j s _; exact ⟨s, rfl⟩
  | succ n ih =>
    intro j s hj
    obtain ⟨p, hp⟩ := hc j (by omega)
    obtain ⟨s1, h1⟩ := exam_run_test_next env code sc ii ti j s hd p hp
    unfold exam_run_tests
    rw [h1]
    exact ih (j + 1) s1 (by omega)

/-- What makes a run with shuffling on stay within its index arrays: `rand()`
stays within `[0, RAND_MAX]` and no scope has more tests than the table has
scopes. -/
theorem exam_run_scope_next {σ : Type} (env : exam_env_t) (RAND_MAX : Nat)
    (rand : Nat → Nat) (code : Nat → σ → Outcome σ) (si : Option (Block Nat)) (i : Nat)
    (s : Locals σ) (hwf : env.tbl.wf) (hd : env.die_on_fail = false) (hi : i < env.tbl.len)
    (hfit : env.shuffle = true →
      (∀ c, rand c ≤ RAND_MAX) ∧ ∀ sc ∈ env.tbl.scope_list, sc.len ≤ env.tbl.len)
    (hsi : env.shuffle = true →
      ∃ (l : List Nat) (rest : Block Nat), si = some (l.map some ++ rest) ∧
        l.length = env.tbl.len ∧ ∀ x ∈ l, x < env.tbl.len) :
    ∃ s1, exam_run_scope env RAND_MAX rand code si i s = Flow.next s1 := by
  obtain ⟨hi1, hati, _⟩ := hwf.scope_at_wf i hi
  have hii : ∃ ii, (if env.shuffle = true then si.bind (fun a => Block.read a i) else some i)
      = some ii ∧ ii < env.tbl.len := by
    cases hsh : env.shuffle with
    | false => exact ⟨i, by simp, hi⟩
    | true =>
      obtain ⟨l, rest, rfl, hlen, hlt⟩ := hsi hsh
      have hil : i < l.length := by omega
      exact ⟨l[i], by simp [Block.read_map_some l rest i hil], hlt _ (List.getElem_mem _)⟩
  obtain ⟨ii, hii1, hii2⟩ := hii
  obtain ⟨hii3, hat, hscwf⟩ := hwf.scope_at_wf ii hii2
  have hmem : env.tbl.scope_list[ii] ∈ env.tbl.scope_list := List.getElem_mem _
  generalize env.tbl.scope_list[ii] = sc at hat hscwf hmem
  unfold exam_run_scope
  simp only [hii1, hat]
  have hcs : ∃ ti calls, exam_create_shuffle env RAND_MAX rand sc.len s.rand_calls
      = some (ti, calls) ∧ ∀ j, j < sc.len → ∃ p, exam_current_test env sc ti j = some p := by
    cases hsh : env.shuffle with
    | false =>
      refine ⟨none, _, exam_create_shuffle_off env RAND_MAX rand _ _ hsh, fun j hj => ?_⟩
      obtain ⟨_, h⟩ := exam_current_test_eq env sc none j hsh hscwf hj
      exact ⟨_, h⟩
    | true =>
      obtain ⟨hr, hlen⟩ := hfit hsh
      obtain ⟨l, rest, c, h1, h2⟩ := exam_create_shuffle_perm env RAND_MAX rand sc.len
        s.rand_calls hsh hr (hlen sc hmem)
      refine ⟨_, _, h1, fun j hj => ?_⟩
      have hl : l.length = sc.len := by simpa using h2.length_eq
      exact exam_current_test_shuffled env sc l rest j hsh hscwf (by omega)
        (fun x hx => List.mem_range.mp (h2.mem_iff.mp hx))
  obtain ⟨ti, calls, hcs1, hcs2⟩ := hcs
  simp only [hcs1]
  obtain ⟨s1, h1⟩ := exam_run_tests_next env code sc ii ti hd hcs2 sc.len 0
    { s with printed_scope := false, scope_passed := 0, rand_calls := calls } (by omega)
  rw [h1]
  simp only [hati]
  split <;> exact ⟨_, rfl⟩

theorem exam_run_scopes_next {σ : Type} (env : exam_env_t) (RAND_MAX : Nat)
    (rand : Nat → Nat) (code : Nat → σ → Outcome σ) (si : Option (Block Nat))
    (hwf : env.tbl.wf) (hd : env.die_on_fail = false)
    (hfit : env.shuffle = true →
      (∀ c, rand c ≤ RAND_MAX) ∧ ∀ sc ∈ env.tbl.scope_list, sc.len ≤ env.tbl.len)
    (hsi : env.shuffle = true →
      ∃ (l : List Nat) (rest : Block Nat), si = some (l.map some ++ rest) ∧
        l.length = env.tbl.len ∧ ∀ x ∈ l, x < env.tbl.len) :
    ∀ (n i : Nat) (s : Locals σ), i + n = env.tbl.len →
      ∃ s1, exam_run_scopes env RAND_MAX rand code si n i s = Flow.next s1 := by
  intro n
  induction n with
  | zero => intro i s _; exact ⟨s, rfl⟩
  | succ n ih =>
    intro i s hi
    obtain ⟨s1, h1⟩ := exam_run_scope_next env RAND_MAX rand code si i s hwf hd (by omega)
      hfit hsi
    unfold exam_run_scopes
    rw [h1]
    exact ih (i + 1) s1 (by omega)

/-- Outside list mode and with die-on-fail off, a run over a well-formed table
returns `retValue`, provided that with shuffling on `rand()` stays within
`[0, RAND_MAX]` and no scope has more tests than the table has scopes. -/
theorem exam_run_returns {σ : Type} (env : exam_env_t) (RAND_MAX : Nat) (rand : Nat → Nat)
    (code : Nat → σ → Outcome σ) (user : σ) (hwf : env.tbl.wf) (hl : env.list = false)
    (hd : env.die_on_fail = false)
    (hfit : env.shuffle = true →
      (∀ c, rand c ≤ RAND_MAX) ∧ ∀ sc ∈ env.tbl.scope_list, sc.len ≤ env.tbl.len) :
    (exam_run env RAND_MAX rand code user).status
      = Status.returned (exam_run env RAND_MAX rand code user).final.retValue := by
  unfold exam_run
  simp only
  rw [exam_run_enum_eq env hl hwf env.tbl.len 0 _ (by omega)]
  simp only [hl, Bool.false_eq_true, if_false]
  have hcs : ∃ si calls, exam_create_shuffle env RAND_MAX rand env.tbl.len 0
      = some (si, calls) ∧ (env.shuffle = true →
      ∃ (l : List Nat) (rest : Block Nat), si = some (l.map some ++ rest) ∧
        l.length = env.tbl.len ∧ ∀ x ∈ l, x < env.tbl.len) := by
    cases hsh : env.shuffle with
    | false =>
      exact ⟨none, _, exam_create_shuffle_off env RAND_MAX rand _ _ hsh,
        fun h => absurd h (by decide)⟩
    | true =>
      obtain ⟨hr, _⟩ := hfit hsh
      obtain ⟨l, rest, c, h1, h2⟩ := exam_create_shuffle_perm env RAND_MAX rand env.tbl.len
        0 hsh hr (Nat.le_refl _)
      exact ⟨_, _, h1, fun _ => ⟨l, rest, rfl, by simpa using h2.length_eq,
        fun x hx => List.mem_range.mp (h2.mem_iff.mp hx)⟩⟩
  obtain ⟨si, calls, hcs1, hcs2⟩ := hcs
  simp only [hcs1]
  obtain ⟨s1, h1⟩ := exam_run_scopes_next env RAND_MAX rand code si hwf hd hfit hcs2
    env.tbl.len 0 _ (by omega)
  rw [h1]
  rfl

/-! ## Exit status -/

/-- Outside list mode and with die-on-fail off, a run that stays within its
index arrays returns 0 if no failure was reported and 1 otherwise; it returns 0
in particular when every test in the table is pending or filtered out. -/
theorem exam_run_exit_status {σ : Type} (env : exam_env_t) (RAND_MAX : Nat)
    (rand : Nat → Nat) (code : Nat → σ → Outcome σ) (user : σ) (hwf : env.tbl.wf)
    (hl : env.list = false) (hd : env.die_on_fail = false)
    (hfit : env.shuffle = true →
      (∀ c, rand c ≤ RAND_MAX) ∧ ∀ sc ∈ env.tbl.scope_list, sc.len ≤ env.tbl.len) :
    ∃ v, (exam_run env RAND_MAX rand code user).status = Status.returned v ∧
      (v = 0 ↔ ∀ e ∈ (exam_run env RAND_MAX rand code user).final.trace,
        e.is_failed = false) ∧
      (v = 0 ∨ v = 1) ∧
      ((∀ (ii idx : Nat) (sc : exam_scope_t) (t : exam_test_t),
          env.scope_at ii = some sc → sc.test_at idx = some t →
            t.pending = true ∨ env.selects t = false) → v = 0) := by
  have hret := exam_run_returns env RAND_MAX rand code user hwf hl hd hfit
  have hinv := exam_run_inv env RAND_MAX rand code user
  refine ⟨_, hret, ⟨fun h0 => hinv.no_failed h0, fun hnf => ?_⟩, ?_, fun hall => ?_⟩
  · by_contra hne
    obtain ⟨_, e, he, hf⟩ := hinv.some_failed hne
    rw [hnf e he] at hf
    exact absurd hf (by decide)
  · rcases hinv.2 with ⟨h, _⟩ | ⟨h, _⟩
    · exact Or.inl h
    · exact Or.inr h
  · rcases hinv.2 with ⟨h, _⟩ | ⟨_, _, hcall⟩
    · exact h
    · obtain ⟨e, he, hc⟩ := List.any_eq_true.mp hcall
      have hj := hinv.1 e he
      cases e with
      | call_before ii idx fn =>
        obtain ⟨sc, t, h1, h2, h3, _, _, h4⟩ := hj
        rcases hall ii idx sc t h1 h2 with h5 | h5
        · rw [h3] at h5
          exact absurd h5 (by decide)
        · rw [h4] at h5
          exact absurd h5 (by decide)
      | call_fn ii idx fn =>
        obtain ⟨sc, t, h1, h2, h3, _, h4⟩ := hj
        rcases hall ii idx sc t h1 h2 with h5 | h5
        · rw [h3] at h5
          exact absurd h5 (by decide)
        · rw [h4] at h5
          exact absurd h5 (by decide)
      | call_after ii idx fn =>
        obtain ⟨sc, t, h1, h2, h3, _, _, h4⟩ := hj
        rcases hall ii idx sc t h1 h2 with h5 | h5
        · rw [h3] at h5
          exact absurd h5 (by decide)
        · rw [h4] at h5
          exact absurd h5 (by decide)
      | _ => exact absurd hc (by simp [Event.is_call])

/-! ## Concrete runs -/

/-- C2 as stated fails under die-on-fail: with `math.add`, `math.sub` and
`str.concat` registered, the filter `math.`, shuffling off and `math.add`
failing, the run processes `math.add` only, although `math.sub` starts with the
filter too. -/
theorem exam_run_filter_selects_counterexample :
    exam_register_all exam_tbl_t.zero math_calls = some math_die_env.tbl ∧
    math_die_env.shuffle = false ∧ math_die_env.filter = some math_filter ∧
    (((spec_scope_names math_calls).flatMap (spec_scope_tests math_calls)).map
        exam_concat_scope_name).filter (fun q => math_filter.val.isPrefixOf q)
      = ["math.add".toList, "math.sub".toList] ∧
    trace_processed (exam_run math_die_env 32767 (fun _ => 0) (demo_code [1]) []).final.trace
      = ["math.add".toList] ∧
    (exam_run math_die_env 32767 (fun _ => 0) (demo_code [1]) []).status = Status.exited 1 ∧
    trace_processed (exam_run math_die_env 32767 (fun _ => 0) (demo_code [1]) []).final.trace
      ≠ (((spec_scope_names math_calls).flatMap (spec_scope_tests math_calls)).map
          exam_concat_scope_name).filter (fun q => math_filter.val.isPrefixOf q) := by
  decide

/-- C2, as amended, at `math.add`, `math.sub` and `str.concat` with the filter
`math.`: the run returns, and has processed `math.add`, then `math.sub`, and
never `str.concat`. -/
theorem exam_run_filter_selects_witness :
    (exam_register_all exam_tbl_t.zero math_calls = some math_env.tbl ∧
      math_env.shuffle = false ∧ math_env.filter = some math_filter) ∧
    (exam_run math_env 32767 (fun _ => 0) (demo_code []) []).status = Status.returned 0 ∧
    trace_processed (exam_run math_env 32767 (fun _ => 0) (demo_code []) []).final.trace
      = ["math.add".toList, "math.sub".toList] :=
  ⟨⟨by decide, by decide, by decide⟩, by decide,
    ((exam_run_filter_selects math_calls math_env math_filter 32767 (fun _ => 0) (demo_code [])
      [] (by decide) (by decide) (by decide)).2 0 (by decide)).trans (by decide)⟩

/-- C3 at a scope holding `a`, a pending `p` and `b`: no call is made for `p`
(scope 0, test 1) in the run, and the iteration that meets `p` leaves the
counts alone. -/
theorem exam_run_pending_not_run_witness :
    ((demo_env pending_calls).scope_at 0 = some (demo_scope pending_calls 0) ∧
      (demo_scope pending_calls 0).test_at 1 = some (demo_test pending_calls 0 1) ∧
      (demo_test pending_calls 0 1).pending = true ∧
      exam_current_test (demo_env pending_calls) (demo_scope pending_calls 0) none 1
        = some (1, demo_test pending_calls 0 1)) ∧
    (Event.call_before 0 1 0 ∉
        (exam_run (demo_env pending_calls) 32767 (fun _ => 0) (demo_code []) []).final.trace ∧
      Event.call_fn 0 1 2 ∉
        (exam_run (demo_env pending_calls) 32767 (fun _ => 0) (demo_code []) []).final.trace ∧
      Event.call_after 0 1 0 ∉
        (exam_run (demo_env pending_calls) 32767 (fun _ => 0) (demo_code []) []).final.trace) ∧
    (∃ s1 evs, exam_run_test (demo_env pending_calls) (demo_code [])
          (demo_scope pending_calls 0) 0 none 1 (demo_locals []) = Flow.next s1 ∧
        s1.user = [] ∧ s1.passed = 0 ∧ s1.scope_passed = 0 ∧ s1.retValue = 0 ∧
        s1.trace = [] ++ evs ∧ ∀ e ∈ evs, e.is_call = false ∧ e.is_failed = false) ∧
    (exam_run (demo_env pending_calls) 32767 (fun _ => 0) (demo_code []) []).final.user
      = [1, 3] :=
  ⟨⟨by decide, by decide, by decide, by decide⟩,
    ⟨((exam_run_pending_not_run (demo_env pending_calls) 32767 (fun _ => 0) (demo_code [])
        []).1 0 1 0 (demo_scope pending_calls 0) (demo_test pending_calls 0 1) (by decide)
        (by decide) (by decide)).1,
      ((exam_run_pending_not_run (demo_env pending_calls) 32767 (fun _ => 0) (demo_code [])
        []).1 0 1 2 (demo_scope pending_calls 0) (demo_test pending_calls 0 1) (by decide)
        (by decide) (by decide)).2.1,
      ((exam_run_pending_not_run (demo_env pending_calls) 32767 (fun _ => 0) (demo_code [])
        []).1 0 1 0 (demo_scope pending_calls 0) (demo_test pending_calls 0 1) (by decide)
        (by decide) (by decide)).2.2⟩,
    (exam_run_pending_not_run (demo_env pending_calls) 32767 (fun _ => 0) (demo_code [])
      []).2 (demo_scope pending_calls 0) 0 none 1 1 (demo_test pending_calls 0 1)
      (demo_locals []) (by decide) (by decide),
    by decide⟩

/-- The tests `[A passes, B fails, C passes]` of one scope with die-on-fail,
where the failure of `s.B` is reported: the run leaves through `exit(1)` right after reporting `s.B`
failed, having processed `s.A` and `s.B`; the bodies of `A` and `B` were
called and the body of `C` was not. -/
theorem exam_run_die_on_fail_witness :
    (exam_register_all exam_tbl_t.zero abc_calls = some abc_env.tbl ∧
      abc_env.shuffle = false ∧ abc_env.die_on_fail = true ∧
      Event.exam_print_failed "s.B".toList ∈
        (exam_run abc_env 32767 (fun _ => 0) (demo_code [2]) []).final.trace) ∧
    ((exam_run abc_env 32767 (fun _ => 0) (demo_code [2]) []).status = Status.exited 1 ∧
      ∃ (pre : List Event) (l : List (List Char)),
        (exam_run abc_env 32767 (fun _ => 0) (demo_code [2]) []).final.trace
          = pre ++ [Event.exam_print_failed "s.B".toList] ∧
        (∀ e ∈ pre, e.is_failed = false) ∧
        trace_processed (exam_run abc_env 32767 (fun _ => 0) (demo_code [2]) []).final.trace
          = l ++ ["s.B".toList] ∧
        (l ++ ["s.B".toList]) <+:
          abc_env.selected_names
            ((spec_scope_names abc_calls).flatMap (spec_scope_tests abc_calls))) ∧
    (exam_run abc_env 32767 (fun _ => 0) (demo_code [2]) []).final.user = [1, 2] ∧
    trace_processed (exam_run abc_env 32767 (fun _ => 0) (demo_code [2]) []).final.trace
      = ["s.A".toList, "s.B".toList] :=
  ⟨⟨by decide, by decide, by decide, by decide⟩,
    exam_run_die_on_fail abc_calls abc_env 32767 (fun _ => 0) (demo_code [2]) [] (by decide)
      (by decide) (by decide) "s.B".toList (by decide),
    by decide, by decide⟩

/-- C6 at `--repeat 3` with a body that fails on its second call: the `before`
hook and the body have been called twice and the `after` hook once, the test is
reported failed and not counted as passed, and the run goes on. -/
theorem exam_run_test_fails_witness :
    (exam_current_test hook_env (demo_scope hook_calls 0) none 0
        = some (0, demo_test hook_calls 0 0) ∧
      hook_env.selects (demo_test hook_calls 0 0) = true ∧
      (demo_test hook_calls 0 0).pending = false ∧ 1 ≤ 2 ∧ 2 ≤ hook_env.repeat_ ∧
      hook_env.die_on_fail = false) ∧
    (∃ s1, exam_run_test hook_env count_code_fail (demo_scope hook_calls 0) 0 none 0
          (demo_locals (0, 0, 0)) = Flow.next s1 ∧
        s1.trace.count (Event.call_before 0 0 10) = 2 ∧
        s1.trace.count (Event.call_fn 0 0 1) = 2 ∧
        s1.trace.count (Event.call_after 0 0 11) = 1 ∧
        Event.exam_print_failed "s.t".toList ∈ s1.trace ∧
        s1.user = (2, 2, 1) ∧ s1.passed = 0 ∧ s1.scope_passed = 0 ∧ s1.retValue = 1) ∧
    (exam_run hook_env 32767 (fun _ => 0) count_code_fail (0, 0, 0)).status
      = Status.returned 1 ∧
    (exam_run hook_env 32767 (fun _ => 0) count_code_fail (0, 0, 0)).final.user
      = (2, 2, 1) := by
  have hb : (demo_scope hook_calls 0).before = 10 := by decide
  have ha : (demo_scope hook_calls 0).after = 11 := by decide
  have hf : (demo_test hook_calls 0 0).fn = 1 := by decide
  obtain ⟨s1, calls, h1, h2, h3, _, _, _, h7, h8, h9, h10⟩ :=
    exam_run_test_fails hook_env count_code_fail (demo_scope hook_calls 0) 0 none 0 0
      (demo_test hook_calls 0 0) (demo_locals (0, 0, 0)) 2
      (fun i => (i, i, i)) (fun i => (i + 1, i, i)) (fun i => (i + 1, i + 1, i)) (2, 2, 1)
      (by decide) (by decide) (by decide) (by decide) (by decide) rfl
      (fun i hi => by
        have hi0 : i = 0 := by omega
        subst hi0
        rw [hb, ha, hf]
        exact ⟨by decide, by decide, by decide⟩)
      (by rw [hb]; decide) (by rw [hf]; decide)
  refine ⟨⟨by decide, by decide, by decide, by decide, by decide, by decide⟩,
    ⟨s1, h1, ?_, ?_, ?_, ?_, h7, h8, h9, h10⟩, by decide, by decide⟩
  · rw [h3, h2]
    decide
  · rw [h3, h2]
    decide
  · rw [h3, h2]
    decide
  · rw [h3, h2]
    decide

/-- C7 fails with `--shuffle` over one scope of four tests, outside list mode
and with die-on-fail off: the index array for the tests has one slot, the table
holding one scope, `exam_create_shuffle(4)` writes past it, and the run is
undefined before any test is run; it returns neither 0 nor 1. -/
theorem exam_run_shuffle_undefined :
    exam_register_all exam_tbl_t.zero one_calls = some one_shuffle_env.tbl ∧
    one_shuffle_env.list = false ∧ one_shuffle_env.die_on_fail = false ∧
    one_shuffle_env.shuffle = true ∧
    (exam_run one_shuffle_env 32767 (fun _ => 0) (demo_code []) []).status
      = Status.undefined ∧
    (exam_run one_shuffle_env 32767 (fun _ => 0) (demo_code []) []).final.trace
      = [Event.exam_print_running_all 4] := by
  decide

/-- C8 at the registrations of `math.add`, `math.sub` and `str.concat`: the
table holds the scopes `math` and `str`, in that order, with their tests. -/
theorem exam_register_all_scopes_witness :
    (∃ tbl, exam_register_all exam_tbl_t.zero math_calls = some tbl ∧ tbl.wf ∧
      tbl.scope_list.map (fun sc => sc.name) = spec_scope_names math_calls ∧
      (tbl.scope_list.map (fun sc => sc.name)).Nodup ∧
      (∀ x, x ∈ tbl.scope_list.map (fun sc => sc.name) ↔ ∃ c ∈ math_calls, c.scope = x) ∧
      ∀ sc ∈ tbl.scope_list, sc.test_list = spec_scope_tests math_calls sc.name) ∧
    (demo_tbl math_calls).scope_list.map (fun sc => (sc.name.val, sc.test_list.map
        (fun t => t.name.val)))
      = [("math".toList, ["add".toList, "sub".toList]), ("str".toList, ["concat".toList])] :=
  ⟨exam_register_all_scopes math_calls, by decide⟩

/-- C9 at a `before` hook registered at 10 and then, after a test registration,
at 20: the scope's `before` hook is 20, its `after` hook is unset, it holds the
one test, and the run calls 20 and never 10. -/
theorem exam_register_each_last_wins_witness :
    exam_register_all exam_tbl_t.zero rehook_calls = some (demo_env rehook_calls).tbl ∧
    (∃ (k : Nat) (sc : exam_scope_t), (demo_env rehook_calls).scope_at k = some sc ∧
      sc ∈ (demo_env rehook_calls).tbl.scope_list ∧ sc.before = 20 ∧ sc.after = NULL ∧
      sc.test_list.map (fun t => t.name.val) = ["t".toList]) ∧
    (exam_run (demo_env rehook_calls) 32767 (fun _ => 0) (demo_code []) []).final.user
      = [20, 1] := by
  obtain ⟨k, sc, h1, h2, _, _, h5, h6, h7, _⟩ :=
    @exam_register_each_last_wins (List Nat) []
      [Registration.test (cstr "s" (by decide)) (cstr "t" (by decide)) 1 false]
      (cstr "s" (by decide)) 10 20 true (demo_env rehook_calls) (by decide)
  refine ⟨by decide, ⟨k, sc, h1, h2, ?_, ?_, ?_⟩, by decide⟩
  · simpa using h5
  · rw [show sc.after = (if true = true then sc.after else sc.before) from rfl, h6]
    decide
  · rw [h7]
    decide

/-- C10 fails with shuffling on for the tests of a scope that has more tests
than the table has scopes: for the one scope of four tests the index array has
one slot, and `exam_create_shuffle(4)` writes past it instead of building a
permutation of `0, 1, 2, 3`. -/
theorem exam_create_shuffle_overrun :
    one_shuffle_env.shuffle = true ∧ one_shuffle_env.tbl.len = 1 ∧
    (demo_scope one_calls 0).len = 4 ∧
    exam_create_shuffle one_shuffle_env 32767 (fun _ => 0) 4 0 = none ∧
    exam_shuffle_fill (Block.malloc one_shuffle_env.tbl.len) 1 0 = some [some 0] ∧
    exam_shuffle_fill (Block.malloc one_shuffle_env.tbl.len) 2 0 = none := by
  decide

/-! ## The swap index stays inside the array -/

/-- The swap loop reads and writes the array at `i` and at the index of line
139, `exam_shuffle_index`. -/
theorem exam_shuffle_swap_index (RAND_MAX : Nat) (rand : Nat → Nat) (n : Nat)
    (array : Block Nat) (calls m i : Nat) :
    exam_shuffle_swap RAND_MAX rand n array calls (m + 1) i
      = (match Block.read array (exam_shuffle_index RAND_MAX n i (rand calls)) with
        | none => none
        | some t =>
          match Block.read array i with
          | none => none
          | some ai =>
            match Block.write array (exam_shuffle_index RAND_MAX n i (rand calls)) ai with
            | none => none
            | some a1 =>
              match Block.write a1 i t with
              | none => none
              | some a2 => exam_shuffle_swap RAND_MAX rand n a2 (calls + 1) m (i + 1)) :=
  rfl

/-- C20: in `exam_create_shuffle`, for `n >= 2`, `i < n - 1` and a `rand()` value
`rnd <= RAND_MAX` (with `n` and `RAND_MAX` values of `size_t`), the divisor
`RAND_MAX / (n - i) + 1` of line 139 is not zero, nothing in the computation
leaves `size_t` (the machine result is the result in the naturals), and the
swap index `j` satisfies `i <= j < n`. -/
theorem exam_shuffle_index_bounds (SIZE_MAX RAND_MAX n i rnd : Nat) (hn : 2 ≤ n)
    (hsz : n ≤ SIZE_MAX) (hrm : RAND_MAX ≤ SIZE_MAX) (hi : i < n - 1)
    (hr : rnd ≤ RAND_MAX) :
    0 < n - i ∧ 0 < RAND_MAX / (n - i) + 1 ∧ RAND_MAX / (n - i) + 1 ≤ SIZE_MAX ∧
    exam_shuffle_index_size_t SIZE_MAX RAND_MAX n i rnd
      = some (exam_shuffle_index RAND_MAX n i rnd) ∧
    i ≤ exam_shuffle_index RAND_MAX n i rnd ∧
    exam_shuffle_index RAND_MAX n i rnd < n := by
  have hlt : exam_shuffle_index RAND_MAX n i rnd < n :=
    exam_shuffle_index_lt RAND_MAX rnd n i hr (by omega)
  have hq : RAND_MAX / (n - i) + 1 ≤ SIZE_MAX := by
    have h2 : RAND_MAX / (n - i) ≤ RAND_MAX / 2 :=
      Nat.div_le_div_left (by omega) (by omega)
    omega
  refine ⟨by omega, Nat.succ_pos _, hq, ?_, Nat.le_add_right _ _, hlt⟩
  unfold exam_shuffle_index_size_t
  have hm1 : n % (SIZE_MAX + 1) = n := Nat.mod_eq_of_lt (by omega)
  have hm2 : i % (SIZE_MAX + 1) = i := Nat.mod_eq_of_lt (by omega)
  have hm3 : RAND_MAX % (SIZE_MAX + 1) = RAND_MAX := Nat.mod_eq_of_lt (by omega)
  have hm4 : rnd % (SIZE_MAX + 1) = rnd := Nat.mod_eq_of_lt (by omega)
  have hm5 : (n + (SIZE_MAX + 1) - i) % (SIZE_MAX + 1) = n - i := by
    have : n + (SIZE_MAX + 1) - i = (n - i) + (SIZE_MAX + 1) := by omega
    rw [this, Nat.add_mod_right]
    exact Nat.mod_eq_of_lt (by omega)
  have hm6 : (RAND_MAX / (n - i) + 1) % (SIZE_MAX + 1) = RAND_MAX / (n - i) + 1 :=
    Nat.mod_eq_of_lt (Nat.lt_succ_of_le hq)
  have hm7 : (i + rnd / (RAND_MAX / (n - i) + 1)) % (SIZE_MAX + 1)
      = i + rnd / (RAND_MAX / (n - i) + 1) := by
    unfold exam_shuffle_index at hlt
    exact Nat.mod_eq_of_lt (by omega)
  simp only [hm1, hm2, hm3, hm4, hm5, hm6, hm7]
  rw [if_neg (by omega), if_neg (Nat.succ_ne_zero _)]
  rfl

/-- C20 at `n = 4`, `i = 2`, `rnd = RAND_MAX = 32767` on a machine with a 64-bit
`size_t`: the divisor is 16384 and `j = 3`. -/
theorem exam_shuffle_index_bounds_witness :
    0 < 4 - 2 ∧ 0 < 32767 / (4 - 2) + 1 ∧ 32767 / (4 - 2) + 1 ≤ 2 ^ 64 - 1 ∧
    exam_shuffle_index_size_t (2 ^ 64 - 1) 32767 4 2 32767
      = some (exam_shuffle_index 32767 4 2 32767) ∧
    2 ≤ exam_shuffle_index 32767 4 2 32767 ∧
    exam_shuffle_index 32767 4 2 32767 < 4 :=
  exam_shuffle_index_bounds (2 ^ 64 - 1) 32767 4 2 32767 (by decide) (by decide) (by decide)
    (by decide) (by decide)

/-! ## The memory assertions -/

theorem spec_loop_report_snoc (report : Nat → Nat → Nat → MemLine) (shortd : Bool)
    (a b : List Nat) (file : List Char) (line : Int) (offs : List Nat) (i : Nat) :
    spec_loop_report report shortd a b file line (offs ++ [i])
      = (if offs.length < 16 then
          (if !shortd then
              (if offs.length = 0 then
                  (if !shortd then
                    spec_loop_report report shortd a b file line offs
                      ++ [MemLine.error_at_line file line]
                   else spec_loop_report report shortd a b file line offs)
                else spec_loop_report report shortd a b file line offs)
                ++ [report i (a.getD i 0) (b.getD i 0)]
            else
              (if offs.length = 0 then
                  (if !shortd then
                    spec_loop_report report shortd a b file line offs
                      ++ [MemLine.error_at_line file line]
                   else spec_loop_report report shortd a b file line offs)
                else spec_loop_report report shortd a b file line offs))
         else spec_loop_report report shortd a b file line offs) := by
  unfold spec_loop_report
  cases shortd with
  | true => simp
  | false =>
    simp only [Bool.false_eq_true, if_false, Bool.not_false, if_true]
    by_cases h16 : offs.length < 16
    · simp only [h16, if_true]
      have ht : (offs ++ [i]).take 16 = offs ++ [i] :=
        List.take_of_length_le (by simp; omega)
      have ht1 : offs.take 16 = offs := List.take_of_length_le (by omega)
      rw [ht, ht1]
      cases offs with
      | nil => simp
      | cons x xs => simp
    · simp only [h16, if_false]
      have ht : (offs ++ [i]).take 16 = offs.take 16 := by
        rw [List.take_append_of_le_length (by omega)]
      rw [ht]
      have hne : offs ≠ [] := by
        intro h
        rw [h] at h16
        simp at h16
      simp [hne]

/-- The loop of a memory assertion finds the offsets at which the comparison
holds, in increasing order, counts them, and prints the first 16. -/
theorem exam_assert_mem_loop_eq (hit : Nat → Nat → Bool)
    (report : Nat → Nat → Nat → MemLine) (shortd : Bool) (a b : List Nat)
    (file : List Char) (line : Int) :
    ∀ (n i : Nat) (offs : List Nat), i + n ≤ a.length → i + n ≤ b.length →
      exam_assert_mem_loop hit report shortd a b file line n i offs.length
          (spec_loop_report report shortd a b file line offs)
        = some ((offs ++ (List.range' i n).filter
                  (fun k => hit (a.getD k 0) (b.getD k 0))).length,
            spec_loop_report report shortd a b file line
              (offs ++ (List.range' i n).filter (fun k => hit (a.getD k 0) (b.getD k 0)))) := by
  intro n
  induction n with
  | zero =>
    intro i offs _ _
    simp [exam_assert_mem_loop]
  | succ n ih =>
    intro i offs ha hb
    have hia : i < a.length := by omega
    have hib : i < b.length := by omega
    unfold exam_assert_mem_loop
    rw [List.get?_eq_get hia, List.get?_eq_get hib]
    simp only
    have hga : a.getD i 0 = a.get ⟨i, hia⟩ := by
      rw [List.getD_eq_getElem?_getD, List.getElem?_eq_getElem hia]
      rfl
    have hgb : b.getD i 0 = b.get ⟨i, hib⟩ := by
      rw [List.getD_eq_getElem?_getD, List.getElem?_eq_getElem hib]
      rfl
    rw [← hga, ← hgb]
    have hr : List.range' i (n + 1) = i :: List.range' (i + 1) n := rfl
    rw [hr]
    cases hh : hit (a.getD i 0) (b.getD i 0) with
    | false =>
      simp only [Bool.false_eq_true, if_false]
      rw [ih (i + 1) offs (by omega) (by omega),
        List.filter_cons_of_neg (by simp only [hh]; decide)]
    | true =>
      simp only [if_true]
      have h1 := ih (i + 1) (offs ++ [i]) (by omega) (by omega)
      rw [spec_loop_report_snoc] at h1
      simp only [List.length_append, List.length_singleton] at h1
      rw [h1, List.filter_cons_of_pos (by simp only [hh])]
      simp only [List.append_assoc, List.singleton_append, List.length_append,
        List.length_cons]
      congr 2
      omega

/-- What a memory assertion does, for either comparison: with no offset found
it returns silently; otherwise it leaves through the jump, having printed
nothing in short mode and the failure report in verbose mode. -/
theorem exam_assert_mem_eq (hit : Nat → Nat → Bool) (report : Nat → Nat → Nat → MemLine)
    (total : Nat → MemLine) (shortd : Bool) (a b : List Nat) (file : List Char)
    (line : Int) (len : Nat) (ha : len ≤ a.length) (hb : len ≤ b.length) :
    (exam_assert_mem_loop hit report shortd a b file line len 0 0 []).map
        (fun p => exam_assert_mem_end total shortd p.1 p.2)
      = some
        (if (List.range len).filter (fun k => hit (a.getD k 0) (b.getD k 0)) = [] then
          Outcome.done []
         else
          Outcome.jump
            (if shortd then []
             else spec_failure_report report total a b file line
              ((List.range len).filter (fun k => hit (a.getD k 0) (b.getD k 0))))) := by
  have h0 : spec_loop_report report shortd a b file line [] = [] := by
    unfold spec_loop_report
    cases shortd <;> simp
  have h1 := exam_assert_mem_loop_eq hit report shortd a b file line len 0 []
    (by omega) (by omega)
  rw [h0] at h1
  simp only [List.length_nil, List.nil_append, ← List.range_eq_range'] at h1
  rw [h1]
  simp only [Option.map_some']
  congr 1
  generalize (List.range len).filter (fun k => hit (a.getD k 0) (b.getD k 0)) = offs
  unfold exam_assert_mem_end spec_loop_report spec_failure_report
  cases offs with
  | nil => cases shortd <;> simp
  | cons x xs =>
    cases shortd with
    | true => simp
    | false =>
      by_cases h16 : 15 ≤ xs.length
      · simp [h16]
      · simp [h16]

theorem mem_offsets_sorted (p : Nat → Bool) (len : Nat) :
    ((List.range len).filter p).Pairwise (fun x y => x < y) :=
  List.Pairwise.filter p (List.pairwise_lt_range len)

/-- What `_exam_assert_equal_mem` does over buffers that hold at least `len`
bytes: it fires the failure channel (leaves through the jump) exactly if
`a[i] != b[i]` for some `i < len`, and returns without printing otherwise.  When
it fires in verbose mode it has printed the call site, then one line for each of
the first 16 differing offsets (all of them if there are fewer), in increasing
order and with the two `char` objects at that offset as `%02x` prints them, then
a line of dots if there are 16 or more, then the total number of differing
bytes.  In short mode it prints nothing. -/
theorem exam_assert_equal_mem_reports (char_signed shortd : Bool) (a b : List Nat)
    (len : Nat) (file : List Char) (line : Int) (ha : len ≤ a.length)
    (hb : len ≤ b.length) :
    _exam_assert_equal_mem char_signed shortd a b len file line
      = some
        (if spec_differing_offsets a b len = [] then Outcome.done []
         else
          Outcome.jump
            (if shortd then []
             else spec_failure_report (exam_mem_line char_signed MemLine.difference_at_offset)
              MemLine.bytes_different a b file line (spec_differing_offsets a b len))) ∧
    ((∃ out, _exam_assert_equal_mem char_signed shortd a b len file line
        = some (Outcome.jump out)) ↔
      ∃ i, i < len ∧ a.getD i 0 ≠ b.getD i 0) ∧
    (∀ i, i ∈ spec_differing_offsets a b len ↔ i < len ∧ a.getD i 0 ≠ b.getD i 0) ∧
    (spec_differing_offsets a b len).Pairwise (fun x y => x < y) ∧
    ((spec_differing_offsets a b len).take 16).length
      = min 16 (spec_differing_offsets a b len).length := by
  have hmem : ∀ i, i ∈ spec_differing_offsets a b len ↔ i < len ∧ a.getD i 0 ≠ b.getD i 0 := by
    intro i
    simp [spec_differing_offsets]
  have heq := exam_assert_mem_eq (fun l r => l != r)
    (exam_mem_line char_signed MemLine.difference_at_offset)
    MemLine.bytes_different shortd a b file line len ha hb
  refine ⟨heq, ?_, hmem, mem_offsets_sorted _ len, List.length_take _ _⟩
  unfold _exam_assert_equal_mem
  rw [heq]
  constructor
  · rintro ⟨out, h⟩
    by_cases hnil : (List.range len).filter (fun k => a.getD k 0 != b.getD k 0) = []
    · rw [if_pos hnil] at h
      cases h
    · obtain ⟨i, hi⟩ := List.exists_mem_of_ne_nil _ hnil
      exact ⟨i, (hmem i).mp hi⟩
  · rintro ⟨i, hi⟩
    have hne : (List.range len).filter (fun k => a.getD k 0 != b.getD k 0) ≠ [] :=
      List.ne_nil_of_mem ((hmem i).mpr hi)
    rw [if_neg hne]
    exact ⟨_, rfl⟩

/-- The report of `_exam_assert_equal_mem` at the buffers `01 02 03` and
`01 05 03` in verbose mode, where plain `char` is signed: the call site, the one
differing offset 1 with `02` and `05`, and a total of 1; over identical buffers
the assertion returns silently. -/
theorem exam_assert_equal_mem_reports_witness :
    (_exam_assert_equal_mem true false [0x01, 0x02, 0x03] [0x01, 0x05, 0x03] 3 "t.c".toList 7
      = some
        (if spec_differing_offsets [0x01, 0x02, 0x03] [0x01, 0x05, 0x03] 3 = [] then
          Outcome.done []
         else
          Outcome.jump
            (if false then []
             else spec_failure_report (exam_mem_line true MemLine.difference_at_offset)
              MemLine.bytes_different
              [0x01, 0x02, 0x03] [0x01, 0x05, 0x03] "t.c".toList 7
              (spec_differing_offsets [0x01, 0x02, 0x03] [0x01, 0x05, 0x03] 3)))) ∧
    _exam_assert_equal_mem true false [0x01, 0x02, 0x03] [0x01, 0x05, 0x03] 3 "t.c".toList 7
      = some (Outcome.jump
          [MemLine.error_at_line "t.c".toList 7,
           MemLine.difference_at_offset 1 "02".toList "05".toList,
           MemLine.bytes_different 1]) ∧
    _exam_assert_equal_mem true false [0x01, 0x02, 0x03] [0x01, 0x02, 0x03] 3 "t.c".toList 7
      = some (Outcome.done []) :=
  ⟨(exam_assert_equal_mem_reports true false [0x01, 0x02, 0x03] [0x01, 0x05, 0x03] 3
      "t.c".toList 7 (by decide) (by decide)).1, by decide, by decide⟩

/-- Where plain `char` is unsigned, and for the bytes below `0x80` where it is
signed, `%02x` prints the byte value in two hexadecimal digits. -/
theorem printf_02x_byte (char_signed : Bool) (byte : Nat) (hb : byte < 256)
    (hs : char_signed = true → byte < 128) :
    printf_02x (char_value char_signed byte) = spec_hex_byte byte := by
  cases char_signed with
  | false =>
    clear hs
    interval_cases byte <;> rfl
  | true =>
    have h := hs rfl
    clear hs hb
    interval_cases byte <;> rfl

/-- C13: on the spec's own witness, the buffers `01 02 03` and `01 FF 03` in
verbose mode, `_exam_assert_equal_mem` fires and reports the one differing
offset 1 and a total of 1, but where plain `char` is signed the byte `0xFF` is
not reported as the byte value `ff`: the `char` is negative, is promoted to
`int`, and `%02x` prints `ffffffff`.  Where plain `char` is unsigned the line
carries `02` and `ff`. -/
theorem exam_assert_equal_mem_sign_extends :
    _exam_assert_equal_mem true false [0x01, 0x02, 0x03] [0x01, 0xFF, 0x03] 3 "t.c".toList 7
      = some (Outcome.jump
          [MemLine.error_at_line "t.c".toList 7,
           MemLine.difference_at_offset 1 "02".toList "ffffffff".toList,
           MemLine.bytes_different 1]) ∧
    spec_mem_line MemLine.difference_at_offset 1 0x02 0xFF
      = MemLine.difference_at_offset 1 "02".toList "ff".toList ∧
    exam_mem_line true MemLine.difference_at_offset 1 0x02 0xFF
      ≠ spec_mem_line MemLine.difference_at_offset 1 0x02 0xFF ∧
    _exam_assert_equal_mem false false [0x01, 0x02, 0x03] [0x01, 0xFF, 0x03] 3 "t.c".toList 7
      = some (Outcome.jump
          [MemLine.error_at_line "t.c".toList 7,
           spec_mem_line MemLine.difference_at_offset 1 0x02 0xFF,
           MemLine.bytes_different 1]) := by
  refine ⟨by decide, by decide, by decide, by decide⟩

/-- C14: over buffers that hold at least `len` bytes, `_exam_assert_not_equal_mem`
fires the failure channel exactly if `a[i] = b[i]` for some `i < len` (so it
returns without printing when the buffers differ at every offset, and for
`len = 0`).  When it fires in verbose mode it has printed the call site, then
one line for each of the first 16 offsets with the same byte (all of them if
there are fewer), in increasing order, then a line of dots if there are 16 or
more, then the total number of same bytes.  In short mode it prints nothing.
The line of an offset carries the two `char` objects as `%02x` prints them, on
a platform whose plain `char` is signed or not. -/
theorem exam_assert_not_equal_mem_reports (char_signed shortd : Bool) (a b : List Nat)
    (len : Nat) (file : List Char) (line : Int) (ha : len ≤ a.length)
    (hb : len ≤ b.length) :
    _exam_assert_not_equal_mem char_signed shortd a b len file line
      = some
        (if spec_same_offsets a b len = [] then Outcome.done []
         else
          Outcome.jump
            (if shortd then []
             else spec_failure_report (exam_mem_line char_signed MemLine.same_at_offset)
              MemLine.bytes_same a b file line (spec_same_offsets a b len))) ∧
    ((∃ out, _exam_assert_not_equal_mem char_signed shortd a b len file line
        = some (Outcome.jump out)) ↔
      ∃ i, i < len ∧ a.getD i 0 = b.getD i 0) ∧
    (∀ i, i ∈ spec_same_offsets a b len ↔ i < len ∧ a.getD i 0 = b.getD i 0) ∧
    (spec_same_offsets a b len).Pairwise (fun x y => x < y) ∧
    ((spec_same_offsets a b len).take 16).length
      = min 16 (spec_same_offsets a b len).length := by
  have hmem : ∀ i, i ∈ spec_same_offsets a b len ↔ i < len ∧ a.getD i 0 = b.getD i 0 := by
    intro i
    simp [spec_same_offsets]
  have heq := exam_assert_mem_eq (fun l r => l == r)
    (exam_mem_line char_signed MemLine.same_at_offset)
    MemLine.bytes_same shortd a b file line len ha hb
  refine ⟨heq, ?_, hmem, mem_offsets_sorted _ len, List.length_take _ _⟩
  unfold _exam_assert_not_equal_mem
  rw [heq]
  constructor
  · rintro ⟨out, h⟩
    by_cases hnil : (List.range len).filter (fun k => a.getD k 0 == b.getD k 0) = []
    · rw [if_pos hnil] at h
      cases h
    · obtain ⟨i, hi⟩ := List.exists_mem_of_ne_nil _ hnil
      exact ⟨i, (hmem i).mp hi⟩
  · rintro ⟨i, hi⟩
    have hne : (List.range len).filter (fun k => a.getD k 0 == b.getD k 0) ≠ [] :=
      List.ne_nil_of_mem ((hmem i).mpr hi)
    rw [if_neg hne]
    exact ⟨_, rfl⟩

/-- C14 at the buffers `01 02 03` and `09 02 03` in verbose mode: the assertion
fires and reports the call site, the same offsets 1 and 2 and a total of 2; over
`01 02` and `02 01`, and for `len = 0`, it returns silently. -/
theorem exam_assert_not_equal_mem_reports_witness :
    (_exam_assert_not_equal_mem true false [0x01, 0x02, 0x03] [0x09, 0x02, 0x03] 3
        "t.c".toList 7
      = some
        (if spec_same_offsets [0x01, 0x02, 0x03] [0x09, 0x02, 0x03] 3 = [] then
          Outcome.done []
         else
          Outcome.jump
            (if false then []
             else spec_failure_report (exam_mem_line true MemLine.same_at_offset)
              MemLine.bytes_same
              [0x01, 0x02, 0x03] [0x09, 0x02, 0x03] "t.c".toList 7
              (spec_same_offsets [0x01, 0x02, 0x03] [0x09, 0x02, 0x03] 3)))) ∧
    _exam_assert_not_equal_mem true false [0x01, 0x02, 0x03] [0x09, 0x02, 0x03] 3
        "t.c".toList 7
      = some (Outcome.jump
          [MemLine.error_at_line "t.c".toList 7,
           MemLine.same_at_offset 1 "02".toList "02".toList,
           MemLine.same_at_offset 2 "03".toList "03".toList, MemLine.bytes_same 2]) ∧
    _exam_assert_not_equal_mem true false [0x01, 0x02] [0x02, 0x01] 2 "t.c".toList 7
      = some (Outcome.done []) ∧
    _exam_assert_not_equal_mem true false [0x01, 0x02] [0x01, 0x02] 0 "t.c".toList 7
      = some (Outcome.done []) :=
  ⟨(exam_assert_not_equal_mem_reports true false [0x01, 0x02, 0x03] [0x09, 0x02, 0x03] 3
      "t.c".toList 7 (by decide) (by decide)).1, by decide, by decide, by decide⟩

/-! ## Startup: the command line -/

/-- The options loop rejects an argument that none of its comparisons accepts:
it prints that the option is not found and leaves through `exit(1)`. -/
theorem exam_init_loop_unknown (argv0 arg : CString) (rest : List CString)
    (env : exam_init_env) (h : exam_init_unknown arg = true) :
    exam_init_loop argv0 (arg :: rest) env
      = InitResult.exited 1 (InitMessage.option_not_found arg) := by
  unfold exam_init_unknown at h
  simp only [Bool.not_eq_true', Bool.or_eq_false_iff] at h
  obtain ⟨⟨⟨⟨⟨⟨⟨⟨⟨⟨h1, h2⟩, h3⟩, h4⟩, h5⟩, h6⟩, h7⟩, h8⟩, h9⟩, h10⟩, h11⟩ := h
  unfold exam_init_loop
  simp only [h1, h2, h3, h4, h5, h6, h7, h8, h9, h10, h11, Bool.false_eq_true, if_false,
    Bool.or_self]

/-- The comparison with a flag over the length of the flag accepts every
argument that starts with the flag. -/
theorem strncmp_eq_of_prefix (s lit : List Char) (h : lit <+: s) :
    strncmp_eq s lit lit.length = true := by
  obtain ⟨t, rfl⟩ := h
  simp [strncmp_eq, List.take_append_of_le_length, List.take_left']

/-- What the options loop does with `--repeat value`: the value goes through
`atoi`; the result 0 is a startup error, every other result is stored. -/
theorem exam_init_loop_repeat (argv0 v : CString) (rest : List CString)
    (env : exam_init_env) :
    (atoi v.val = some 0 →
      exam_init_loop argv0 (cstr "--repeat" (by decide) :: v :: rest) env
        = InitResult.exited 1 InitMessage.repeat_not_valid) ∧
    (∀ n : Int, atoi v.val = some n → n ≠ 0 →
      exam_init_loop argv0 (cstr "--repeat" (by decide) :: v :: rest) env
        = exam_init_loop argv0 rest { env with repeat_ := n }) := by
  constructor
  · intro h
    rw [exam_init_loop.eq_def]
    simp only
    rw [if_neg (by decide), if_neg (by decide), if_neg (by decide), if_neg (by decide),
      if_pos (by decide), h]
    simp only
    rw [if_pos True.intro]
  · intro n h hn
    rw [exam_init_loop.eq_def]
    simp only
    rw [if_neg (by decide), if_neg (by decide), if_neg (by decide), if_neg (by decide),
      if_pos (by decide), h]
    simp only
    rw [if_neg hn]

/-- The repeat count is not 0 after the options loop if it was not 0 before. -/
theorem exam_init_loop_repeat_ne_zero (argv0 : CString) :
    ∀ (n : Nat) (args : List CString) (env env1 : exam_init_env), args.length ≤ n →
      env.repeat_ ≠ 0 → exam_init_loop argv0 args env = InitResult.returned env1 →
      env1.repeat_ ≠ 0 := by
  intro n
  induction n with
  | zero =>
    intro args env env1 hlen h0 h
    have : args = [] := List.length_eq_zero.mp (by omega)
    subst this
    simp only [exam_init_loop, InitResult.returned.injEq] at h
    rw [← h]
    exact h0
  | succ n ih =>
    intro args env env1 hlen h0 h
    cases args with
    | nil =>
      simp only [exam_init_loop, InitResult.returned.injEq] at h
      rw [← h]
      exact h0
    | cons arg rest =>
      have hr : rest.length ≤ n := by simpa using hlen
      have hr1 : ∀ (v : CString) (rest1 : List CString), rest = v :: rest1 →
          rest1.length ≤ n := by
        intro v rest1 hv
        rw [hv] at hr
        simp only [List.length_cons] at hr
        omega
      unfold exam_init_loop at h
      by_cases c1 : strncmp_eq arg.val "--list-tests".toList 12 = true
      · rw [if_pos c1] at h
        exact ih rest _ env1 hr (by exact h0) h
      rw [if_neg c1] at h
      by_cases c2 : strncmp_eq arg.val "--short".toList 7 = true
      · rw [if_pos c2] at h
        exact ih rest _ env1 hr (by exact h0) h
      rw [if_neg c2] at h
      by_cases c3 : strncmp_eq arg.val "--filter".toList 8 = true
      · rw [if_pos c3] at h
        cases rest with
        | nil => cases h
        | cons v rest1 => exact ih rest1 _ env1 (hr1 v rest1 rfl) (by exact h0) h
      rw [if_neg c3] at h
      by_cases c4 : strncmp_eq arg.val "--shuffle".toList 9 = true
      · rw [if_pos c4] at h
        exact ih rest _ env1 hr (by exact h0) h
      rw [if_neg c4] at h
      by_cases c5 : strncmp_eq arg.val "--repeat".toList 8 = true
      · rw [if_pos c5] at h
        cases rest with
        | nil => cases h
        | cons v rest1 =>
          dsimp only at h
          cases hv : atoi v.val with
          | none =>
            rw [hv] at h
            cases h
          | some k =>
            rw [hv] at h
            dsimp only at h
            by_cases hk : k = 0
            · rw [if_pos hk] at h
              cases h
            · rw [if_neg hk] at h
              exact ih rest1 _ env1 (hr1 v rest1 rfl) (by exact hk) h
      rw [if_neg c5] at h
      by_cases c6 : strncmp_eq arg.val "--die-on-fail".toList 13 = true
      · rw [if_pos c6] at h
        exact ih rest _ env1 hr (by exact h0) h
      rw [if_neg c6] at h
      by_cases c7 : strncmp_eq arg.val "--color".toList 7 = true
      · rw [if_pos c7] at h
        cases rest with
        | nil => cases h
        | cons v rest1 =>
          dsimp only at h
          by_cases d1 : strncmp_eq v.val "on".toList 2 = true
          · rw [if_pos d1] at h
            exact ih rest1 _ env1 (hr1 v rest1 rfl) (by exact h0) h
          rw [if_neg d1] at h
          by_cases d2 : strncmp_eq v.val "off".toList 3 = true
          · rw [if_pos d2] at h
            exact ih rest1 _ env1 (hr1 v rest1 rfl) (by exact h0) h
          rw [if_neg d2] at h
          cases h
      rw [if_neg c7] at h
      by_cases c8 : (strncmp_eq arg.val "--help".toList 6
          || strncmp_eq arg.val "-h".toList 2) = true
      · rw [if_pos c8] at h
        cases h
      rw [if_neg c8] at h
      by_cases c9 : (strncmp_eq arg.val "--version".toList 8
          || strncmp_eq arg.val "-v".toList 2) = true
      · rw [if_pos c9] at h
        cases h
      rw [if_neg c9] at h
      cases h

/-- After a successful `exam_init` the repeat count is not 0. -/
theorem exam_init_repeat_ne_zero (argv : List CString) (env : exam_init_env)
    (h : exam_init argv = InitResult.returned env) : env.repeat_ ≠ 0 := by
  unfold exam_init at h
  cases argv with
  | nil =>
    simp only [InitResult.returned.injEq] at h
    rw [← h]
    decide
  | cons argv0 args =>
    exact exam_init_loop_repeat_ne_zero argv0 args.length args _ env (Nat.le_refl _)
      (by decide) h

/-- C15 fails at the command lines `prog --shortest` and `prog --shuffled`:
neither argument is a recognised flag, yet `exam_init` reports no startup error
and returns, with short output set in the first case and shuffling in the
second.  The comparison of line 180 looks at the 7 first characters only, that
of line 190 at the 9 first. -/
theorem exam_init_accepts_longer_flag :
    "--shortest".toList ∉ spec_recognised_flags ∧
    "--shuffled".toList ∉ spec_recognised_flags ∧
    exam_init [cstr "prog" (by decide), cstr "--shortest" (by decide)]
      = InitResult.returned { exam_init_default with shortd := true } ∧
    exam_init [cstr "prog" (by decide), cstr "--shuffled" (by decide)]
      = InitResult.returned { exam_init_default with shuffle := true } ∧
    strncmp_eq "--shortest".toList "--short".toList 7 = true ∧
    strncmp_eq "--shuffled".toList "--shuffle".toList 9 = true := by
  decide

/-- C16 fails at the command line `prog --repeat -3`: `atoi` gives -3, which is
not 0, so `exam_init` reports no startup error and returns with the repeat count
-3; likewise `--repeat 3x` is taken as 3.  The value 0 and text without leading
digits are rejected with `exit(1)`. -/
theorem exam_init_repeat_negative :
    atoi "-3".toList = some (-3) ∧
    exam_init [cstr "prog" (by decide), cstr "--repeat" (by decide), cstr "-3" (by decide)]
      = InitResult.returned { exam_init_default with repeat_ := -3 } ∧
    exam_init [cstr "prog" (by decide), cstr "--repeat" (by decide), cstr "3x" (by decide)]
      = InitResult.returned { exam_init_default with repeat_ := 3 } ∧
    exam_init [cstr "prog" (by decide), cstr "--repeat" (by decide), cstr "0" (by decide)]
      = InitResult.exited 1 InitMessage.repeat_not_valid ∧
    exam_init [cstr "prog" (by decide), cstr "--repeat" (by decide), cstr "abc" (by decide)]
      = InitResult.exited 1 InitMessage.repeat_not_valid ∧
    exam_init [cstr "prog" (by decide), cstr "--repeat" (by decide), cstr "5" (by decide)]
      = InitResult.returned { exam_init_default with repeat_ := 5 } := by
  decide

/-! ## The reports of a scope -/

theorem Event.is_call_not_report (e : Event) (h : e.is_call = true) :
    e.is_ok = false ∧ e.is_failed = false ∧ e.is_pending = false ∧ e.is_header = false ∧
      e.is_summary = false ∧ e.banner_count = 0 := by
  cases e <;> simp_all [Event.is_call, Event.is_ok, Event.is_failed, Event.is_pending,
    Event.is_header, Event.is_summary, Event.banner_count]

theorem countP_calls (p : Event → Bool) (calls : List Event)
    (hc : ∀ x ∈ calls, x.is_call = true) (hp : ∀ x : Event, x.is_call = true → p x = false) :
    calls.countP p = 0 := by
  rw [List.countP_eq_zero]
  intro x hx
  rw [hp x (hc x hx)]
  decide

theorem Locals.Called.called_refl {σ : Type} (s : Locals σ) : Locals.Called s s :=
  ⟨[], by simp, fun x hx => absurd hx (List.not_mem_nil x), rfl, rfl, rfl, rfl⟩

theorem Locals.Called.called_trans {σ : Type} {s s1 s2 : Locals σ} (h1 : Locals.Called s s1)
    (h2 : Locals.Called s1 s2) : Locals.Called s s2 := by
  obtain ⟨c1, ht1, hc1, ha1, hb1, hd1, he1⟩ := h1
  obtain ⟨c2, ht2, hc2, ha2, hb2, hd2, he2⟩ := h2
  refine ⟨c1 ++ c2, by rw [ht2, ht1, List.append_assoc], ?_, ha2.trans ha1, hb2.trans hb1,
    hd2.trans hd1, he2.trans he1⟩
  intro x hx
  rcases List.mem_append.mp hx with h | h
  · exact hc1 x h
  · exact hc2 x h

theorem exam_call_called {σ : Type} (code : Nat → σ → Outcome σ) (fn : Nat) (e : Event)
    (s : Locals σ) (he : e.is_call = true) :
    Locals.Called s (exam_call code fn e s).state := by
  unfold exam_call
  cases code fn s.user <;>
    exact ⟨[e], rfl, fun x hx => by rw [List.mem_singleton.mp hx]; exact he, rfl, rfl, rfl, rfl⟩

theorem exam_run_once_called {σ : Type} (code : Nat → σ → Outcome σ) (sc : exam_scope_t)
    (t : exam_test_t) (ii idx : Nat) (s : Locals σ) :
    Locals.Called s (exam_run_once code sc t ii idx s).state := by
  unfold exam_run_once
  have h1 : Locals.Called s (if sc.before ≠ NULL then
        exam_call code sc.before (Event.call_before ii idx sc.before) s
       else Outcome.done s).state := by
    split
    · exact exam_call_called code _ _ s rfl
    · exact Locals.Called.called_refl s
  revert h1
  generalize (if sc.before ≠ NULL then
        exam_call code sc.before (Event.call_before ii idx sc.before) s
       else Outcome.done s) = r1
  intro h1
  cases r1 with
  | jump s1 => exact h1
  | done s1 =>
    simp only
    have h2 := exam_call_called code t.fn (Event.call_fn ii idx t.fn) s1 rfl
    revert h2
    generalize exam_call code t.fn (Event.call_fn ii idx t.fn) s1 = r2
    intro h2
    simp only [Outcome.state] at h1
    cases r2 with
    | jump s2 => exact h1.called_trans h2
    | done s2 =>
      simp only
      simp only [Outcome.state] at h2
      split
      · exact (h1.called_trans h2).called_trans
          (exam_call_called code sc.after (Event.call_after ii idx sc.after) s2 rfl)
      · exact h1.called_trans h2

theorem exam_run_repeat_called {σ : Type} (code : Nat → σ → Outcome σ) (sc : exam_scope_t)
    (t : exam_test_t) (ii idx : Nat) :
    ∀ (k : Nat) (s : Locals σ),
      Locals.Called s (exam_run_repeat code sc t ii idx k s).state := by
  intro k
  induction k with
  | zero => intro s; exact Locals.Called.called_refl s
  | succ k ih =>
    intro s
    unfold exam_run_repeat
    have h1 := exam_run_once_called code sc t ii idx s
    revert h1
    generalize exam_run_once code sc t ii idx s = r
    intro h1
    cases r with
    | jump s1 => exact h1
    | done s1 =>
      simp only [Outcome.state] at h1
      exact h1.called_trans (ih s1)

theorem any_eq_false_of_filter_nil {α : Type} (p : α → Bool) (l : List α)
    (h : l.filter p = []) : l.any p = false := by
  rw [List.filter_eq_nil_iff] at h
  rw [List.any_eq_false]
  exact h

theorem any_eq_true_of_filter_cons {α : Type} (p : α → Bool) (l : List α) (a : α)
    (l1 : List α) (h : l.filter p = a :: l1) : l.any p = true := by
  have hm : a ∈ l.filter p := by rw [h]; exact List.mem_cons_self a l1
  rw [List.any_eq_true]
  exact ⟨a, (List.mem_filter.mp hm).1, (List.mem_filter.mp hm).2⟩

theorem banner_sum_of_no_header (l : List Event) (h : l.countP Event.is_header = 0) :
    trace_banner_sum l = 0 := by
  rw [List.countP_eq_zero] at h
  unfold trace_banner_sum
  apply List.sum_eq_zero
  intro n hn
  obtain ⟨e, he, rfl⟩ := List.mem_map.mp hn
  have := h e he
  cases e <;> simp_all [Event.is_header, Event.banner_count]

theorem trace_banner_sum_append (a b : List Event) :
    trace_banner_sum (a ++ b) = trace_banner_sum a + trace_banner_sum b := by
  simp [trace_banner_sum]

theorem Locals.Ran.ran_refl {σ : Type} (env : exam_env_t) (sc : exam_scope_t) (s : Locals σ) :
    Locals.Ran env sc [] s s :=
  ⟨[], by simp, by simp, rfl, by simp, by simp, by simp, by simp, by simp,
    fun _ => by simp, fun _ => rfl, fun _ t0 l h => by simp at h⟩

/-- A test that the filter rejects leaves no trace. -/
theorem Locals.Ran.ran_skip {σ : Type} (env : exam_env_t) (sc : exam_scope_t) (t : exam_test_t)
    (s : Locals σ) (hsel : env.selects t = false) : Locals.Ran env sc [t] s s :=
  ⟨[], by simp, by simp [hsel], rfl, by simp, by simp, by simp [List.filter, hsel],
    by simp [List.filter, hsel], by simp, fun _ => by simp, fun _ => rfl,
    fun _ t0 l h => by simp [List.filter, hsel] at h⟩

/-- The reports of one selected test, after the scope header if that is still
to be printed. -/
theorem Locals.Ran.ran_single {σ : Type} (env : exam_env_t) (sc : exam_scope_t)
    (t : exam_test_t) (s s1 : Locals σ) (e : Event) (rest : List Event)
    (hsel : env.selects t = true)
    (htr : s1.trace = s.trace ++ exam_header_events sc s ++ e :: rest)
    (hps : s1.printed_scope = true) (hcount : s1.count = s.count)
    (hpassed : s1.passed = s.passed + (e :: rest).countP Event.is_ok)
    (hscope : s1.scope_passed = s.scope_passed + (e :: rest).countP Event.is_ok)
    (hpend : (e :: rest).countP Event.is_pending = if t.pending then 1 else 0)
    (hrun : (e :: rest).countP Event.is_ok + (e :: rest).countP Event.is_failed
      = if t.pending then 0 else 1)
    (hsum : (e :: rest).countP Event.is_summary = 0)
    (hhead : (e :: rest).countP Event.is_header = 0)
    (he : e.processed = some (exam_concat_scope_name t)) :
    Locals.Ran env sc [t] s s1 := by
  have hf1 : ([t].filter (fun t => env.selects t && t.pending)).length
      = if t.pending then 1 else 0 := by
    cases hp : t.pending <;> simp [List.filter, hsel, hp]
  have hf2 : ([t].filter (fun t => env.selects t && !t.pending)).length
      = if t.pending then 0 else 1 := by
    cases hp : t.pending <;> simp [List.filter, hsel, hp]
  have hf3 : [t].filter env.selects = [t] := by simp [List.filter, hsel]
  cases hprinted : s.printed_scope with
  | true =>
    have hh : exam_header_events sc s = [] := by simp [exam_header_events, hprinted]
    rw [hh, List.append_nil] at htr
    refine ⟨e :: rest, htr, by simp [hps, hsel], hcount, hpassed, hscope,
      hpend.trans hf1.symm, hrun.trans hf2.symm, hsum, fun _ => hhead, fun h => ?_,
      fun h => absurd (hprinted.symm.trans h) (by decide)⟩
    rw [hf3] at h
    cases h
  | false =>
    have hh : exam_header_events sc s = [Event.exam_print_running_test sc.len sc.name] := by
      simp [exam_header_events, hprinted]
    rw [hh, List.append_assoc] at htr
    have hc : ∀ p : Event → Bool, p (Event.exam_print_running_test sc.len sc.name) = false →
        ([Event.exam_print_running_test sc.len sc.name] ++ e :: rest).countP p
          = (e :: rest).countP p := by
      intro p hp
      rw [List.countP_append]
      simp [List.countP_cons, hp]
    refine ⟨[Event.exam_print_running_test sc.len sc.name] ++ e :: rest, htr,
      by simp [hps, hsel], hcount, ?_, ?_, ?_, ?_, ?_,
      fun h => absurd (hprinted.symm.trans h) (by decide), fun h => ?_, fun _ t0 l h => ?_⟩
    · rw [hc _ rfl]; exact hpassed
    · rw [hc _ rfl]; exact hscope
    · rw [hc _ rfl]; exact hpend.trans hf1.symm
    · rw [hc _ rfl, hc _ rfl]; exact hrun.trans hf2.symm
    · rw [hc _ rfl]; exact hsum
    · rw [hf3] at h
      cases h
    · rw [hf3] at h
      cases h
      exact ⟨e, rest, rfl, he, hhead⟩

theorem Locals.Ran.ran_trans {σ : Type} {env : exam_env_t} {sc : exam_scope_t}
    {vis1 vis2 : List exam_test_t} {s s1 s2 : Locals σ}
    (h1 : Locals.Ran env sc vis1 s s1) (h2 : Locals.Ran env sc vis2 s1 s2) :
    Locals.Ran env sc (vis1 ++ vis2) s s2 := by
  obtain ⟨evs1, ht1, hp1, hc1, ha1, hb1, hd1, he1, hf1, hg1, hi1, hj1⟩ := h1
  obtain ⟨evs2, ht2, hp2, hc2, ha2, hb2, hd2, he2, hf2, hg2, hi2, hj2⟩ := h2
  refine ⟨evs1 ++ evs2, by rw [ht2, ht1, List.append_assoc], ?_, hc2.trans hc1, ?_, ?_, ?_, ?_,
    ?_, ?_, ?_, ?_⟩
  · rw [hp2, hp1, List.any_append, Bool.or_assoc]
  · rw [ha2, ha1, List.countP_append, Nat.add_assoc]
  · rw [hb2, hb1, List.countP_append, Nat.add_assoc]
  · rw [List.countP_append, List.filter_append, List.length_append, hd1, hd2]
  · rw [List.countP_append, List.countP_append, List.filter_append, List.length_append,
      ← he1, ← he2]
    omega
  · rw [List.countP_append, hf1, hf2]
  · intro h
    rw [List.countP_append, hg1 h, hg2 (by rw [hp1, h]; rfl)]
  · intro h
    rw [List.filter_append, List.append_eq_nil] at h
    rw [hi1 h.1, hi2 h.2]
    rfl
  · intro h t0 l hl
    rw [List.filter_append] at hl
    cases hv : vis1.filter env.selects with
    | nil =>
      rw [hv, List.nil_append] at hl
      have hs1 : s1.printed_scope = false := by
        rw [hp1, h, any_eq_false_of_filter_nil _ _ hv]
        rfl
      obtain ⟨e, rest, h3, h4, h5⟩ := hj2 hs1 t0 l hl
      exact ⟨e, rest, by rw [hi1 hv, h3]; rfl, h4, h5⟩
    | cons a l1 =>
      rw [hv, List.cons_append] at hl
      have ha : a = t0 := by injection hl
      obtain ⟨e, rest, h3, h4, h5⟩ := hj1 h a l1 hv
      have hs1 : s1.printed_scope = true := by
        rw [hp1, any_eq_true_of_filter_cons _ _ a l1 hv]
        simp
      refine ⟨e, rest ++ evs2, by rw [h3]; rfl, by rw [← ha]; exact h4, ?_⟩
      rw [← List.cons_append, List.countP_append, h5, hg2 hs1]

theorem countP_run_calls (p : Event → Bool) (buf : List Char) (calls : List Event)
    (fin : Event) (hc : ∀ x ∈ calls, x.is_call = true)
    (hp : ∀ x : Event, x.is_call = true → p x = false)
    (hrun : p (Event.exam_print_run buf) = false) :
    (Event.exam_print_run buf :: (calls ++ [fin])).countP p = if p fin then 1 else 0 := by
  rw [List.countP_cons, List.countP_append, countP_calls p calls hc hp, hrun]
  simp [List.countP_cons]

/-- What the test loop does with a selected test, in terms of the reports: the
scope header if it is still to be printed, then the pending report, or the run
report, the calls and the passed or failed report.  It goes on, or leaves
through `exit(1)`. -/
theorem exam_run_selected_ran {σ : Type} (env : exam_env_t) (code : Nat → σ → Outcome σ)
    (sc : exam_scope_t) (ii idx : Nat) (t : exam_test_t) (s : Locals σ)
    (hsel : env.selects t = true) :
    Locals.Ran env sc [t] s
        (exam_run_selected env code sc ii idx t (exam_concat_scope_name t) s).state ∧
      ((∃ s1, exam_run_selected env code sc ii idx t (exam_concat_scope_name t) s
          = Flow.next s1) ∨
       (∃ s1, exam_run_selected env code sc ii idx t (exam_concat_scope_name t) s
          = Flow.exit 1 s1)) := by
  unfold exam_run_selected
  have h1 : (if (!s.printed_scope) = true then
          { s.emit (Event.exam_print_running_test sc.len sc.name) with printed_scope := true }
         else s).trace = s.trace ++ exam_header_events sc s ∧
      (if (!s.printed_scope) = true then
          { s.emit (Event.exam_print_running_test sc.len sc.name) with printed_scope := true }
         else s).printed_scope = true ∧
      (if (!s.printed_scope) = true then
          { s.emit (Event.exam_print_running_test sc.len sc.name) with printed_scope := true }
         else s).count = s.count ∧
      (if (!s.printed_scope) = true then
          { s.emit (Event.exam_print_running_test sc.len sc.name) with printed_scope := true }
         else s).passed = s.passed ∧
      (if (!s.printed_scope) = true then
          { s.emit (Event.exam_print_running_test sc.len sc.name) with printed_scope := true }
         else s).scope_passed = s.scope_passed := by
    cases hp : s.printed_scope <;> simp [exam_header_events, Locals.emit, hp]
  revert h1
  generalize (if (!s.printed_scope) = true then
          { s.emit (Event.exam_print_running_test sc.len sc.name) with printed_scope := true }
         else s) = s0
  rintro ⟨htr, hps, hcount, hpassed, hscope⟩
  cases hp : t.pending with
  | true =>
    simp only [if_true]
    refine ⟨?_, Or.inl ⟨_, rfl⟩⟩
    refine Locals.Ran.ran_single env sc t s _ (Event.exam_print_pending (exam_concat_scope_name t))
      [] hsel ?_ hps hcount ?_ ?_ ?_ ?_ ?_ ?_ rfl
    · simp [Flow.state, Locals.emit, htr]
    · simp [Flow.state, Locals.emit, hpassed, List.countP_cons, Event.is_ok]
    · simp [Flow.state, Locals.emit, hscope, List.countP_cons, Event.is_ok]
    · simp [hp, List.countP_cons, Event.is_pending]
    · simp [hp, List.countP_cons, Event.is_ok, Event.is_failed]
    · simp [List.countP_cons, Event.is_summary]
    · simp [List.countP_cons, Event.is_header]
  | false =>
    simp only [Bool.false_eq_true, if_false]
    obtain ⟨calls, hc1, hc2, hc3, hc4, hc5, hc6⟩ := exam_run_repeat_called code sc t ii idx
      env.repeat_ (s0.emit (Event.exam_print_run (exam_concat_scope_name t)))
    revert hc1 hc3 hc4 hc5 hc6
    generalize exam_run_repeat code sc t ii idx env.repeat_
      (s0.emit (Event.exam_print_run (exam_concat_scope_name t))) = r
    intro hc1 hc3 hc4 hc5 hc6
    have hcount_ok := countP_run_calls Event.is_ok (exam_concat_scope_name t) calls
    have hcount_failed := countP_run_calls Event.is_failed (exam_concat_scope_name t) calls
    have hcount_pending := countP_run_calls Event.is_pending (exam_concat_scope_name t) calls
    have hcount_summary := countP_run_calls Event.is_summary (exam_concat_scope_name t) calls
    have hcount_header := countP_run_calls Event.is_header (exam_concat_scope_name t) calls
    cases r with
    | done s2 =>
      simp only [Outcome.state, Locals.emit] at hc1 hc3 hc4 hc5 hc6
      simp only
      refine ⟨?_, Or.inl ⟨_, rfl⟩⟩
      refine Locals.Ran.ran_single env sc t s _ (Event.exam_print_run (exam_concat_scope_name t))
        (calls ++ [Event.exam_print_ok (exam_concat_scope_name t)]) hsel ?_
        (by simpa [Flow.state, Locals.emit] using hc6.trans hps)
        (by simpa [Flow.state, Locals.emit] using hc5.trans hcount) ?_ ?_ ?_ ?_ ?_ ?_ rfl
      · simp [Flow.state, Locals.emit, hc1, htr]
      · rw [hcount_ok _ hc2 (fun x hx => (Event.is_call_not_report x hx).1) rfl]
        simp [Flow.state, Locals.emit, hc3, hpassed, Event.is_ok]
      · rw [hcount_ok _ hc2 (fun x hx => (Event.is_call_not_report x hx).1) rfl]
        simp [Flow.state, Locals.emit, hc4, hscope, Event.is_ok]
      · rw [hcount_pending _ hc2 (fun x hx => (Event.is_call_not_report x hx).2.2.1) rfl]
        simp [hp, Event.is_pending]
      · rw [hcount_ok _ hc2 (fun x hx => (Event.is_call_not_report x hx).1) rfl,
          hcount_failed _ hc2 (fun x hx => (Event.is_call_not_report x hx).2.1) rfl]
        simp [hp, Event.is_ok, Event.is_failed]
      · rw [hcount_summary _ hc2 (fun x hx => (Event.is_call_not_report x hx).2.2.2.2.1) rfl]
        simp [Event.is_summary]
      · rw [hcount_header _ hc2 (fun x hx => (Event.is_call_not_report x hx).2.2.2.1) rfl]
        simp [Event.is_header]
    | jump s2 =>
      simp only [Outcome.state, Locals.emit] at hc1 hc3 hc4 hc5 hc6
      simp only
      have hran : Locals.Ran env sc [t] s
          ({ s2.emit (Event.exam_print_failed (exam_concat_scope_name t)) with
            retValue := 1 } : Locals σ) := by
        refine Locals.Ran.ran_single env sc t s _
          (Event.exam_print_run (exam_concat_scope_name t))
          (calls ++ [Event.exam_print_failed (exam_concat_scope_name t)]) hsel ?_
          (by simpa [Locals.emit] using hc6.trans hps)
          (by simpa [Locals.emit] using hc5.trans hcount) ?_ ?_ ?_ ?_ ?_ ?_ rfl
        · simp [Locals.emit, hc1, htr]
        · rw [hcount_ok _ hc2 (fun x hx => (Event.is_call_not_report x hx).1) rfl]
          simp [Locals.emit, hc3, hpassed, Event.is_ok]
        · rw [hcount_ok _ hc2 (fun x hx => (Event.is_call_not_report x hx).1) rfl]
          simp [Locals.emit, hc4, hscope, Event.is_ok]
        · rw [hcount_pending _ hc2 (fun x hx => (Event.is_call_not_report x hx).2.2.1) rfl]
          simp [hp, Event.is_pending]
        · rw [hcount_ok _ hc2 (fun x hx => (Event.is_call_not_report x hx).1) rfl,
            hcount_failed _ hc2 (fun x hx => (Event.is_call_not_report x hx).2.1) rfl]
          simp [hp, Event.is_ok, Event.is_failed]
        · rw [hcount_summary _ hc2 (fun x hx => (Event.is_call_not_report x hx).2.2.2.2.1)
            rfl]
          simp [Event.is_summary]
        · rw [hcount_header _ hc2 (fun x hx => (Event.is_call_not_report x hx).2.2.2.1) rfl]
          simp [Event.is_header]
      cases env.die_on_fail with
      | true => exact ⟨hran, Or.inr ⟨_, rfl⟩⟩
      | false => exact ⟨hran, Or.inl ⟨_, rfl⟩⟩

theorem exam_run_test_ran {σ : Type} (env : exam_env_t) (code : Nat → σ → Outcome σ)
    (sc : exam_scope_t) (ii : Nat) (ti : Option (Block Nat)) (j : Nat) (s : Locals σ)
    (idx : Nat) (t : exam_test_t) (hc : exam_current_test env sc ti j = some (idx, t)) :
    Flow.Ran env sc [t] s (exam_run_test env code sc ii ti j s) := by
  have hsel : ∀ hs : env.selects t = true,
      Flow.Ran env sc [t] s
        (exam_run_selected env code sc ii idx t (exam_concat_scope_name t) s) := by
    intro hs
    obtain ⟨h1, h2⟩ := exam_run_selected_ran env code sc ii idx t s hs
    rcases h2 with ⟨s1, h3⟩ | ⟨s1, h3⟩
    · rw [h3] at h1 ⊢
      exact h1
    · rw [h3] at h1 ⊢
      exact ⟨rfl, [], t, [], rfl, hs, h1⟩
  unfold exam_run_test
  rw [hc]
  simp only
  cases hf : env.filter with
  | none =>
    simp only
    exact hsel (by simp [exam_env_t.selects, hf])
  | some f =>
    simp only [exam_filter_test_eq, Option.map_some']
    cases hp : f.val.isPrefixOf (exam_concat_scope_name t) with
    | false =>
      simp only [Bool.not_false]
      exact Locals.Ran.ran_skip env sc t s (by simp [exam_env_t.selects, hf, hp])
    | true =>
      simp only [Bool.not_true]
      exact hsel (by simp [exam_env_t.selects, hf, hp])

theorem Flow.Ran.flow_trans {σ : Type} {env : exam_env_t} {sc : exam_scope_t}
    {vis1 vis2 : List exam_test_t} {s s1 : Locals σ} {r : Flow (Locals σ)}
    (h1 : Locals.Ran env sc vis1 s s1) (h2 : Flow.Ran env sc vis2 s1 r) :
    Flow.Ran env sc (vis1 ++ vis2) s r := by
  cases r with
  | undefined s2 => exact True.intro
  | next s2 => exact Locals.Ran.ran_trans h1 h2
  | exit c s2 =>
    obtain ⟨hc, pre, t, post, hv, hs, hr⟩ := h2
    refine ⟨hc, vis1 ++ pre, t, post, by rw [hv, List.append_assoc], hs, ?_⟩
    rw [List.append_assoc]
    exact Locals.Ran.ran_trans h1 hr

theorem exam_run_order_succ (env : exam_env_t) (sc : exam_scope_t)
    (ti : Option (Block Nat)) (j n idx : Nat) (t : exam_test_t)
    (hc : exam_current_test env sc ti j = some (idx, t)) :
    exam_run_order env sc ti j (n + 1) = [t] ++ exam_run_order env sc ti (j + 1) n := by
  unfold exam_run_order
  have hr : List.range' j (n + 1) = j :: List.range' (j + 1) n := rfl
  rw [hr, List.filterMap_cons, hc]
  rfl

/-- The test loop of a scope, in terms of the reports: it goes through the
tests in run order. -/
theorem exam_run_tests_ran {σ : Type} (env : exam_env_t) (code : Nat → σ → Outcome σ)
    (sc : exam_scope_t) (ii : Nat) (ti : Option (Block Nat)) :
    ∀ (n j : Nat) (s : Locals σ),
      Flow.Ran env sc (exam_run_order env sc ti j n) s
        (exam_run_tests env code sc ii ti n j s) := by
  intro n
  induction n with
  | zero =>
    intro j s
    exact Locals.Ran.ran_refl env sc s
  | succ n ih =>
    intro j s
    unfold exam_run_tests
    cases hc : exam_current_test env sc ti j with
    | none =>
      have : exam_run_test env code sc ii ti j s = Flow.undefined s := by
        unfold exam_run_test
        rw [hc]
      rw [this]
      exact True.intro
    | some p =>
      obtain ⟨idx, t⟩ := p
      rw [exam_run_order_succ env sc ti j n idx t hc]
      have h1 := exam_run_test_ran env code sc ii ti j s idx t hc
      revert h1
      generalize exam_run_test env code sc ii ti j s = r
      intro h1
      cases r with
      | undefined s1 => exact True.intro
      | next s1 => exact Flow.Ran.flow_trans h1 (ih (j + 1) s1)
      | exit c s1 =>
        obtain ⟨hc1, pre, t1, post, hv, hs, hr⟩ := h1
        exact ⟨hc1, pre, t1, post ++ exam_run_order env sc ti (j + 1) n,
          by rw [hv]; simp, hs, hr⟩

/-- Without shuffling the run order of a well-formed scope is the order of
insertion. -/
theorem exam_run_order_off (env : exam_env_t) (sc : exam_scope_t) (ti : Option (Block Nat))
    (hsh : env.shuffle = false) (hwf : sc.wf) :
    exam_run_order env sc ti 0 sc.len = sc.test_list := by
  have hlen : sc.test_list.length = sc.len := hwf
  have key : ∀ (n j : Nat), j + n = sc.len →
      exam_run_order env sc ti j n = sc.test_list.drop j := by
    intro n
    induction n with
    | zero =>
      intro j hj
      rw [List.drop_of_length_le (by omega)]
      rfl
    | succ n ih =>
      intro j hj
      obtain ⟨hj1, h⟩ := exam_current_test_eq env sc ti j hsh hwf (by omega)
      rw [exam_run_order_succ env sc ti j n j _ h, ih (j + 1) (by omega),
        List.drop_eq_getElem_cons hj1]
      rfl
  have := key sc.len 0 (by omega)
  rw [this, List.drop_zero]

theorem filterMap_range_get (α β : Type) (l : List α) (f : α → Option β) :
    ∀ (n j : Nat),
      (List.range' j n).filterMap (fun k => (l.get? k).bind f)
        = ((l.drop j).take n).filterMap f := by
  intro n
  induction n with
  | zero => intro j; simp
  | succ n ih =>
    intro j
    have hr : List.range' j (n + 1) = j :: List.range' (j + 1) n := rfl
    rw [hr, List.filterMap_cons, ih (j + 1)]
    by_cases hj : j < l.length
    · rw [List.get?_eq_get hj, List.drop_eq_getElem_cons hj, List.take_succ_cons,
        List.filterMap_cons]
      rfl
    · rw [List.get?_eq_none.mpr (by omega), List.drop_of_length_le (by omega),
        List.drop_of_length_le (by omega)]
      simp

/-- With shuffling on, the run order of a well-formed scope under an index
array that holds a permutation of its indices is a permutation of its tests. -/
theorem exam_run_order_perm (env : exam_env_t) (sc : exam_scope_t) (l : List Nat)
    (rest : Block Nat) (hsh : env.shuffle = true) (hwf : sc.wf)
    (hl : l.Perm (List.range sc.len)) :
    (exam_run_order env sc (some (l.map some ++ rest)) 0 sc.len).Perm sc.test_list := by
  have hlen : sc.test_list.length = sc.len := hwf
  have hll : l.length = sc.len := by simpa using hl.length_eq
  have h1 : exam_run_order env sc (some (l.map some ++ rest)) 0 sc.len
      = l.filterMap sc.test_at := by
    unfold exam_run_order
    have hc : ∀ k ∈ List.range' 0 sc.len,
        (exam_current_test env sc (some (l.map some ++ rest)) k).map Prod.snd
          = (l.get? k).bind sc.test_at := by
      intro k hk
      have hk1 : k < l.length := by
        have := (List.mem_range'_1.mp hk).2
        omega
      unfold exam_current_test
      simp only [hsh, if_true, Option.some_bind, Block.read_map_some l rest k hk1,
        List.get?_eq_get hk1]
      cases sc.test_at l[k] <;> rfl
    rw [List.filterMap_congr hc, filterMap_range_get, List.drop_zero,
      List.take_of_length_le (by omega)]
  have h2 : (List.range sc.len).filterMap sc.test_at = sc.test_list := by
    have hc : ∀ k ∈ List.range' 0 sc.len,
        sc.test_at k = (sc.test_list.get? k).bind some := by
      intro k hk
      have hk1 : k < sc.len := by
        have := (List.mem_range'_1.mp hk).2
        omega
      obtain ⟨hk2, h⟩ := hwf.test_at_wf k hk1
      rw [h, List.get?_eq_get hk2]
      rfl
    rw [List.range_eq_range', List.filterMap_congr hc, filterMap_range_get, List.drop_zero,
      List.take_of_length_le (by omega)]
    simp
  rw [h1, ← h2]
  exact hl.filterMap _

/-- The body of the scope loop, in terms of the reports of the test loop: if it
goes on, the test loop has gone through the tests of the scope in run order and
the passed summary with the separator line follows exactly if the header was
printed; if it leaves through `exit`, the code is 1 and the test loop was left
right after a selected test. -/
theorem exam_run_scope_ran {σ : Type} (env : exam_env_t) (RAND_MAX : Nat)
    (rand : Nat → Nat) (code : Nat → σ → Outcome σ) (si : Option (Block Nat)) (i : Nat)
    (s : Locals σ) (ii : Nat) (sc : exam_scope_t)
    (hii : (if env.shuffle then si.bind (fun a => Block.read a i) else some i) = some ii)
    (hsc : env.scope_at ii = some sc) :
    (∀ s1, exam_run_scope env RAND_MAX rand code si i s = Flow.next s1 →
      ∃ (ti : Option (Block Nat)) (calls : Nat) (s2 : Locals σ),
        exam_create_shuffle env RAND_MAX rand sc.len s.rand_calls = some (ti, calls) ∧
        Locals.Ran env sc (exam_run_order env sc ti 0 sc.len)
          { s with printed_scope := false, scope_passed := 0, rand_calls := calls } s2 ∧
        ((s2.printed_scope = false ∧ s1 = s2) ∨
         (s2.printed_scope = true ∧ ∃ sci, env.scope_at i = some sci ∧
            s1 = (s2.emit (Event.exam_print_passed_scope s2.scope_passed sci.name)).emit
              Event.printf_newline))) ∧
    (∀ c s1, exam_run_scope env RAND_MAX rand code si i s = Flow.exit c s1 →
      c = 1 ∧
      ∃ (ti : Option (Block Nat)) (calls : Nat) (pre : List exam_test_t) (t : exam_test_t)
        (post : List exam_test_t),
        exam_create_shuffle env RAND_MAX rand sc.len s.rand_calls = some (ti, calls) ∧
        exam_run_order env sc ti 0 sc.len = pre ++ t :: post ∧ env.selects t = true ∧
        Locals.Ran env sc (pre ++ [t])
          { s with printed_scope := false, scope_passed := 0, rand_calls := calls } s1) := by
  unfold exam_run_scope
  simp only [hii, hsc]
  cases hcs : exam_create_shuffle env RAND_MAX rand sc.len s.rand_calls with
  | none =>
    simp only
    exact ⟨fun s1 h => (by cases h), fun c s1 h => (by cases h)⟩
  | some p =>
    obtain ⟨ti, calls⟩ := p
    simp only
    have h1 := exam_run_tests_ran env code sc ii ti sc.len 0
      { s with printed_scope := false, scope_passed := 0, rand_calls := calls }
    revert h1
    generalize exam_run_tests env code sc ii ti sc.len 0
      { s with printed_scope := false, scope_passed := 0, rand_calls := calls } = r
    intro h1
    cases r with
    | undefined s2 =>
      exact ⟨fun s1 h => (by cases h), fun c s1 h => (by cases h)⟩
    | exit c s2 =>
      simp only
      refine ⟨fun s1 h => (by cases h), fun c1 s1 h => ?_⟩
      obtain ⟨hc, pre, t, post, hv, hs, hr⟩ := h1
      cases h
      exact ⟨hc, ti, calls, pre, t, post, rfl, hv, hs, hr⟩
    | next s2 =>
      simp only
      refine ⟨fun s1 h => ?_, fun c s1 h => ?_⟩
      · refine ⟨ti, calls, s2, rfl, h1, ?_⟩
        cases hp : s2.printed_scope with
        | false =>
          rw [hp] at h
          simp only [Bool.false_eq_true, if_false] at h
          cases h
          exact Or.inl ⟨rfl, rfl⟩
        | true =>
          rw [hp] at h
          simp only [if_true] at h
          cases hsci : env.scope_at i with
          | none =>
            rw [hsci] at h
            cases h
          | some sci =>
            rw [hsci] at h
            simp only at h
            cases h
            exact Or.inr ⟨rfl, sci, rfl, rfl⟩
      · cases hp : s2.printed_scope with
        | false =>
          rw [hp] at h
          simp only [Bool.false_eq_true, if_false] at h
          cases h
        | true =>
          rw [hp] at h
          simp only [if_true] at h
          cases hsci : env.scope_at i with
          | none =>
            rw [hsci] at h
            cases h
          | some sci =>
            rw [hsci] at h
            cases h

/-- The run order that the index array of `exam_create_shuffle` gives for a
well-formed scope is a permutation of the tests of the scope, and without
shuffling it is the order of insertion. -/
theorem exam_run_order_of_shuffle (env : exam_env_t) (RAND_MAX : Nat) (rand : Nat → Nat)
    (sc : exam_scope_t) (calls0 : Nat) (ti : Option (Block Nat)) (calls : Nat)
    (hr : env.shuffle = true → ∀ c, rand c ≤ RAND_MAX) (hwf : sc.wf)
    (hcs : exam_create_shuffle env RAND_MAX rand sc.len calls0 = some (ti, calls)) :
    (exam_run_order env sc ti 0 sc.len).Perm sc.test_list ∧
      (env.shuffle = false → exam_run_order env sc ti 0 sc.len = sc.test_list) := by
  cases hsh : env.shuffle with
  | false =>
    have h := exam_run_order_off env sc ti hsh hwf
    exact ⟨by rw [h], fun _ => h⟩
  | true =>
    refine ⟨?_, fun h => absurd h (by decide)⟩
    have hn : sc.len ≤ env.tbl.len := by
      by_contra hlt
      rw [exam_create_shuffle_overflow env RAND_MAX rand sc.len calls0 hsh (by omega)] at hcs
      cases hcs
    obtain ⟨l, rest, c, h1, h2⟩ := exam_create_shuffle_perm env RAND_MAX rand sc.len calls0
      hsh (hr hsh) hn
    rw [h1] at hcs
    cases hcs
    exact exam_run_order_perm env sc l rest hsh hwf h2

/-- The reporter calls of an iteration of the scope loop of `exam_run`, at loop
index `i`, that processes the well-formed scope `sc` (with shuffling on,
`rand()` staying within `[0, RAND_MAX]`), where `order` is the tests of the scope
in run order.  If the iteration completes, it has called no reporter when no
test of the scope passes the filter; otherwise it has called the header
reporter exactly once, first, immediately followed by the report (pending or
run) of the first test in run order that passes the filter, and the summary
reporter exactly once, after the reports of the tests, followed by the
separator line.  If the iteration leaves through `exit` (die-on-fail), the
header reporter has likewise been called once, immediately before the first
selected test, and the summary reporter has not been called. -/
theorem exam_run_scope_header {σ : Type} (env : exam_env_t) (RAND_MAX : Nat)
    (rand : Nat → Nat) (code : Nat → σ → Outcome σ) (si : Option (Block Nat)) (i : Nat)
    (s : Locals σ) (ii : Nat) (sc : exam_scope_t)
    (hr : env.shuffle = true → ∀ c, rand c ≤ RAND_MAX)
    (hii : (if env.shuffle then si.bind (fun a => Block.read a i) else some i) = some ii)
    (hsc : env.scope_at ii = some sc) (hwf : sc.wf) :
    (∀ s1, exam_run_scope env RAND_MAX rand code si i s = Flow.next s1 →
      ∃ (order : List exam_test_t) (evs : List Event),
        order.Perm sc.test_list ∧ (env.shuffle = false → order = sc.test_list) ∧
        s1.trace = s.trace ++ evs ∧
        ((∀ t ∈ sc.test_list, env.selects t = false) → evs = []) ∧
        (∀ t0 l, order.filter env.selects = t0 :: l →
          ∃ (e : Event) (body : List Event) (sci : exam_scope_t),
            env.scope_at i = some sci ∧
            evs = Event.exam_print_running_test sc.len sc.name :: e :: body
              ++ [Event.exam_print_passed_scope s1.scope_passed sci.name,
                  Event.printf_newline] ∧
            e.processed = some (exam_concat_scope_name t0) ∧
            (e :: body).countP Event.is_header = 0 ∧
            (e :: body).countP Event.is_summary = 0)) ∧
    (∀ c s1, exam_run_scope env RAND_MAX rand code si i s = Flow.exit c s1 →
      c = 1 ∧
      ∃ (order : List exam_test_t) (t0 : exam_test_t) (l : List exam_test_t) (e : Event)
        (body : List Event),
        order.Perm sc.test_list ∧ (env.shuffle = false → order = sc.test_list) ∧
        order.filter env.selects = t0 :: l ∧
        s1.trace = s.trace ++ Event.exam_print_running_test sc.len sc.name :: e :: body ∧
        e.processed = some (exam_concat_scope_name t0) ∧
        (e :: body).countP Event.is_header = 0 ∧
        (e :: body).countP Event.is_summary = 0) := by
  obtain ⟨hnext, hexit⟩ := exam_run_scope_ran env RAND_MAX rand code si i s ii sc hii hsc
  constructor
  · intro s1 h
    obtain ⟨ti, calls, s2, hcs, hran, hend⟩ := hnext s1 h
    obtain ⟨hperm, hoff⟩ := exam_run_order_of_shuffle env RAND_MAX rand sc s.rand_calls ti
      calls hr hwf hcs
    obtain ⟨evs, ht, hp, _, _, _, _, _, hsum, _, hnil, hcons⟩ := hran
    simp only at ht hp hnil hcons
    have hnone : (∀ t ∈ sc.test_list, env.selects t = false) →
        (exam_run_order env sc ti 0 sc.len).filter env.selects = [] := by
      intro hall
      rw [List.filter_eq_nil_iff]
      intro t ht1
      rw [hall t (hperm.mem_iff.mp ht1)]
      decide
    rcases hend with ⟨hps, rfl⟩ | ⟨hps, sci, hsci, rfl⟩
    · refine ⟨_, evs, hperm, hoff, ht, fun hall => hnil (hnone hall), fun t0 l hf => ?_⟩
      rw [hp, any_eq_true_of_filter_cons _ _ t0 l hf] at hps
      simp at hps
    · refine ⟨_, evs ++ [Event.exam_print_passed_scope s2.scope_passed sci.name,
          Event.printf_newline], hperm, hoff, ?_, fun hall => ?_, fun t0 l hf => ?_⟩
      · simp [Locals.emit, ht]
      · rw [hp, any_eq_false_of_filter_nil _ _ (hnone hall)] at hps
        simp at hps
      · obtain ⟨e, body, h1, h2, h3⟩ := hcons True.intro t0 l hf
        refine ⟨e, body, sci, hsci, ?_, h2, h3, ?_⟩
        · rw [h1]
          simp [Locals.emit]
        · rw [h1, List.countP_cons] at hsum
          simpa [Event.is_summary] using hsum
  · intro c s1 h
    obtain ⟨hc, ti, calls, pre, t, post, hcs, hord, hsel, hran⟩ := hexit c s1 h
    obtain ⟨hperm, hoff⟩ := exam_run_order_of_shuffle env RAND_MAX rand sc s.rand_calls ti
      calls hr hwf hcs
    obtain ⟨evs, ht, _, _, _, _, _, _, hsum, _, _, hcons⟩ := hran
    simp only at ht hcons
    have hne : ∃ t0 l1, (pre ++ [t]).filter env.selects = t0 :: l1 := by
      rw [List.filter_append]
      have : [t].filter env.selects = [t] := by simp [List.filter, hsel]
      rw [this]
      cases (pre.filter env.selects) with
      | nil => exact ⟨t, [], rfl⟩
      | cons a l2 => exact ⟨a, l2 ++ [t], rfl⟩
    obtain ⟨t0, l1, hf⟩ := hne
    obtain ⟨e, body, h1, h2, h3⟩ := hcons True.intro t0 l1 hf
    refine ⟨hc, _, t0, l1 ++ post.filter env.selects, e, body, hperm, hoff, ?_, ?_, h2, h3, ?_⟩
    · rw [hord]
      have : pre ++ t :: post = (pre ++ [t]) ++ post := by simp
      rw [this, List.filter_append, hf]
      rfl
    · rw [ht, h1]
    · rw [h1, List.countP_cons] at hsum
      simpa [Event.is_summary] using hsum

/-! ## Counting the reports of a run -/

theorem Locals.Tally.tally_refl {σ : Type} (env : exam_env_t) (s : Locals σ) :
    Locals.Tally env [] s s :=
  ⟨[], by simp, rfl, by simp, by simp, by simp, by simp [trace_banner_sum]⟩

theorem Locals.Tally.tally_trans {σ : Type} {env : exam_env_t} {scs1 scs2 : List exam_scope_t}
    {s s1 s2 : Locals σ} (h1 : Locals.Tally env scs1 s s1)
    (h2 : Locals.Tally env scs2 s1 s2) : Locals.Tally env (scs1 ++ scs2) s s2 := by
  obtain ⟨evs1, ht1, hc1, ha1, hd1, he1, hb1⟩ := h1
  obtain ⟨evs2, ht2, hc2, ha2, hd2, he2, hb2⟩ := h2
  refine ⟨evs1 ++ evs2, by rw [ht2, ht1, List.append_assoc], hc2.trans hc1, ?_, ?_, ?_, ?_⟩
  · rw [ha2, ha1, List.countP_append, Nat.add_assoc]
  · rw [List.countP_append, List.flatMap_append, List.filter_append, List.length_append,
      hd1, hd2]
  · rw [List.countP_append, List.countP_append, List.flatMap_append, List.filter_append,
      List.length_append, ← he1, ← he2]
    omega
  · rw [trace_banner_sum_append, List.filter_append, List.map_append, List.sum_append,
      hb1, hb2]

/-- Without shuffling, an iteration of the scope loop that completes has added
the reports of the tests of the scope at its index. -/
theorem exam_run_scope_tally {σ : Type} (env : exam_env_t) (RAND_MAX : Nat)
    (rand : Nat → Nat) (code : Nat → σ → Outcome σ) (i : Nat) (s s1 : Locals σ)
    (sc : exam_scope_t) (hsh : env.shuffle = false) (hsc : env.scope_at i = some sc)
    (hwf : sc.wf) (h : exam_run_scope env RAND_MAX rand code none i s = Flow.next s1) :
    Locals.Tally env [sc] s s1 := by
  obtain ⟨hnext, _⟩ := exam_run_scope_ran env RAND_MAX rand code none i s i sc
    (by simp [hsh]) hsc
  obtain ⟨ti, calls, s2, hcs, hran, hend⟩ := hnext s1 h
  rw [exam_run_order_off env sc ti hsh hwf] at hran
  obtain ⟨evs, ht, hp, hcount, hpassed, _, hpend, hrun, hsum, _, hnil, hcons⟩ := hran
  simp only at ht hp hcount hpassed hnil hcons
  have hflat : [sc].flatMap (fun sc => sc.test_list) = sc.test_list := by simp
  have hbanner : trace_banner_sum evs
      = (([sc].filter (fun sc => sc.test_list.any env.selects)).map (fun sc => sc.len)).sum := by
    cases hf : sc.test_list.filter env.selects with
    | nil =>
      rw [hnil hf]
      simp [List.filter, any_eq_false_of_filter_nil _ _ hf, trace_banner_sum]
    | cons t0 l =>
      obtain ⟨e, rest, h1, _, h3⟩ := hcons True.intro t0 l hf
      rw [h1]
      have : trace_banner_sum (Event.exam_print_running_test sc.len sc.name :: e :: rest)
          = sc.len + trace_banner_sum (e :: rest) := by
        simp [trace_banner_sum, Event.banner_count]
      rw [this, banner_sum_of_no_header _ h3]
      simp [List.filter, any_eq_true_of_filter_cons _ _ t0 l hf]
  rcases hend with ⟨_, rfl⟩ | ⟨_, sci, _, rfl⟩
  · exact ⟨evs, ht, hcount, hpassed, by rw [hflat]; exact hpend, by rw [hflat]; exact hrun,
      hbanner⟩
  · refine ⟨evs ++ [Event.exam_print_passed_scope s2.scope_passed sci.name,
        Event.printf_newline], by simp [Locals.emit, ht], hcount, ?_, ?_, ?_, ?_⟩
    · simp [Locals.emit, hpassed, List.countP_cons, Event.is_ok]
    · rw [hflat, ← hpend]
      simp [List.countP_cons, Event.is_pending]
    · rw [hflat, ← hrun]
      simp [List.countP_cons, Event.is_ok, Event.is_failed]
    · rw [trace_banner_sum_append, hbanner]
      simp [trace_banner_sum, Event.banner_count]

/-- Without shuffling, a scope loop that completes over a well-formed table has
added the reports of the tests of the scopes it went through. -/
theorem exam_run_scopes_tally {σ : Type} (env : exam_env_t) (RAND_MAX : Nat)
    (rand : Nat → Nat) (code : Nat → σ → Outcome σ) (hsh : env.shuffle = false)
    (hwf : env.tbl.wf) :
    ∀ (n i : Nat) (s s1 : Locals σ), i + n = env.tbl.len →
      exam_run_scopes env RAND_MAX rand code none n i s = Flow.next s1 →
      Locals.Tally env (env.tbl.scope_list.drop i) s s1 := by
  intro n
  induction n with
  | zero =>
    intro i s s1 hi h
    have hd : env.tbl.scope_list.drop i = [] :=
      List.drop_of_length_le (by rw [hwf.1]; omega)
    rw [hd]
    simp only [exam_run_scopes, Flow.next.injEq] at h
    rw [← h]
    exact Locals.Tally.tally_refl env s
  | succ n ih =>
    intro i s s1 hi h
    obtain ⟨hi1, hat, hscwf⟩ := hwf.scope_at_wf i (by omega)
    rw [List.drop_eq_getElem_cons hi1]
    unfold exam_run_scopes at h
    cases hstep : exam_run_scope env RAND_MAX rand code none i s with
    | undefined s2 =>
      rw [hstep] at h
      cases h
    | exit c s2 =>
      rw [hstep] at h
      cases h
    | next s2 =>
      rw [hstep] at h
      simp only at h
      have h1 := exam_run_scope_tally env RAND_MAX rand code i s s2 _ hsh hat hscwf hstep
      have h2 := ih (i + 1) s2 s1 (by omega) h
      exact Locals.Tally.tally_trans h1 h2

theorem filter_pending_split (p : exam_test_t → Bool) (ts : List exam_test_t) :
    (ts.filter (fun t => p t && t.pending)).length
        + (ts.filter (fun t => p t && !t.pending)).length
      = (ts.filter p).length := by
  induction ts with
  | nil => rfl
  | cons t ts ih =>
    simp only [List.filter_cons]
    cases hp : p t <;> cases hq : t.pending <;> simp <;> omega

/-- Without shuffling, a run over a well-formed table that returns has printed
the opening banner, then the reports of the scope loop, then the passed result
and the final banner with `count`.  `count` is the number of selected tests;
the pending reports are as many as the selected pending tests, the passed and
failed reports together as many as the other selected tests, `passed` is the
number of passed reports, and the scope headers report the sizes of the scopes
that hold a selected test. -/
theorem exam_run_tally {σ : Type} (env : exam_env_t) (RAND_MAX : Nat) (rand : Nat → Nat)
    (code : Nat → σ → Outcome σ) (user : σ) (hwf : env.tbl.wf) (hsh : env.shuffle = false)
    (v : Nat) (hret : (exam_run env RAND_MAX rand code user).status = Status.returned v) :
    ∃ evs : List Event,
      (exam_run env RAND_MAX rand code user).final.trace
        = Event.exam_print_running_all (exam_run env RAND_MAX rand code user).final.count
          :: evs
          ++ [Event.exam_print_passed_result
                (exam_run env RAND_MAX rand code user).final.passed,
              Event.exam_print_final (exam_run env RAND_MAX rand code user).final.count] ∧
      (exam_run env RAND_MAX rand code user).final.count
        = (env.tbl.all_tests.filter env.selects).length ∧
      (exam_run env RAND_MAX rand code user).final.passed = evs.countP Event.is_ok ∧
      evs.countP Event.is_pending
        = (env.tbl.all_tests.filter (fun t => env.selects t && t.pending)).length ∧
      evs.countP Event.is_ok + evs.countP Event.is_failed
        = (env.tbl.all_tests.filter (fun t => env.selects t && !t.pending)).length ∧
      trace_banner_sum evs
        = ((env.tbl.scope_list.filter (fun sc => sc.test_list.any env.selects)).map
            (fun sc => sc.len)).sum := by
  have hl : env.list = false := by
    cases h : env.list with
    | false => rfl
    | true => exact absurd hret ((exam_run_list env RAND_MAX rand code user h).1 v)
  obtain ⟨s2, heq, _, _, _, _, hp2, hc2, ht2⟩ :=
    exam_run_eq_scopes env RAND_MAX rand code user hwf hsh hl
  rw [heq] at hret ⊢
  have h1 := exam_run_scopes_tally env RAND_MAX rand code hsh hwf env.tbl.len 0 s2
  revert hret h1
  generalize exam_run_scopes env RAND_MAX rand code none env.tbl.len 0 s2 = r
  intro hret h1
  cases r with
  | undefined s3 => cases hret
  | exit c s3 => cases hret
  | next s3 =>
    obtain ⟨evs, ht, hc, ha, hd, he, hb⟩ := h1 s3 (by omega) rfl
    rw [List.drop_zero] at hd he hb
    refine ⟨evs, ?_, ?_, ?_, hd, he, hb⟩
    · simp only [Locals.emit, ht, ht2, hc]
      simp
    · simp only [Locals.emit, hc, hc2]
      simp [exam_env_t.selected_names]
    · simp only [Locals.emit, ha, hp2]
      simp

theorem countP_banner_frame (p : Event → Bool) (c passed : Nat) (evs : List Event)
    (h1 : p (Event.exam_print_running_all c) = false)
    (h2 : p (Event.exam_print_passed_result passed) = false)
    (h3 : p (Event.exam_print_final c) = false) :
    (Event.exam_print_running_all c :: evs
        ++ [Event.exam_print_passed_result passed, Event.exam_print_final c]).countP p
      = evs.countP p := by
  simp [List.countP_cons, List.countP_append, h1, h2, h3]

/-- C11: with shuffling and die-on-fail off, over a well-formed table, a run
outside list mode returns, and on return every test counted as considered has
been reported exactly once, as passed, failed or pending: the count of the final
banner is the number of registered tests that pass the filter, the pending
reports are as many as the filter-matching pending tests, `passed` is the number
of passed reports, and the passed, failed and pending reports add up to the
count; so failed = count - passed - pending, and passed <= count. -/
theorem exam_run_classified {σ : Type} (env : exam_env_t) (RAND_MAX : Nat)
    (rand : Nat → Nat) (code : Nat → σ → Outcome σ) (user : σ) (hwf : env.tbl.wf)
    (hsh : env.shuffle = false) (hd : env.die_on_fail = false) :
    (env.list = false →
      (exam_run env RAND_MAX rand code user).status
        = Status.returned (exam_run env RAND_MAX rand code user).final.retValue) ∧
    (∀ v, (exam_run env RAND_MAX rand code user).status = Status.returned v →
      (exam_run env RAND_MAX rand code user).final.trace.getLast?
        = some (Event.exam_print_final (exam_run env RAND_MAX rand code user).final.count) ∧
      Event.exam_print_passed_result (exam_run env RAND_MAX rand code user).final.passed
        ∈ (exam_run env RAND_MAX rand code user).final.trace ∧
      (exam_run env RAND_MAX rand code user).final.count
        = (env.tbl.all_tests.filter env.selects).length ∧
      (exam_run env RAND_MAX rand code user).final.passed
        = (exam_run env RAND_MAX rand code user).final.trace.countP Event.is_ok ∧
      (exam_run env RAND_MAX rand code user).final.trace.countP Event.is_pending
        = (env.tbl.all_tests.filter (fun t => env.selects t && t.pending)).length ∧
      (exam_run env RAND_MAX rand code user).final.trace.countP Event.is_ok
          + (exam_run env RAND_MAX rand code user).final.trace.countP Event.is_failed
          + (exam_run env RAND_MAX rand code user).final.trace.countP Event.is_pending
        = (exam_run env RAND_MAX rand code user).final.count ∧
      (exam_run env RAND_MAX rand code user).final.trace.countP Event.is_failed
        = (exam_run env RAND_MAX rand code user).final.count
          - (exam_run env RAND_MAX rand code user).final.passed
          - (env.tbl.all_tests.filter (fun t => env.selects t && t.pending)).length ∧
      (exam_run env RAND_MAX rand code user).final.passed
        ≤ (exam_run env RAND_MAX rand code user).final.count) := by
  refine ⟨fun hl => exam_run_returns env RAND_MAX rand code user hwf hl hd
    (fun h => absurd (hsh.symm.trans h) (by decide)), fun v hret => ?_⟩
  obtain ⟨evs, ht, hc, hp, hpend, hrun, _⟩ :=
    exam_run_tally env RAND_MAX rand code user hwf hsh v hret
  have hsplit := filter_pending_split env.selects env.tbl.all_tests
  have hok := countP_banner_frame Event.is_ok
    (exam_run env RAND_MAX rand code user).final.count
    (exam_run env RAND_MAX rand code user).final.passed evs rfl rfl rfl
  have hfailed := countP_banner_frame Event.is_failed
    (exam_run env RAND_MAX rand code user).final.count
    (exam_run env RAND_MAX rand code user).final.passed evs rfl rfl rfl
  have hpending := countP_banner_frame Event.is_pending
    (exam_run env RAND_MAX rand code user).final.count
    (exam_run env RAND_MAX rand code user).final.passed evs rfl rfl rfl
  rw [← ht] at hok hfailed hpending
  rw [hok, hfailed, hpending]
  refine ⟨?_, ?_, hc, hp, hpend, ?_, ?_, ?_⟩
  · have hlast : ∀ (a x y : Event) (l : List Event),
        (a :: l ++ [x, y]).getLast? = some y := by
      intro a x y l
      have : a :: l ++ [x, y] = (a :: l ++ [x]) ++ [y] := by simp
      rw [this, List.getLast?_concat]
    rw [ht]
    exact hlast _ _ _ _
  · rw [ht]
    exact List.mem_append_right _ (List.mem_cons_self _ _)
  · omega
  · omega
  · omega

/-- Without shuffling and without a filter, the test counts of the scope headers
of a run that returns add up to the count of the final banner. -/
theorem exam_run_banner_sum {σ : Type} (env : exam_env_t) (RAND_MAX : Nat)
    (rand : Nat → Nat) (code : Nat → σ → Outcome σ) (user : σ) (hwf : env.tbl.wf)
    (hsh : env.shuffle = false) (hf : env.filter = none) (v : Nat)
    (hret : (exam_run env RAND_MAX rand code user).status = Status.returned v) :
    trace_banner_sum (exam_run env RAND_MAX rand code user).final.trace
      = (exam_run env RAND_MAX rand code user).final.count := by
  obtain ⟨evs, ht, hc, _, _, _, hb⟩ :=
    exam_run_tally env RAND_MAX rand code user hwf hsh v hret
  have hsel : ∀ t, env.selects t = true := by
    intro t
    simp [exam_env_t.selects, hf]
  have key : ∀ scs : List exam_scope_t, (∀ sc ∈ scs, sc.wf) →
      ((scs.filter (fun sc => sc.test_list.any env.selects)).map (fun sc => sc.len)).sum
        = ((scs.flatMap (fun sc => sc.test_list)).filter env.selects).length := by
    intro scs
    induction scs with
    | nil => intro _; rfl
    | cons sc scs ih =>
      intro hall
      have hsc : sc.test_list.length = sc.len := hall sc (List.mem_cons_self _ _)
      have ih1 := ih (fun x hx => hall x (List.mem_cons_of_mem _ hx))
      rw [List.flatMap_cons, List.filter_append, List.length_append, ← ih1,
        List.filter_eq_self.mpr (fun a _ => hsel a), hsc]
      cases hl : sc.test_list with
      | nil =>
        rw [hl] at hsc
        rw [List.filter_cons_of_neg (by rw [hl]; simp), ← hsc]
        simp
      | cons t ts =>
        rw [List.filter_cons_of_pos (by rw [hl]; simp [hsel t])]
        simp
  have hframe : ∀ (c p : Nat) (l : List Event),
      trace_banner_sum (Event.exam_print_running_all c :: l
        ++ [Event.exam_print_passed_result p, Event.exam_print_final c])
      = trace_banner_sum l := by
    intro c p l
    simp [trace_banner_sum, Event.banner_count]
  rw [ht, hframe, hb, hc]
  exact key env.tbl.scope_list hwf.2

/-- An iteration of the scope loop that completes after printing the header of
the scope `sc` at index `ii` ends with the passed summary, which carries the
number of passed reports of the iteration and the name of the scope at the loop
index `i`. -/
theorem exam_run_scope_summary {σ : Type} (env : exam_env_t) (RAND_MAX : Nat)
    (rand : Nat → Nat) (code : Nat → σ → Outcome σ) (si : Option (Block Nat)) (i : Nat)
    (s s1 : Locals σ) (ii : Nat) (sc : exam_scope_t)
    (hii : (if env.shuffle then si.bind (fun a => Block.read a i) else some i) = some ii)
    (hsc : env.scope_at ii = some sc)
    (h : exam_run_scope env RAND_MAX rand code si i s = Flow.next s1) :
    s1.trace = s.trace ∨
    ∃ (body : List Event) (sci : exam_scope_t), env.scope_at i = some sci ∧
      s1.trace = s.trace ++ Event.exam_print_running_test sc.len sc.name :: body
        ++ [Event.exam_print_passed_scope (body.countP Event.is_ok) sci.name,
            Event.printf_newline] ∧
      body.countP Event.is_header = 0 ∧ body.countP Event.is_summary = 0 := by
  obtain ⟨hnext, _⟩ := exam_run_scope_ran env RAND_MAX rand code si i s ii sc hii hsc
  obtain ⟨ti, calls, s2, _, hran, hend⟩ := hnext s1 h
  obtain ⟨evs, ht, hp, _, _, hscope, _, _, hsum, _, hnil, hcons⟩ := hran
  simp only at ht hp hscope hnil hcons
  rcases hend with ⟨hps, rfl⟩ | ⟨hps, sci, hsci, rfl⟩
  · left
    cases hf : (exam_run_order env sc ti 0 sc.len).filter env.selects with
    | nil => rw [ht, hnil hf, List.append_nil]
    | cons t0 l =>
      rw [hp, any_eq_true_of_filter_cons _ _ t0 l hf] at hps
      simp at hps
  · right
    cases hf : (exam_run_order env sc ti 0 sc.len).filter env.selects with
    | nil =>
      rw [hp, any_eq_false_of_filter_nil _ _ hf] at hps
      simp at hps
    | cons t0 l =>
      obtain ⟨e, rest, h1, _, h3⟩ := hcons True.intro t0 l hf
      have hok : evs.countP Event.is_ok = (e :: rest).countP Event.is_ok := by
        rw [h1, List.countP_cons]
        simp [Event.is_ok]
      have hsum1 : (e :: rest).countP Event.is_summary = 0 := by
        rw [h1, List.countP_cons] at hsum
        simpa [Event.is_summary] using hsum
      refine ⟨e :: rest, sci, hsci, ?_, h3, hsum1⟩
      rw [← hok]
      simp [Locals.emit, ht, h1, hscope]

/-! ## Concrete runs -/

/-- C11 at the scope `s` with the tests `a`, the pending `p` and `b`, where `b`
fails: the run returns 1 with count 3, passed 1, one pending report and one
failed report, and 1 = 3 - 1 - 1. -/
theorem exam_run_classified_witness :
    ((demo_env pending_calls).tbl.wf ∧ (demo_env pending_calls).shuffle = false ∧
      (demo_env pending_calls).die_on_fail = false) ∧
    (exam_run (demo_env pending_calls) 32767 (fun _ => 0) (demo_code [3]) []).status
      = Status.returned 1 ∧
    (exam_run (demo_env pending_calls) 32767 (fun _ => 0) (demo_code [3]) []).final.count
      = 3 ∧
    (exam_run (demo_env pending_calls) 32767 (fun _ => 0) (demo_code [3]) []).final.passed
      = 1 ∧
    ((demo_env pending_calls).tbl.all_tests.filter
      (fun t => (demo_env pending_calls).selects t && t.pending)).length = 1 ∧
    (exam_run (demo_env pending_calls) 32767 (fun _ => 0)
        (demo_code [3]) []).final.trace.countP Event.is_failed
      = (exam_run (demo_env pending_calls) 32767 (fun _ => 0) (demo_code [3]) []).final.count
        - (exam_run (demo_env pending_calls) 32767 (fun _ => 0)
            (demo_code [3]) []).final.passed
        - ((demo_env pending_calls).tbl.all_tests.filter
            (fun t => (demo_env pending_calls).selects t && t.pending)).length ∧
    (exam_run (demo_env pending_calls) 32767 (fun _ => 0)
        (demo_code [3]) []).final.trace.countP Event.is_failed = 1 :=
  ⟨⟨by decide, by decide, by decide⟩, by decide, by decide, by decide, by decide,
    ((exam_run_classified (demo_env pending_calls) 32767 (fun _ => 0) (demo_code [3]) []
      (by decide) (by decide) (by decide)).2 1 (by decide)).2.2.2.2.2.2.1, by decide⟩

/-- C12 fails with the filter `math.a` over `math.add`, `math.sub` and
`str.concat`: the run returns, the one scope header printed reports 2 tests
(the size of the scope `math`), and the final banner reports 1 (the tests that
pass the filter). -/
theorem exam_run_banner_mismatch :
    exam_register_all exam_tbl_t.zero math_calls = some math_a_env.tbl ∧
    math_a_env.shuffle = false ∧
    (exam_run math_a_env 32767 (fun _ => 0) (demo_code []) []).status
      = Status.returned 0 ∧
    (exam_run math_a_env 32767 (fun _ => 0) (demo_code []) []).final.trace
      = [Event.exam_print_running_all 1,
         Event.exam_print_running_test 2 (cstr "math" (by decide)),
         Event.exam_print_run "math.add".toList, Event.call_fn 0 0 1,
         Event.exam_print_ok "math.add".toList,
         Event.exam_print_passed_scope 1 (cstr "math" (by decide)), Event.printf_newline,
         Event.exam_print_passed_result 1, Event.exam_print_final 1] ∧
    trace_banner_sum (exam_run math_a_env 32767 (fun _ => 0) (demo_code []) []).final.trace
      = 2 ∧
    (exam_run math_a_env 32767 (fun _ => 0) (demo_code []) []).final.count = 1 := by
  decide

/-- C18 fails with `--shuffle` over the scopes `a` (test `x`, which passes) and
`b` (test `y`, which fails) when the scope order is shuffled to `b`, `a`: the
summary after the header of `b` reports 0 passed tests under the name `a`, and
the summary after the header of `a` reports 1 passed test under the name `b`. -/
theorem exam_run_summary_names_other :
    exam_register_all exam_tbl_t.zero two_calls = some two_shuffle_env.tbl ∧
    two_shuffle_env.shuffle = true ∧
    exam_create_shuffle two_shuffle_env 32767 (fun _ => 32767) 2 0
      = some (some [some 1, some 0], 1) ∧
    (exam_run two_shuffle_env 32767 (fun _ => 32767) (demo_code [2]) []).status
      = Status.returned 1 ∧
    (exam_run two_shuffle_env 32767 (fun _ => 32767) (demo_code [2]) []).final.trace
      = [Event.exam_print_running_all 2,
         Event.exam_print_running_test 1 (cstr "b" (by decide)),
         Event.exam_print_run "b.y".toList, Event.call_fn 1 0 2,
         Event.exam_print_failed "b.y".toList,
         Event.exam_print_passed_scope 0 (cstr "a" (by decide)), Event.printf_newline,
         Event.exam_print_running_test 1 (cstr "a" (by decide)),
         Event.exam_print_run "a.x".toList, Event.call_fn 0 0 1,
         Event.exam_print_ok "a.x".toList,
         Event.exam_print_passed_scope 1 (cstr "b" (by decide)), Event.printf_newline,
         Event.exam_print_passed_result 1, Event.exam_print_final 2] := by
  decide

/-- C19 fails with shuffling on for the one scope of four tests: the index
array has one entry, the table holding one scope, so the writes `array[1]`,
`array[2]` and `array[3]` of `exam_create_shuffle(4)` and the read
`tests_indices[1]` of `exam_run` are outside it, and the iteration of the scope
loop is undefined. -/
theorem exam_shuffle_array_short :
    one_shuffle_env.shuffle = true ∧
    one_shuffle_env.scope_at 0 = some (demo_scope one_calls 0) ∧
    (demo_scope one_calls 0).len = 4 ∧
    (Block.malloc one_shuffle_env.tbl.len : Block Nat).length = 1 ∧
    Block.write (Block.malloc one_shuffle_env.tbl.len : Block Nat) 0 0 = some [some 0] ∧
    Block.write ([some 0] : Block Nat) 1 1 = none ∧
    Block.write ([some 0] : Block Nat) 2 2 = none ∧
    Block.write ([some 0] : Block Nat) 3 3 = none ∧
    Block.read ([some 0] : Block Nat) 1 = none ∧
    exam_run_scope one_shuffle_env 32767 (fun _ => 0) (demo_code []) (some [some 0]) 0
        (demo_locals [])
      = Flow.undefined (demo_locals []) := by
  decide

/-- The reporter calls at the filter `math.` over `math.add`, `math.sub` and
`str.concat`: the iteration for the scope `math` calls the header reporter
once, immediately before the run report of `math.add`, and ends with the
summary reporter and the separator line; the iteration for the scope `str`,
none of whose tests passes the filter, calls no reporter. -/
theorem exam_run_scope_header_witness :
    (math_env.scope_at 0 = some (demo_scope math_calls 0) ∧ (demo_scope math_calls 0).wf ∧
      math_env.shuffle = false) ∧
    (∃ (s1 : Locals (List Nat)) (e : Event) (body : List Event),
      exam_run_scope math_env 32767 (fun _ => 0) (demo_code []) none 0 (demo_locals [])
        = Flow.next s1 ∧
      s1.trace = Event.exam_print_running_test 2 (cstr "math" (by decide)) :: e :: body
        ++ [Event.exam_print_passed_scope 2 (cstr "math" (by decide)),
            Event.printf_newline] ∧
      e.processed = some "math.add".toList ∧
      (e :: body).countP Event.is_header = 0 ∧
      (e :: body).countP Event.is_summary = 0) ∧
    exam_run_scope math_env 32767 (fun _ => 0) (demo_code []) none 1 (demo_locals [])
      = Flow.next (demo_locals []) := by
  have hstep : exam_run_scope math_env 32767 (fun _ => 0) (demo_code []) none 0
      (demo_locals [])
      = Flow.next (exam_run_scope math_env 32767 (fun _ => 0) (demo_code []) none 0
          (demo_locals [])).state := by decide
  obtain ⟨order, evs, _, hoff, ht, _, hcons⟩ :=
    (exam_run_scope_header math_env 32767 (fun _ => 0) (demo_code []) none 0
      (demo_locals []) 0 (demo_scope math_calls 0) (fun h => absurd h (by decide))
      (by decide) (by decide) (by decide)).1 _ hstep
  have ho := hoff (by decide)
  subst ho
  obtain ⟨e, body, sci, hsci, hevs, hproc, hh, hs⟩ :=
    hcons (demo_test math_calls 0 0) [demo_test math_calls 0 1] (by decide)
  have hsci1 : sci = demo_scope math_calls 0 := by
    have h0 : math_env.scope_at 0 = some (demo_scope math_calls 0) := by decide
    rw [h0] at hsci
    injection hsci with h1
    exact h1.symm
  subst hsci1
  refine ⟨⟨by decide, by decide, by decide⟩, ⟨_, e, body, hstep, ?_, ?_, hh, hs⟩, by decide⟩
  · rw [ht, hevs]
    have h1 : (demo_scope math_calls 0).len = 2 := by decide
    have h2 : (demo_scope math_calls 0).name = cstr "math" (by decide) := by decide
    have h3 : (exam_run_scope math_env 32767 (fun _ => 0) (demo_code []) none 0
        (demo_locals [])).state.scope_passed = 2 := by decide
    rw [h1, h2, h3]
    rfl
  · rw [hproc]
    decide

/-! ## The capacity invariant of the registry -/

/-- The capacity of the test block after `exam_insert_test_in_list`: 16 if the
block was not allocated, else what it was or twice that. -/
theorem exam_insert_test_in_list_cap (sc sc1 : exam_scope_t) (scope name : CString)
    (fn : Nat) (pending : Bool)
    (h : exam_insert_test_in_list sc scope name fn pending = some sc1) :
    sc1.tests ≠ none ∧ (sc.tests = none → sc1.cap = 16) ∧
      (sc.tests ≠ none → sc1.cap = sc.cap ∨ sc1.cap = 2 * sc.cap) := by
  unfold exam_insert_test_in_list at h
  cases ht : sc.tests with
  | none =>
    rw [ht] at h
    simp only at h
    cases hw : Block.write (Block.malloc 16 : Block exam_test_t) 0
        { fn := fn, scope := scope, name := name, pending := pending } with
    | none =>
      rw [hw] at h
      cases h
    | some b1 =>
      rw [hw] at h
      simp only [Option.some.injEq] at h
      subst h
      exact ⟨by simp, fun _ => rfl, fun hn => absurd rfl hn⟩
  | some b =>
    rw [ht] at h
    simp only at h
    by_cases hc : sc.len + 1 ≥ sc.cap
    · rw [if_pos hc] at h
      simp only at h
      cases hw : Block.write (Block.realloc b (sc.cap * 2)) sc.len
          { fn := fn, scope := scope, name := name, pending := pending } with
      | none =>
        rw [hw] at h
        cases h
      | some b1 =>
        rw [hw] at h
        simp only [Option.some.injEq] at h
        subst h
        exact ⟨by simp, fun hn => (by cases hn), fun _ => Or.inr (Nat.mul_comm _ _)⟩
    · rw [if_neg hc] at h
      simp only [ht] at h
      cases hw : Block.write b sc.len
          { fn := fn, scope := scope, name := name, pending := pending } with
      | none =>
        rw [hw] at h
        cases h
      | some b1 =>
        rw [hw] at h
        simp only [Option.some.injEq] at h
        subst h
        exact ⟨by simp, fun hn => (by cases hn), fun _ => Or.inl rfl⟩

/-- The capacity of the test block after one registration call on a scope. -/
theorem exam_register_step_cap (c : Registration) (sc sc1 : exam_scope_t)
    (h : exam_register_step c sc = some sc1) :
    (sc.tests = none → sc1.tests ≠ none → sc1.cap = 16) ∧
      (sc.tests ≠ none → sc1.tests ≠ none ∧ (sc1.cap = sc.cap ∨ sc1.cap = 2 * sc.cap)) := by
  cases c with
  | test s n f p =>
    obtain ⟨h1, h2, h3⟩ := exam_insert_test_in_list_cap sc sc1 s n f p h
    exact ⟨fun hn _ => h2 hn, fun hn => ⟨h1, h3 hn⟩⟩
  | each s f b =>
    simp only [exam_register_step, Option.some.injEq] at h
    subst h
    cases b
    · exact ⟨fun hn h1 => absurd hn h1, fun hn => ⟨hn, Or.inl rfl⟩⟩
    · exact ⟨fun hn h1 => absurd hn h1, fun hn => ⟨hn, Or.inl rfl⟩⟩

/-- The capacity of the table after `exam_insert_new_scope`: what it was or
twice that. -/
theorem exam_insert_new_scope_cap (tbl tbl1 : exam_tbl_t) (scope : CString) (i : Nat)
    (h : exam_insert_new_scope tbl scope = some (tbl1, i)) :
    tbl1.cap = tbl.cap ∨ tbl1.cap = 2 * tbl.cap := by
  unfold exam_insert_new_scope at h
  by_cases hc : tbl.len + 1 ≥ tbl.cap
  · rw [if_pos hc] at h
    simp only at h
    cases hs : tbl.scope.map (fun b => Block.realloc b (tbl.cap * 2)) with
    | none =>
      rw [hs] at h
      cases h
    | some b =>
      rw [hs] at h
      simp only at h
      cases hw : Block.write b tbl.len
          ({ tests := none, len := 0, cap := 0, name := scope, before := NULL,
             after := NULL } : exam_scope_t) with
      | none =>
        rw [hw] at h
        cases h
      | some b1 =>
        rw [hw] at h
        simp only [Option.some.injEq, Prod.mk.injEq] at h
        rw [← h.1]
        exact Or.inr (Nat.mul_comm _ _)
  · rw [if_neg hc] at h
    simp only at h
    cases hs : tbl.scope with
    | none =>
      rw [hs] at h
      cases h
    | some b =>
      rw [hs] at h
      simp only at h
      cases hw : Block.write b tbl.len
          ({ tests := none, len := 0, cap := 0, name := scope, before := NULL,
             after := NULL } : exam_scope_t) with
      | none =>
        rw [hw] at h
        cases h
      | some b1 =>
        rw [hw] at h
        simp only [Option.some.injEq, Prod.mk.injEq] at h
        rw [← h.1]
        exact Or.inl rfl

theorem exam_update_scope_cap_ensured (e tbl1 : exam_tbl_t) (scope : CString)
    (g : exam_scope_t → Option exam_scope_t)
    (h : (match e.scope with
      | none => none
      | some b =>
        match exam_find_scope b scope e.len 0 with
        | none => none
        | some (some i) =>
          match Block.read b i with
          | none => none
          | some s =>
            match g s with
            | none => none
            | some s1 => (Block.write b i s1).map (fun b1 => { e with scope := some b1 })
        | some none =>
          match exam_insert_new_scope e scope with
          | none => none
          | some (tbl1, i) =>
            match tbl1.scope with
            | none => none
            | some b1 =>
              match Block.read b1 i with
              | none => none
              | some s =>
                match g s with
                | none => none
                | some s1 =>
                  (Block.write b1 i s1).map (fun b2 => { tbl1 with scope := some b2 }))
      = some tbl1) :
    tbl1.cap = e.cap ∨ tbl1.cap = 2 * e.cap := by
  cases hs : e.scope with
  | none =>
    rw [hs] at h
    cases h
  | some b =>
    rw [hs] at h
    simp only at h
    cases hf : exam_find_scope b scope e.len 0 with
    | none =>
      rw [hf] at h
      cases h
    | some r =>
      rw [hf] at h
      cases r with
      | some i =>
        simp only at h
        cases hr : Block.read b i with
        | none =>
          rw [hr] at h
          cases h
        | some s =>
          rw [hr] at h
          simp only at h
          cases hg : g s with
          | none =>
            rw [hg] at h
            cases h
          | some s1 =>
            rw [hg] at h
            simp only at h
            cases hw : Block.write b i s1 with
            | none =>
              rw [hw] at h
              cases h
            | some b1 =>
              rw [hw] at h
              simp only [Option.map_some', Option.some.injEq] at h
              subst h
              exact Or.inl rfl
      | none =>
        simp only at h
        cases hi : exam_insert_new_scope e scope with
        | none =>
          rw [hi] at h
          cases h
        | some p =>
          obtain ⟨t1, i⟩ := p
          rw [hi] at h
          simp only at h
          have hcap := exam_insert_new_scope_cap e t1 scope i hi
          cases hs1 : t1.scope with
          | none =>
            rw [hs1] at h
            cases h
          | some b1 =>
            rw [hs1] at h
            simp only at h
            cases hr : Block.read b1 i with
            | none =>
              rw [hr] at h
              cases h
            | some s =>
              rw [hr] at h
              simp only at h
              cases hg : g s with
              | none =>
                rw [hg] at h
                cases h
              | some s1 =>
                rw [hg] at h
                simp only at h
                cases hw : Block.write b1 i s1 with
                | none =>
                  rw [hw] at h
                  cases h
                | some b2 =>
                  rw [hw] at h
                  simp only [Option.map_some', Option.some.injEq] at h
                  subst h
                  exact hcap

/-- The capacity of the table after one registration call: 8 or 16 if the
table was not allocated, else what it was or twice that. -/
theorem exam_update_scope_cap (tbl tbl1 : exam_tbl_t) (scope : CString)
    (g : exam_scope_t → Option exam_scope_t)
    (h : exam_update_scope tbl scope g = some tbl1) :
    (tbl.scope = none → tbl1.cap = 8 ∨ tbl1.cap = 16) ∧
      (tbl.scope ≠ none → tbl1.cap = tbl.cap ∨ tbl1.cap = 2 * tbl.cap) := by
  have key := exam_update_scope_cap_ensured (exam_ensure_tbl tbl) tbl1 scope g h
  constructor
  · intro hn
    have : (exam_ensure_tbl tbl).cap = 8 := by
      unfold exam_ensure_tbl
      rw [hn]
    rw [this] at key
    exact key
  · intro hn
    have : exam_ensure_tbl tbl = tbl := by
      unfold exam_ensure_tbl
      cases hs : tbl.scope with
      | none => exact absurd hs hn
      | some b => rfl
    rw [this] at key
    exact key

theorem exam_scope_t.Grown.grown_refl (sc : exam_scope_t) : sc.Grown sc :=
  ⟨rfl, List.prefix_refl _, fun h => ⟨h, Or.inl rfl⟩⟩

theorem pow_cap_step (base cap cap1 : Nat) (h : ∃ k, cap = base * 2 ^ k)
    (h1 : cap1 = cap ∨ cap1 = 2 * cap) : ∃ k, cap1 = base * 2 ^ k := by
  obtain ⟨k, hk⟩ := h
  rcases h1 with h1 | h1
  · exact ⟨k, by rw [h1, hk]⟩
  · exact ⟨k + 1, by rw [h1, hk, Nat.pow_succ]; ring⟩

/-- One more registration call keeps the table in step with the call sequence,
keeps the capacity invariant, leaves the table allocated, and changes the table
of before only by growing it. -/
theorem exam_register_grown (tbl : exam_tbl_t) (calls : List Registration)
    (c : Registration)
    (h : tbl.Registered (spec_scope_names calls) (spec_scope_tests calls)
      (spec_scope_hook calls))
    (hc : tbl.Capacity) :
    ∃ tbl1, exam_register tbl c = some tbl1 ∧
      tbl1.Registered (spec_scope_names (calls ++ [c])) (spec_scope_tests (calls ++ [c]))
        (spec_scope_hook (calls ++ [c])) ∧
      tbl1.Capacity ∧ tbl.Grown tbl1 ∧ tbl1.scope ≠ none := by
  obtain ⟨tbl1, h3, h4⟩ := exam_register_registered tbl calls c h
  refine ⟨tbl1, h3, h4, ?_⟩
  obtain ⟨scs, hH, hnames, hall⟩ := h
  obtain ⟨scs1, hH1, hnames1, hall1⟩ := h4
  have hfresh : (exam_scope_t.fresh c.scope).Holds [] := ⟨rfl, rfl⟩
  obtain ⟨tbl2, scs2, h1, hH2, hcase⟩ :=
    exam_update_scope_holds tbl scs c.scope (exam_register_step c) hH
      (fun k hk => by
        by_cases hn : scs[k].name = c.scope
        · obtain ⟨sc1, hsc1, _⟩ := exam_register_step_holds c scs[k] _ (hall k hk).1 hn
          exact ⟨sc1, hsc1⟩
        · cases c with
          | test s n f p =>
            obtain ⟨sc1, hsc1, _⟩ :=
              exam_insert_test_in_list_holds scs[k] _ s n f p (hall k hk).1
            exact ⟨sc1, hsc1⟩
          | each s f b => exact ⟨_, rfl⟩)
      (by
        obtain ⟨sc1, hsc1, _⟩ := exam_register_step_holds c _ _ hfresh rfl
        exact ⟨sc1, hsc1⟩)
  have e1 : tbl2 = tbl1 := by
    rw [exam_register_eq] at h3
    exact Option.some.inj (h1.symm.trans h3)
  subst e1
  have e2 : scs2 = scs1 := hH2.scope_list.symm.trans hH1.scope_list
  subst e2
  obtain ⟨hcap0, hcap1⟩ := exam_update_scope_cap tbl tbl2 c.scope _ h1
  -- every scope of the new table is an old one or the result of the call on one
  have hmem : ∀ sc ∈ scs2, sc ∈ scs ∨
      ∃ sc0, (sc0 ∈ scs ∨ sc0 = exam_scope_t.fresh c.scope) ∧
        exam_register_step c sc0 = some sc := by
    intro sc hsc
    rcases hcase with ⟨k, hk, sc1, _, hg, rfl⟩ | ⟨_, sc1, hg, rfl⟩
    · rcases List.mem_or_eq_of_mem_set hsc with hm | rfl
      · exact Or.inl hm
      · exact Or.inr ⟨scs[k], Or.inl (List.getElem_mem _), hg⟩
    · rcases List.mem_append.mp hsc with hm | hm
      · exact Or.inl hm
      · rw [List.mem_singleton] at hm
        subst hm
        exact Or.inr ⟨_, Or.inr rfl, hg⟩
  -- every scope of the old table is found at its index, as it was or after the call
  have hget : ∀ (k : Nat) (sc : exam_scope_t), scs[k]? = some sc →
      ∃ sc1, scs2[k]? = some sc1 ∧
        (sc1 = sc ∨ (exam_register_step c sc = some sc1 ∧ sc.name = c.scope)) := by
    intro k sc hk
    obtain ⟨hk1, hk2⟩ := List.getElem?_eq_some.mp hk
    rcases hcase with ⟨k0, hk0, sc1, hname, hg, rfl⟩ | ⟨_, sc1, hg, rfl⟩
    · by_cases he : k0 = k
      · subst he
        subst hk2
        exact ⟨sc1, List.getElem?_set_self hk0, Or.inr ⟨hg, hname⟩⟩
      · exact ⟨sc, by rw [List.getElem?_set_ne he]; exact hk, Or.inl rfl⟩
    · exact ⟨sc, by rw [List.getElem?_append_left hk1]; exact hk, Or.inl rfl⟩
  have hne : scs2 ≠ [] := by
    rcases hcase with ⟨k, hk, sc1, _, _, rfl⟩ | ⟨_, sc1, _, rfl⟩
    · intro hnil
      have : (scs.set k sc1).length = 0 := by rw [hnil]; rfl
      rw [List.length_set] at this
      omega
    · simp
  have hsome : tbl2.scope ≠ none := by
    intro hnone
    obtain ⟨hlen, hm⟩ := hH1
    rw [hnone] at hm
    simp only at hm
    rw [hm] at hlen
    exact hne (List.length_eq_zero.mp hlen.symm)
  have hold : ∀ sc ∈ scs, sc.Capacity := by
    intro sc hsc
    exact hc.2 sc (by rw [hH.scope_list]; exact hsc)
  refine ⟨⟨?_, ?_⟩, ⟨hcap1, ?_⟩, hsome⟩
  · intro b hb
    obtain ⟨_, hm⟩ := hH1
    rw [hb] at hm
    simp only at hm
    refine ⟨hm.1, hm.2.1, ?_⟩
    cases hs : tbl.scope with
    | none =>
      rcases hcap0 hs with h8 | h16
      · exact ⟨0, by rw [h8]; rfl⟩
      · exact ⟨1, by rw [h16]; rfl⟩
    | some b0 =>
      exact pow_cap_step 8 tbl.cap tbl2.cap (hc.1 b0 hs).2.2
        (hcap1 (by rw [hs]; exact Option.some_ne_none b0))
  · rw [hH1.scope_list]
    intro sc hsc b hb
    obtain ⟨j, hj, rfl⟩ := List.getElem_of_mem hsc
    obtain ⟨_, hm⟩ := (hall1 j hj).1
    rw [hb] at hm
    simp only at hm
    refine ⟨hm.1, hm.2.1, ?_⟩
    have hb1 : scs2[j].tests ≠ none := by rw [hb]; exact Option.some_ne_none b
    rcases hmem _ hsc with hm1 | ⟨sc0, hsc0, hstep⟩
    · exact (hold _ hm1 b hb).2.2
    · obtain ⟨hs0, hs1⟩ := exam_register_step_cap c sc0 _ hstep
      cases ht : sc0.tests with
      | none => exact ⟨0, by rw [hs0 ht hb1]; rfl⟩
      | some b0 =>
        have hn0 : sc0.tests ≠ none := by rw [ht]; exact Option.some_ne_none b0
        rcases hsc0 with hin | hfr
        · exact pow_cap_step 16 sc0.cap _ (hold sc0 hin b0 ht).2.2 (hs1 hn0).2
        · rw [hfr] at ht
          cases ht
  · rw [hH.scope_list, hH1.scope_list]
    intro k sc hk
    obtain ⟨sc1, hsc1, hrel⟩ := hget k sc hk
    refine ⟨sc1, hsc1, ?_⟩
    rcases hrel with rfl | ⟨hstep, hname⟩
    · exact exam_scope_t.Grown.grown_refl sc1
    · obtain ⟨hk1, hk2⟩ := List.getElem?_eq_some.mp hk
      subst hk2
      obtain ⟨sc1', hsc1', hn1, hh1, _, _⟩ :=
        exam_register_step_holds c scs[k] _ (hall k hk1).1 hname
      have he : sc1' = sc1 := Option.some.inj (hsc1'.symm.trans hstep)
      subst he
      refine ⟨hn1, ?_, (exam_register_step_cap c scs[k] sc1' hstep).2⟩
      rw [(hall k hk1).1.test_list, hh1.test_list]
      exact List.prefix_append _ _

/-- Every sequence of registration calls from the empty registry is defined,
leaves the table in step with the calls, and keeps the capacity invariant. -/
theorem exam_register_all_capacity_inv (calls : List Registration) :
    ∃ tbl, exam_register_all exam_tbl_t.zero calls = some tbl ∧
      tbl.Registered (spec_scope_names calls) (spec_scope_tests calls)
        (spec_scope_hook calls) ∧
      tbl.Capacity := by
  induction calls using List.reverseRecOn with
  | nil =>
    refine ⟨exam_tbl_t.zero, rfl, ⟨[], ⟨rfl, rfl⟩, rfl, fun k hk => absurd hk (by simp)⟩,
      ⟨fun b hb => (by cases hb), fun sc hsc => ?_⟩⟩
    have : exam_tbl_t.zero.scope_list = [] := rfl
    rw [this] at hsc
    cases hsc
  | append_singleton calls c ih =>
    obtain ⟨tbl, h1, h2, h3⟩ := ih
    obtain ⟨tbl1, h4, h5, h6, _, _⟩ := exam_register_grown tbl calls c h2 h3
    exact ⟨tbl1, by rw [exam_register_all_append, h1]; exact h4, h5, h6⟩

/-- C21: take any finite sequence `calls` of `_exam_register_test` and
`_exam_register_each` calls from the empty registry, and one more call `c`.
Both are defined (every slot written lies inside its block), and the capacity
invariant holds before and after `c`: the table, once allocated (as it is after
the first call), has a block of `cap` slots with `len < cap` and `cap` equal to
8 doubled some number of times, and every scope with allocated test storage has
a block of `cap` slots with `len < cap` and `cap` equal to 16 doubled some
number of times; every slot below `len` is written.  The call `c` leaves a
capacity as it was or doubles it, and every earlier scope is found at its index
with its name and with its earlier tests first. -/
theorem exam_register_all_capacity (calls : List Registration) (c : Registration) :
    ∃ tbl tbl1 : exam_tbl_t,
      exam_register_all exam_tbl_t.zero calls = some tbl ∧
      exam_register tbl c = some tbl1 ∧
      exam_register_all exam_tbl_t.zero (calls ++ [c]) = some tbl1 ∧
      tbl.wf ∧ tbl.Capacity ∧ (calls = [] → tbl = exam_tbl_t.zero) ∧
      tbl1.wf ∧ tbl1.Capacity ∧ tbl1.scope ≠ none ∧ tbl1.len < tbl1.cap ∧
      tbl.Grown tbl1 := by
  obtain ⟨tbl, h1, h2, h3⟩ := exam_register_all_capacity_inv calls
  obtain ⟨tbl1, h4, h5, h6, h7, h8⟩ := exam_register_grown tbl calls c h2 h3
  refine ⟨tbl, tbl1, h1, h4, by rw [exam_register_all_append, h1]; exact h4, h2.tbl_wf, h3,
    ?_, h5.tbl_wf, h6, h8, ?_, h7⟩
  · intro hnil
    rw [hnil] at h1
    exact (Option.some.inj h1).symm
  · cases hs : tbl1.scope with
    | none => exact absurd hs h8
    | some b => exact (h6.1 b hs).2.1

/-- C21 at the sixteenth test of a scope and at the eighth scope of the table:
with 15 tests the scope has capacity 16, and the sixteenth test doubles it to 32;
with 7 scopes the table has capacity 8, and the eighth scope doubles it to 16.
In both cases the invariant holds after the call and the earlier entries are
still in place. -/
theorem exam_register_all_capacity_witness :
    (∃ tbl tbl1 : exam_tbl_t,
      exam_register_all exam_tbl_t.zero (List.replicate 15 same_test) = some tbl ∧
      exam_register tbl same_test = some tbl1 ∧
      tbl.scope_list.map (fun sc => (sc.len, sc.cap)) = [(15, 16)] ∧
      tbl1.scope_list.map (fun sc => (sc.len, sc.cap)) = [(16, 32)] ∧
      tbl1.Capacity ∧ tbl.Grown tbl1) ∧
    (∃ tbl tbl1 : exam_tbl_t,
      exam_register_all exam_tbl_t.zero seven_scopes = some tbl ∧
      exam_register tbl (Registration.each (cstr "h" (by decide)) 10 true) = some tbl1 ∧
      (tbl.len, tbl.cap) = (7, 8) ∧ (tbl1.len, tbl1.cap) = (8, 16) ∧
      tbl1.Capacity ∧ tbl.Grown tbl1) := by
  constructor
  · obtain ⟨tbl, tbl1, h1, h2, h3, _, _, _, _, h8, _, _, h11⟩ :=
      exam_register_all_capacity (List.replicate 15 same_test) same_test
    have hd : (exam_register_all exam_tbl_t.zero (List.replicate 15 same_test)).map
        (fun tbl => tbl.scope_list.map (fun sc => (sc.len, sc.cap))) = some [(15, 16)] := by
      decide
    have hd1 : (exam_register_all exam_tbl_t.zero
        (List.replicate 15 same_test ++ [same_test])).map
        (fun tbl => tbl.scope_list.map (fun sc => (sc.len, sc.cap))) = some [(16, 32)] := by
      decide
    rw [h1] at hd
    rw [h3] at hd1
    exact ⟨tbl, tbl1, h1, h2, Option.some.inj hd, Option.some.inj hd1, h8, h11⟩
  · obtain ⟨tbl, tbl1, h1, h2, h3, _, _, _, _, h8, _, _, h11⟩ :=
      exam_register_all_capacity seven_scopes
        (Registration.each (cstr "h" (by decide)) 10 true)
    have hd : (exam_register_all exam_tbl_t.zero seven_scopes).map
        (fun tbl => (tbl.len, tbl.cap)) = some (7, 8) := by
      decide
    have hd1 : (exam_register_all exam_tbl_t.zero
        (seven_scopes ++ [Registration.each (cstr "h" (by decide)) 10 true])).map
        (fun tbl => (tbl.len, tbl.cap)) = some (8, 16) := by
      decide
    rw [h1] at hd
    rw [h3] at hd1
    exact ⟨tbl, tbl1, h1, h2, Option.some.inj hd, Option.some.inj hd1, h8, h11⟩

/-! ## The iterations of the scope loop are defined -/

theorem exam_run_selected_defined {σ : Type} (env : exam_env_t)
    (code : Nat → σ → Outcome σ) (sc : exam_scope_t) (ii idx : Nat) (t : exam_test_t)
    (buf : List Char) (s : Locals σ) :
    (∃ s1, exam_run_selected env code sc ii idx t buf s = Flow.next s1) ∨
    (env.die_on_fail = true ∧
      ∃ s1, exam_run_selected env code sc ii idx t buf s = Flow.exit 1 s1) := by
  cases hd : env.die_on_fail with
  | false => exact Or.inl (exam_run_selected_next env code sc ii idx t buf s hd)
  | true =>
    unfold exam_run_selected
    simp only [hd, if_true]
    split
    · exact Or.inl ⟨_, rfl⟩
    · split
      · exact Or.inl ⟨_, rfl⟩
      · exact Or.inr ⟨by trivial, _, rfl⟩

theorem exam_run_test_defined {σ : Type} (env : exam_env_t) (code : Nat → σ → Outcome σ)
    (sc : exam_scope_t) (ii : Nat) (ti : Option (Block Nat)) (j : Nat) (s : Locals σ)
    (p : Nat × exam_test_t) (hc : exam_current_test env sc ti j = some p) :
    (∃ s1, exam_run_test env code sc ii ti j s = Flow.next s1) ∨
    (env.die_on_fail = true ∧
      ∃ s1, exam_run_test env code sc ii ti j s = Flow.exit 1 s1) := by
  obtain ⟨idx, t⟩ := p
  unfold exam_run_test
  rw [hc]
  simp only
  cases env.filter with
  | none => exact exam_run_selected_defined env code sc ii _ _ _ s
  | some f =>
    simp only [exam_filter_test_eq, Option.map_some']
    cases f.val.isPrefixOf (exam_concat_scope_name t) with
    | false => exact Or.inl ⟨s, rfl⟩
    | true => exact exam_run_selected_defined env code sc ii _ _ _ s

theorem exam_run_tests_defined {σ : Type} (env : exam_env_t) (code : Nat → σ → Outcome σ)
    (sc : exam_scope_t) (ii : Nat) (ti : Option (Block Nat))
    (hc : ∀ j, j < sc.len → ∃ p, exam_current_test env sc ti j = some p) :
    ∀ (n j : Nat) (s : Locals σ), j + n = sc.len →
      (∃ s1, exam_run_tests env code sc ii ti n j s = Flow.next s1) ∨
      (env.die_on_fail = true ∧
        ∃ s1, exam_run_tests env code sc ii ti n j s = Flow.exit 1 s1) := by
  intro n
  induction n with
  | zero => intro j s _; exact Or.inl ⟨s, rfl⟩
  | succ n ih =>
    intro j s hj
    obtain ⟨p, hp⟩ := hc j (by omega)
    unfold exam_run_tests
    rcases exam_run_test_defined env code sc ii ti j s p hp with ⟨s1, h1⟩ | ⟨hd, s1, h1⟩
    · rw [h1]
      exact ih (j + 1) s1 (by omega)
    · rw [h1]
      exact Or.inr ⟨hd, s1, rfl⟩

/-- An iteration of the scope loop over a well-formed table does not run into
undefined behaviour, provided that with shuffling on `rand()` stays within
`[0, RAND_MAX]`, no scope has more tests than the table has scopes, and the
index array of the scopes holds indices of the table: it reads a scope, and
either completes or, under die-on-fail, leaves through `exit(1)`. -/
theorem exam_run_scope_defined {σ : Type} (env : exam_env_t) (RAND_MAX : Nat)
    (rand : Nat → Nat) (code : Nat → σ → Outcome σ) (si : Option (Block Nat)) (i : Nat)
    (s : Locals σ) (hwf : env.tbl.wf) (hi : i < env.tbl.len)
    (hfit : env.shuffle = true →
      (∀ c, rand c ≤ RAND_MAX) ∧ ∀ sc ∈ env.tbl.scope_list, sc.len ≤ env.tbl.len)
    (hsi : env.shuffle = true →
      ∃ (l : List Nat) (rest : Block Nat), si = some (l.map some ++ rest) ∧
        l.length = env.tbl.len ∧ ∀ x ∈ l, x < env.tbl.len) :
    ∃ (ii : Nat) (sc : exam_scope_t),
      (if env.shuffle then si.bind (fun a => Block.read a i) else some i) = some ii ∧
      env.scope_at ii = some sc ∧ sc.wf ∧
      ((∃ s1, exam_run_scope env RAND_MAX rand code si i s = Flow.next s1) ∨
       (env.die_on_fail = true ∧
        ∃ s1, exam_run_scope env RAND_MAX rand code si i s = Flow.exit 1 s1)) := by
  obtain ⟨hi1, hati, _⟩ := hwf.scope_at_wf i hi
  have hii : ∃ ii, (if env.shuffle = true then si.bind (fun a => Block.read a i) else some i)
      = some ii ∧ ii < env.tbl.len := by
    cases hsh : env.shuffle with
    | false => exact ⟨i, by simp, hi⟩
    | true =>
      obtain ⟨l, rest, rfl, hlen, hlt⟩ := hsi hsh
      have hil : i < l.length := by omega
      exact ⟨l[i], by simp [Block.read_map_some l rest i hil], hlt _ (List.getElem_mem _)⟩
  obtain ⟨ii, hii1, hii2⟩ := hii
  obtain ⟨hii3, hat, hscwf⟩ := hwf.scope_at_wf ii hii2
  have hmem : env.tbl.scope_list[ii] ∈ env.tbl.scope_list := List.getElem_mem _
  generalize env.tbl.scope_list[ii] = sc at hat hscwf hmem
  refine ⟨ii, sc, hii1, hat, hscwf, ?_⟩
  unfold exam_run_scope
  simp only [hii1, hat]
  have hcs : ∃ ti calls, exam_create_shuffle env RAND_MAX rand sc.len s.rand_calls
      = some (ti, calls) ∧ ∀ j, j < sc.len → ∃ p, exam_current_test env sc ti j = some p := by
    cases hsh : env.shuffle with
    | false =>
      refine ⟨none, _, exam_create_shuffle_off env RAND_MAX rand _ _ hsh, fun j hj => ?_⟩
      obtain ⟨_, h⟩ := exam_current_test_eq env sc none j hsh hscwf hj
      exact ⟨_, h⟩
    | true =>
      obtain ⟨hr, hlen⟩ := hfit hsh
      obtain ⟨l, rest, c, h1, h2⟩ := exam_create_shuffle_perm env RAND_MAX rand sc.len
        s.rand_calls hsh hr (hlen sc hmem)
      refine ⟨_, _, h1, fun j hj => ?_⟩
      have hl : l.length = sc.len := by simpa using h2.length_eq
      exact exam_current_test_shuffled env sc l rest j hsh hscwf (by omega)
        (fun x hx => List.mem_range.mp (h2.mem_iff.mp hx))
  obtain ⟨ti, calls, hcs1, hcs2⟩ := hcs
  simp only [hcs1]
  rcases exam_run_tests_defined env code sc ii ti hcs2 sc.len 0
    { s with printed_scope := false, scope_passed := 0, rand_calls := calls } (by omega)
    with ⟨s1, h1⟩ | ⟨hd, s1, h1⟩
  · rw [h1]
    simp only [hati]
    split <;> exact Or.inl ⟨_, rfl⟩
  · rw [h1]
    exact Or.inr ⟨hd, s1, rfl⟩

/-! ## What an iteration of the scope loop prints -/

theorem exam_stdout_append (shortd : Bool) (a b : List Event) :
    exam_stdout shortd (a ++ b) = exam_stdout shortd a ++ exam_stdout shortd b := by
  simp [exam_stdout]

theorem exam_stdout_cons (shortd : Bool) (e : Event) (l : List Event) :
    exam_stdout shortd (e :: l) = exam_print shortd e ++ exam_stdout shortd l := by
  simp [exam_stdout]

/-- The header reporter prints a header in either mode, and nothing else
prints one. -/
theorem exam_stdout_headers (shortd : Bool) (l : List Event) :
    (exam_stdout shortd l).countP Printed.is_header = l.countP Event.is_header := by
  induction l with
  | nil => rfl
  | cons e l ih =>
    rw [exam_stdout_cons, List.countP_append, ih, List.countP_cons]
    cases e <;> cases shortd <;> simp [exam_print, Printed.is_header, Event.is_header]
    all_goals omega

/-- The summary reporter prints the summary in verbose mode only, and nothing
else prints one. -/
theorem exam_stdout_summaries (shortd : Bool) (l : List Event) :
    (exam_stdout shortd l).countP Printed.is_summary
      = if shortd then 0 else l.countP Event.is_summary := by
  induction l with
  | nil => cases shortd <;> rfl
  | cons e l ih =>
    rw [exam_stdout_cons, List.countP_append, ih, List.countP_cons]
    cases e <;> cases shortd <;> simp [exam_print, Printed.is_summary, Event.is_summary]
    all_goals omega

/-- In verbose mode the report that starts to process a test prints one line,
the run line or the pending line of that test. -/
theorem exam_print_processed (e : Event) (q : List Char) (h : e.processed = some q) :
    exam_print false e = [Printed.run q] ∨ exam_print false e = [Printed.pending q] := by
  cases e <;> simp [Event.processed] at h
  · subst h
    exact Or.inr rfl
  · subst h
    exact Or.inl rfl

theorem exam_stdout_header (shortd : Bool) (sc : exam_scope_t) (l : List Event) :
    exam_stdout shortd (Event.exam_print_running_test sc.len sc.name :: l)
      = Printed.header shortd sc :: exam_stdout shortd l := by
  rw [exam_stdout_cons]
  cases shortd <;> rfl

/-- C17, as amended: take an iteration of the scope loop of `exam_run`, at loop
index `i`, over a well-formed table (with shuffling on: `rand()` within
`[0, RAND_MAX]`, no scope with more tests than the table has scopes, and an
index array of table indices).  The iteration is defined: it reads a scope `sc`
and either completes or, under die-on-fail, leaves through `exit(1)`.  With
`order` the tests of `sc` in run order and `evs` the reporter calls and calls
made by the iteration: if no test of the scope passes the filter, the iteration
completes and prints nothing.  Otherwise the scope header is the first item
printed (in verbose and in short mode alike) and is printed exactly once; the
reporter call that follows it is the report (pending or run) of the first test
in run order that passes the filter, which in verbose mode prints the line that
follows the header.  If the iteration leaves through `exit(1)`, no summary is
printed.  If it completes, what it prints ends with the passed summary and the
separator line in verbose mode, and with the separator line alone in short
mode, no summary being printed before. -/
theorem exam_run_scope_prints {σ : Type} (env : exam_env_t) (RAND_MAX : Nat)
    (rand : Nat → Nat) (code : Nat → σ → Outcome σ) (si : Option (Block Nat)) (i : Nat)
    (s : Locals σ) (hwf : env.tbl.wf) (hi : i < env.tbl.len)
    (hfit : env.shuffle = true →
      (∀ c, rand c ≤ RAND_MAX) ∧ ∀ sc ∈ env.tbl.scope_list, sc.len ≤ env.tbl.len)
    (hsi : env.shuffle = true →
      ∃ (l : List Nat) (rest : Block Nat), si = some (l.map some ++ rest) ∧
        l.length = env.tbl.len ∧ ∀ x ∈ l, x < env.tbl.len) :
    ∃ (ii : Nat) (sc : exam_scope_t) (order : List exam_test_t) (s1 : Locals σ)
      (evs : List Event),
      (if env.shuffle then si.bind (fun a => Block.read a i) else some i) = some ii ∧
      env.scope_at ii = some sc ∧
      order.Perm sc.test_list ∧ (env.shuffle = false → order = sc.test_list) ∧
      (exam_run_scope env RAND_MAX rand code si i s = Flow.next s1 ∨
        (env.die_on_fail = true ∧
          exam_run_scope env RAND_MAX rand code si i s = Flow.exit 1 s1)) ∧
      s1.trace = s.trace ++ evs ∧
      ((∀ t ∈ sc.test_list, env.selects t = false) →
        exam_run_scope env RAND_MAX rand code si i s = Flow.next s1 ∧
        exam_stdout env.shortd evs = []) ∧
      (∀ t0 l, order.filter env.selects = t0 :: l →
        ∃ (e : Event) (rest : List Event),
          evs = Event.exam_print_running_test sc.len sc.name :: e :: rest ∧
          e.processed = some (exam_concat_scope_name t0) ∧
          exam_stdout env.shortd evs
            = Printed.header env.shortd sc :: exam_stdout env.shortd (e :: rest) ∧
          (env.shortd = false →
            exam_print env.shortd e = [Printed.run (exam_concat_scope_name t0)] ∨
            exam_print env.shortd e = [Printed.pending (exam_concat_scope_name t0)]) ∧
          (exam_stdout env.shortd evs).countP Printed.is_header = 1 ∧
          (exam_run_scope env RAND_MAX rand code si i s = Flow.exit 1 s1 →
            (exam_stdout env.shortd evs).countP Printed.is_summary = 0) ∧
          (exam_run_scope env RAND_MAX rand code si i s = Flow.next s1 →
            ∃ (sci : exam_scope_t) (mid : List Printed),
              env.scope_at i = some sci ∧
              mid.countP Printed.is_summary = 0 ∧
              exam_stdout env.shortd evs
                = mid ++ (if env.shortd then []
                          else [Printed.passed_scope s1.scope_passed sci.name])
                    ++ [Printed.newline])) := by
  obtain ⟨ii, sc, hii, hsc, hscwf, hdef⟩ :=
    exam_run_scope_defined env RAND_MAX rand code si i s hwf hi hfit hsi
  have hr : env.shuffle = true → ∀ c, rand c ≤ RAND_MAX := fun h => (hfit h).1
  obtain ⟨hnext, hexit⟩ :=
    exam_run_scope_header env RAND_MAX rand code si i s ii sc hr hii hsc hscwf
  have hverb : ∀ (e : Event) (q : List Char), e.processed = some q → env.shortd = false →
      exam_print env.shortd e = [Printed.run q] ∨
      exam_print env.shortd e = [Printed.pending q] := by
    intro e q hq hsd
    rw [hsd]
    exact exam_print_processed e q hq
  rcases hdef with ⟨s1, h1⟩ | ⟨hd, s1, h1⟩
  · obtain ⟨order, evs, hperm, hoff, ht, hnone, hcons⟩ := hnext s1 h1
    refine ⟨ii, sc, order, s1, evs, hii, hsc, hperm, hoff, Or.inl h1, ht, ?_, ?_⟩
    · intro hall
      refine ⟨h1, ?_⟩
      rw [hnone hall]
      rfl
    · intro t0 l hf
      obtain ⟨e, body, sci, hsci, hevs, hproc, hh, hs⟩ := hcons t0 l hf
      have hevs1 : evs = Event.exam_print_running_test sc.len sc.name :: e ::
          (body ++ [Event.exam_print_passed_scope s1.scope_passed sci.name,
            Event.printf_newline]) := by
        rw [hevs]
        rfl
      have hcnt : (e :: (body ++ [Event.exam_print_passed_scope s1.scope_passed sci.name,
            Event.printf_newline])).countP Event.is_header = 0 := by
        have h2 : e :: (body ++ [Event.exam_print_passed_scope s1.scope_passed sci.name,
            Event.printf_newline]) = (e :: body)
              ++ [Event.exam_print_passed_scope s1.scope_passed sci.name,
                  Event.printf_newline] := rfl
        rw [h2, List.countP_append, hh]
        rfl
      refine ⟨e, _, hevs1, hproc, ?_, hverb e _ hproc, ?_, ?_, ?_⟩
      · rw [hevs1, exam_stdout_header]
      · rw [hevs1, exam_stdout_header, List.countP_cons, exam_stdout_headers, hcnt]
        cases env.shortd <;> rfl
      · intro hx
        rw [h1] at hx
        cases hx
      · intro _
        refine ⟨sci, exam_stdout env.shortd
          (Event.exam_print_running_test sc.len sc.name :: e :: body), hsci, ?_, ?_⟩
        · rw [exam_stdout_summaries]
          split
          · rfl
          · rw [List.countP_cons, hs]
            rfl
        · rw [hevs]
          have h3 : Event.exam_print_running_test sc.len sc.name :: e :: body
              ++ [Event.exam_print_passed_scope s1.scope_passed sci.name,
                  Event.printf_newline]
              = (Event.exam_print_running_test sc.len sc.name :: e :: body)
                ++ ([Event.exam_print_passed_scope s1.scope_passed sci.name]
                  ++ [Event.printf_newline]) := rfl
          rw [h3, exam_stdout_append, exam_stdout_append, List.append_assoc]
          cases env.shortd <;> rfl
  · obtain ⟨_, order, t0, l, e, body, hperm, hoff, hf, ht, hproc, hh, hs⟩ := hexit 1 s1 h1
    refine ⟨ii, sc, order, s1, Event.exam_print_running_test sc.len sc.name :: e :: body,
      hii, hsc, hperm, hoff, Or.inr ⟨hd, h1⟩, ht, ?_, ?_⟩
    · intro hall
      have hmem : t0 ∈ order.filter env.selects := by
        rw [hf]
        exact List.mem_cons_self _ _
      obtain ⟨hm1, hm2⟩ := List.mem_filter.mp hmem
      have := hall t0 (hperm.mem_iff.mp hm1)
      rw [this] at hm2
      cases hm2
    · intro t1 l1 hf1
      rw [hf] at hf1
      injection hf1 with ht01 _
      subst ht01
      refine ⟨e, body, rfl, hproc, exam_stdout_header _ _ _, hverb e _ hproc, ?_, ?_, ?_⟩
      · rw [exam_stdout_header, List.countP_cons, exam_stdout_headers, hh]
        cases env.shortd <;> rfl
      · intro _
        rw [exam_stdout_summaries]
        split
        · rfl
        · rw [List.countP_cons, hs]
          rfl
      · intro hx
        rw [h1] at hx
        cases hx

/-- C17 refuted as stated: in short mode the run over `math.add`, `math.sub`
and `str.concat` with the filter `math.` returns after printing the header of
the scope `math`, a mark for each of its two tests and the separator line, and
no passed summary, although the header was printed; and under die-on-fail the
run over `[A passes, B fails, C passes]` in verbose mode leaves through
`exit(1)` after the failure line of `s.B`, having printed the header of the
scope `s` and no passed summary. -/
theorem exam_run_scope_prints_counterexample :
    (math_short_env.shortd = true ∧
      (exam_run math_short_env 32767 (fun _ => 0) (demo_code []) []).status
        = Status.returned 0 ∧
      exam_stdout math_short_env.shortd
          (exam_run math_short_env 32767 (fun _ => 0) (demo_code []) []).final.trace
        = [Printed.scope_name (cstr "math" (by decide)), Printed.mark 32, Printed.mark 32,
           Printed.newline]) ∧
    (abc_env.shortd = false ∧
      (exam_run abc_env 32767 (fun _ => 0) (demo_code [2]) []).status = Status.exited 1 ∧
      exam_stdout abc_env.shortd
          (exam_run abc_env 32767 (fun _ => 0) (demo_code [2]) []).final.trace
        = [Printed.running_all 3, Printed.running_scope 3 (cstr "s" (by decide)),
           Printed.run "s.A".toList, Printed.ok "s.A".toList, Printed.run "s.B".toList,
           Printed.failed "s.B".toList]) := by
  refine ⟨⟨by decide, by decide, by decide⟩, by decide, by decide, by decide⟩

/-- C17, as amended, at the filter `math.` over `math.add`, `math.sub` and
`str.concat` in verbose mode: the iteration for the scope `math` is defined and
prints the header, the run and passed lines of `math.add` and `math.sub`, the
passed summary and the separator line; the iteration for the scope `str`, none
of whose tests passes the filter, prints nothing. -/
theorem exam_run_scope_prints_witness :
    (math_env.tbl.wf ∧ 0 < math_env.tbl.len ∧ math_env.shuffle = false) ∧
    (∃ (ii : Nat) (sc : exam_scope_t) (order : List exam_test_t) (s1 : Locals (List Nat))
      (evs : List Event),
      (if math_env.shuffle then (none : Option (Block Nat)).bind (fun a => Block.read a 0)
        else some 0) = some ii ∧
      math_env.scope_at ii = some sc ∧
      order.Perm sc.test_list ∧ (math_env.shuffle = false → order = sc.test_list) ∧
      (exam_run_scope math_env 32767 (fun _ => 0) (demo_code []) none 0 (demo_locals [])
          = Flow.next s1 ∨
        (math_env.die_on_fail = true ∧
          exam_run_scope math_env 32767 (fun _ => 0) (demo_code []) none 0 (demo_locals [])
            = Flow.exit 1 s1)) ∧
      s1.trace = (demo_locals ([] : List Nat)).trace ++ evs ∧
      ((∀ t ∈ sc.test_list, math_env.selects t = false) →
        exam_run_scope math_env 32767 (fun _ => 0) (demo_code []) none 0 (demo_locals [])
          = Flow.next s1 ∧
        exam_stdout math_env.shortd evs = []) ∧
      (∀ t0 l, order.filter math_env.selects = t0 :: l →
        ∃ (e : Event) (rest : List Event),
          evs = Event.exam_print_running_test sc.len sc.name :: e :: rest ∧
          e.processed = some (exam_concat_scope_name t0) ∧
          exam_stdout math_env.shortd evs
            = Printed.header math_env.shortd sc :: exam_stdout math_env.shortd (e :: rest) ∧
          (math_env.shortd = false →
            exam_print math_env.shortd e = [Printed.run (exam_concat_scope_name t0)] ∨
            exam_print math_env.shortd e
              = [Printed.pending (exam_concat_scope_name t0)]) ∧
          (exam_stdout math_env.shortd evs).countP Printed.is_header = 1 ∧
          (exam_run_scope math_env 32767 (fun _ => 0) (demo_code []) none 0 (demo_locals [])
              = Flow.exit 1 s1 →
            (exam_stdout math_env.shortd evs).countP Printed.is_summary = 0) ∧
          (exam_run_scope math_env 32767 (fun _ => 0) (demo_code []) none 0 (demo_locals [])
              = Flow.next s1 →
            ∃ (sci : exam_scope_t) (mid : List Printed),
              math_env.scope_at 0 = some sci ∧
              mid.countP Printed.is_summary = 0 ∧
              exam_stdout math_env.shortd evs
                = mid ++ (if math_env.shortd then []
                          else [Printed.passed_scope s1.scope_passed sci.name])
                    ++ [Printed.newline]))) ∧
    exam_stdout false
        (exam_run_scope math_env 32767 (fun _ => 0) (demo_code []) none 0
          (demo_locals [])).state.trace
      = [Printed.running_scope 2 (cstr "math" (by decide)), Printed.run "math.add".toList,
         Printed.ok "math.add".toList, Printed.run "math.sub".toList,
         Printed.ok "math.sub".toList, Printed.passed_scope 2 (cstr "math" (by decide)),
         Printed.newline] ∧
    exam_stdout false
        (exam_run_scope math_env 32767 (fun _ => 0) (demo_code []) none 1
          (demo_locals [])).state.trace
      = [] :=
  ⟨⟨by decide, by decide, by decide⟩,
    exam_run_scope_prints math_env 32767 (fun _ => 0) (demo_code []) none 0 (demo_locals [])
      (by decide) (by decide) (fun h => absurd h (by decide))
      (fun h => absurd h (by decide)),
    by decide, by decide⟩

/-! ## The runner and the program under test -/

theorem exam_call_user {σ : Type} (code : Nat → σ → Outcome σ) (fn : Nat) (e : Event)
    (s : Locals σ) : (exam_call code fn e s).user = code fn s.user := by
  unfold exam_call
  cases code fn s.user <;> rfl

theorem exam_hook_call_user {σ : Type} (code : Nat → σ → Outcome σ) (fn : Nat) (e : Event)
    (s : Locals σ) :
    (if fn ≠ NULL then exam_call code fn e s else Outcome.done s).user
      = exam_hook code fn s.user := by
  unfold exam_hook
  by_cases h : fn ≠ NULL
  · rw [if_pos h, if_pos h]
    exact exam_call_user code fn e s
  · rw [if_neg h, if_neg h]
    rfl

theorem exam_run_once_user {σ : Type} (code : Nat → σ → Outcome σ) (sc : exam_scope_t)
    (t : exam_test_t) (ii idx : Nat) (s : Locals σ) :
    (exam_run_once code sc t ii idx s).user = exam_once_user code sc t s.user := by
  unfold exam_run_once exam_once_user
  have h1 := exam_hook_call_user code sc.before (Event.call_before ii idx sc.before) s
  revert h1
  generalize (if sc.before ≠ NULL then
      exam_call code sc.before (Event.call_before ii idx sc.before) s
    else Outcome.done s) = r1
  intro h1
  cases r1 with
  | jump s1 =>
    simp only [Outcome.user] at h1
    rw [← h1]
    rfl
  | done s1 =>
    simp only [Outcome.user] at h1
    rw [← h1]
    simp only
    have h2 := exam_call_user code t.fn (Event.call_fn ii idx t.fn) s1
    revert h2
    generalize exam_call code t.fn (Event.call_fn ii idx t.fn) s1 = r2
    intro h2
    cases r2 with
    | jump s2 =>
      simp only [Outcome.user] at h2
      rw [← h2]
      rfl
    | done s2 =>
      simp only [Outcome.user] at h2
      rw [← h2]
      exact exam_hook_call_user code sc.after (Event.call_after ii idx sc.after) s2

/-- The repeat loop does to the program under test what `exam_repeat_user`
says, and ends the same way. -/
theorem exam_run_repeat_user {σ : Type} (code : Nat → σ → Outcome σ) (sc : exam_scope_t)
    (t : exam_test_t) (ii idx : Nat) :
    ∀ (k : Nat) (s : Locals σ),
      (exam_run_repeat code sc t ii idx k s).user = exam_repeat_user code sc t k s.user := by
  intro k
  induction k with
  | zero => intro s; rfl
  | succ k ih =>
    intro s
    unfold exam_run_repeat exam_repeat_user
    have h1 := exam_run_once_user code sc t ii idx s
    revert h1
    generalize exam_run_once code sc t ii idx s = r
    intro h1
    cases r with
    | jump s1 =>
      simp only [Outcome.user] at h1
      rw [← h1]
      rfl
    | done s1 =>
      simp only [Outcome.user] at h1
      rw [← h1]
      exact ih s1

theorem exam_tests_user_append {σ : Type} (env : exam_env_t) (code : Nat → σ → Outcome σ)
    (a b : List (exam_scope_t × exam_test_t)) :
    ∀ u : σ, exam_tests_user env code (a ++ b) u
      = (match exam_tests_user env code a u with
        | Outcome.done u1 => exam_tests_user env code b u1
        | Outcome.jump u1 => Outcome.jump u1) := by
  induction a with
  | nil => intro u; rfl
  | cons x a ih =>
    intro u
    obtain ⟨sc, t⟩ := x
    simp only [List.cons_append, exam_tests_user]
    split
    · cases exam_repeat_user code sc t env.repeat_ u with
      | jump u1 => rfl
      | done u1 => exact ih u1
    · exact ih u

theorem exam_tests_user_append_done {σ : Type} (env : exam_env_t)
    (code : Nat → σ → Outcome σ) (a b : List (exam_scope_t × exam_test_t)) (u u1 : σ)
    (h : exam_tests_user env code (a ++ b) u = Outcome.done u1) :
    ∃ um, exam_tests_user env code a u = Outcome.done um ∧
      exam_tests_user env code b um = Outcome.done u1 := by
  rw [exam_tests_user_append] at h
  cases ha : exam_tests_user env code a u with
  | jump um =>
    rw [ha] at h
    cases h
  | done um =>
    rw [ha] at h
    exact ⟨um, rfl, h⟩

/-! ## Pieces of a run under die-on-fail -/

theorem Flow.Tracks.tracks_nil {σ : Type} (env : exam_env_t) (code : Nat → σ → Outcome σ)
    (s : Locals σ) : Flow.Tracks env code s [] (Flow.next s) := by
  constructor
  · intro u1 h
    cases h
    exact ⟨s, rfl, rfl, by simp [exam_env_t.selected_names]⟩
  · intro pre sc t post u1 u2 h
    cases pre <;> cases h

theorem Flow.Tracks.tracks_congr {σ : Type} {env : exam_env_t} {code : Nat → σ → Outcome σ}
    {s s0 : Locals σ} {items : List (exam_scope_t × exam_test_t)} {r : Flow (Locals σ)}
    (h : Flow.Tracks env code s0 items r) (hu : s0.user = s.user)
    (ht : trace_processed s0.trace = trace_processed s.trace) :
    Flow.Tracks env code s items r := by
  obtain ⟨h1, h2⟩ := h
  rw [hu, ht] at h1 h2
  exact ⟨h1, h2⟩

/-- Two pieces one after the other: the second is entered only if the first
goes on to the next statement, and an `exit` in the first ends both. -/
theorem Flow.Tracks.tracks_step {σ : Type} {env : exam_env_t} {code : Nat → σ → Outcome σ}
    {s : Locals σ} {a b : List (exam_scope_t × exam_test_t)} {r1 : Flow (Locals σ)}
    (f : Locals σ → Flow (Locals σ)) (r : Flow (Locals σ))
    (h1 : Flow.Tracks env code s a r1)
    (h2 : ∀ s1, r1 = Flow.next s1 → Flow.Tracks env code s1 b (f s1))
    (hnext : ∀ s1, r1 = Flow.next s1 → r = f s1)
    (hexit : ∀ c s1, r1 = Flow.exit c s1 → r = Flow.exit c s1) :
    Flow.Tracks env code s (a ++ b) r := by
  constructor
  · intro u1 h
    obtain ⟨um, ha, hb⟩ := exam_tests_user_append_done env code a b s.user u1 h
    obtain ⟨s1, hr1, hu1, hp1⟩ := h1.1 um ha
    rw [← hu1] at hb
    obtain ⟨s2, hr2, hu2, hp2⟩ := (h2 s1 hr1).1 u1 hb
    refine ⟨s2, (hnext s1 hr1).trans hr2, hu2, ?_⟩
    rw [hp2, hp1, List.map_append, selected_names_append, List.append_assoc]
  · intro pre sc t post u1 u2 hitems hpre hsel hpend hfail
    rcases List.append_eq_append_iff.mp hitems with ⟨a1, hpre1, hb1⟩ | ⟨c1, ha1, hc1⟩
    · -- the failing test is in the second piece
      subst hpre1
      obtain ⟨um, ha, hb⟩ := exam_tests_user_append_done env code a a1 s.user u1 hpre
      obtain ⟨s1, hr1, hu1, hp1⟩ := h1.1 um ha
      rw [← hu1] at hb
      obtain ⟨s2, hr2, hu2, hp2⟩ := (h2 s1 hr1).2 a1 sc t post u1 u2 hb1 hb hsel hpend hfail
      refine ⟨s2, (hnext s1 hr1).trans hr2, hu2, ?_⟩
      rw [hp2, hp1, List.map_append, selected_names_append]
      simp only [List.append_assoc]
    · cases c1 with
      | nil =>
        -- the failing test is the first of the second piece
        simp only [List.append_nil, List.nil_append] at ha1 hc1
        subst ha1
        obtain ⟨s1, hr1, hu1, hp1⟩ := h1.1 u1 hpre
        have hdone : exam_tests_user env code [] s1.user = Outcome.done u1 := by
          rw [hu1]
          rfl
        obtain ⟨s2, hr2, hu2, hp2⟩ := (h2 s1 hr1).2 [] sc t post u1 u2 hc1.symm hdone hsel
          hpend hfail
        refine ⟨s2, (hnext s1 hr1).trans hr2, hu2, ?_⟩
        rw [hp2, hp1]
        simp [exam_env_t.selected_names]
      | cons x c2 =>
        -- the failing test is in the first piece
        simp only [List.cons_append, List.cons.injEq] at hc1
        obtain ⟨hx, hpost⟩ := hc1
        subst hx
        obtain ⟨s1, hr1, hu1, hp1⟩ := h1.2 pre sc t c2 u1 u2 ha1 hpre hsel hpend hfail
        exact ⟨s1, hexit 1 s1 hr1, hu1, hp1⟩

theorem singleton_eq_append_cons {α : Type} (x y : α) (pre post : List α)
    (h : [x] = pre ++ y :: post) : pre = [] ∧ y = x ∧ post = [] := by
  cases pre with
  | nil =>
    simp only [List.nil_append, List.cons.injEq] at h
    exact ⟨rfl, h.1.symm, h.2.symm⟩
  | cons a pre =>
    simp only [List.cons_append, List.cons.injEq] at h
    have := congrArg List.length h.2
    simp at this
    omega

theorem exam_tests_user_single {σ : Type} (env : exam_env_t) (code : Nat → σ → Outcome σ)
    (sc : exam_scope_t) (t : exam_test_t) (u : σ) :
    exam_tests_user env code [(sc, t)] u
      = if env.selects t && !t.pending then exam_repeat_user code sc t env.repeat_ u
        else Outcome.done u := by
  simp only [exam_tests_user]
  split
  · cases exam_repeat_user code sc t env.repeat_ u <;> rfl
  · rfl

/-- Under die-on-fail, what the test loop does with a test that passed the
filter: a pending test is reported and the loop goes on; a test that passes is
run and the loop goes on; a test that fails ends the run through `exit(1)`. -/
theorem exam_run_selected_tracks {σ : Type} (env : exam_env_t)
    (code : Nat → σ → Outcome σ) (sc : exam_scope_t) (ii idx : Nat) (t : exam_test_t)
    (s : Locals σ) (hd : env.die_on_fail = true) (hsel : env.selects t = true) :
    Flow.Tracks env code s [(sc, t)]
      (exam_run_selected env code sc ii idx t (exam_concat_scope_name t) s) := by
  unfold exam_run_selected
  have h1 : trace_processed (if (!s.printed_scope) = true then
          { s.emit (Event.exam_print_running_test sc.len sc.name) with printed_scope := true }
         else s).trace = trace_processed s.trace ∧
      (if (!s.printed_scope) = true then
          { s.emit (Event.exam_print_running_test sc.len sc.name) with printed_scope := true }
         else s).user = s.user := by
    split
    · refine ⟨?_, rfl⟩
      have := trace_processed_emit s (Event.exam_print_running_test sc.len sc.name)
      simpa [Event.processed] using this
    · exact ⟨rfl, rfl⟩
  revert h1
  generalize (if (!s.printed_scope) = true then
          { s.emit (Event.exam_print_running_test sc.len sc.name) with printed_scope := true }
         else s) = s1
  rintro ⟨h1, h2⟩
  have hnames : env.selected_names ([(sc, t)].map Prod.snd) = [exam_concat_scope_name t] := by
    simp only [List.map_cons, List.map_nil, selected_names_single, hsel, if_true]
  cases hp : t.pending with
  | true =>
    simp only [if_true]
    constructor
    · intro u1 h
      rw [exam_tests_user_single] at h
      simp only [hsel, hp, Bool.not_true, Bool.and_false, Bool.false_eq_true, if_false] at h
      cases h
      refine ⟨_, rfl, h2, ?_⟩
      rw [trace_processed_emit, h1, hnames]
      rfl
    · intro pre sc1 t1 post u1 u2 hitems _ _ hpend _
      obtain ⟨_, hx, _⟩ := singleton_eq_append_cons _ _ _ _ hitems
      cases hx
      rw [hp] at hpend
      cases hpend
  | false =>
    simp only [Bool.false_eq_true, if_false]
    have hq := exam_run_repeat_quiet code sc t ii idx env.repeat_
      (s1.emit (Event.exam_print_run (exam_concat_scope_name t)))
    have hu := exam_run_repeat_user code sc t ii idx env.repeat_
      (s1.emit (Event.exam_print_run (exam_concat_scope_name t)))
    have hu0 : (s1.emit (Event.exam_print_run (exam_concat_scope_name t))).user = s.user := h2
    rw [hu0] at hu
    rw [trace_processed_emit, h1] at hq
    revert hq hu
    generalize exam_run_repeat code sc t ii idx env.repeat_
      (s1.emit (Event.exam_print_run (exam_concat_scope_name t))) = r
    intro hq hu
    cases r with
    | done s2 =>
      simp only [Outcome.state] at hq
      simp only [Outcome.user] at hu
      constructor
      · intro u1 h
        rw [exam_tests_user_single] at h
        simp only [hsel, hp, Bool.not_false, Bool.and_self, if_true] at h
        rw [← hu] at h
        cases h
        refine ⟨_, rfl, rfl, ?_⟩
        have := trace_processed_emit
          ({ s2 with passed := s2.passed + 1, scope_passed := s2.scope_passed + 1 })
          (Event.exam_print_ok (exam_concat_scope_name t))
        rw [this, hq.1, hnames]
        simp [Event.processed]
      · intro pre sc1 t1 post u1 u2 hitems hpre _ _ hfail
        obtain ⟨hpre0, hx, _⟩ := singleton_eq_append_cons _ _ _ _ hitems
        cases hx
        subst hpre0
        cases hpre
        rw [← hu] at hfail
        cases hfail
    | jump s2 =>
      simp only [Outcome.state] at hq
      simp only [Outcome.user] at hu
      simp only [hd, if_true]
      constructor
      · intro u1 h
        rw [exam_tests_user_single] at h
        simp only [hsel, hp, Bool.not_false, Bool.and_self, if_true] at h
        rw [← hu] at h
        cases h
      · intro pre sc1 t1 post u1 u2 hitems hpre _ _ hfail
        obtain ⟨hpre0, hx, _⟩ := singleton_eq_append_cons _ _ _ _ hitems
        cases hx
        subst hpre0
        cases hpre
        rw [← hu] at hfail
        cases hfail
        refine ⟨_, rfl, rfl, ?_⟩
        have := trace_processed_emit s2 (Event.exam_print_failed (exam_concat_scope_name t))
        simp only [Event.processed, List.append_nil] at this
        show trace_processed (s2.emit (Event.exam_print_failed (exam_concat_scope_name t))).trace
          = _
        rw [this, hq.1]
        simp [exam_env_t.selected_names, Event.processed]

/-- Under die-on-fail and with shuffling off, one iteration of the test loop
deals with the test at its index. -/
theorem exam_run_test_tracks {σ : Type} (env : exam_env_t) (code : Nat → σ → Outcome σ)
    (sc : exam_scope_t) (ii : Nat) (ti : Option (Block Nat)) (j : Nat) (s : Locals σ)
    (hd : env.die_on_fail = true) (hsh : env.shuffle = false) (hwf : sc.wf)
    (hj : j < sc.len) :
    ∃ hj1 : j < sc.test_list.length,
      Flow.Tracks env code s [(sc, sc.test_list[j])]
        (exam_run_test env code sc ii ti j s) := by
  obtain ⟨hj1, hc⟩ := exam_current_test_eq env sc ti j hsh hwf hj
  refine ⟨hj1, ?_⟩
  generalize sc.test_list[j] = t at hc
  unfold exam_run_test
  rw [hc]
  simp only
  have hskip : env.selects t = false → Flow.Tracks env code s [(sc, t)] (Flow.next s) := by
    intro hsel
    constructor
    · intro u1 h
      rw [exam_tests_user_single] at h
      simp only [hsel, Bool.false_and, Bool.false_eq_true, if_false] at h
      cases h
      refine ⟨s, rfl, rfl, ?_⟩
      simp [selected_names_single, hsel]
    · intro pre sc1 t1 post u1 u2 hitems _ hsel1 _ _
      obtain ⟨_, hx, _⟩ := singleton_eq_append_cons _ _ _ _ hitems
      cases hx
      rw [hsel] at hsel1
      cases hsel1
  cases hf : env.filter with
  | none =>
    have hsel : env.selects t = true := by simp [exam_env_t.selects, hf]
    simp only
    exact exam_run_selected_tracks env code sc ii j t s hd hsel
  | some f =>
    have hsel : env.selects t = f.val.isPrefixOf (exam_concat_scope_name t) := by
      simp [exam_env_t.selects, hf]
    simp only [exam_filter_test_eq, Option.map_some']
    cases hpre : f.val.isPrefixOf (exam_concat_scope_name t) with
    | false => exact hskip (by rw [hsel, hpre])
    | true => exact exam_run_selected_tracks env code sc ii j t s hd (by rw [hsel, hpre])

/-- Under die-on-fail and with shuffling off, the test loop from index `j`
deals with the tests from `j` on. -/
theorem exam_run_tests_tracks {σ : Type} (env : exam_env_t) (code : Nat → σ → Outcome σ)
    (sc : exam_scope_t) (ii : Nat) (ti : Option (Block Nat))
    (hd : env.die_on_fail = true) (hsh : env.shuffle = false) (hwf : sc.wf) :
    ∀ (n j : Nat) (s : Locals σ), j + n = sc.len →
      Flow.Tracks env code s ((sc.test_list.drop j).map (fun t => (sc, t)))
        (exam_run_tests env code sc ii ti n j s) := by
  intro n
  induction n with
  | zero =>
    intro j s hj
    have : sc.test_list.drop j = [] := List.drop_of_length_le (by rw [hwf]; omega)
    rw [this]
    exact Flow.Tracks.tracks_nil env code s
  | succ n ih =>
    intro j s hj
    obtain ⟨hj1, hstep⟩ := exam_run_test_tracks env code sc ii ti j s hd hsh hwf (by omega)
    have hdrop : (sc.test_list.drop j).map (fun t => (sc, t))
        = [(sc, sc.test_list[j])] ++ (sc.test_list.drop (j + 1)).map (fun t => (sc, t)) := by
      rw [List.drop_eq_getElem_cons hj1]
      rfl
    rw [hdrop]
    unfold exam_run_tests
    exact Flow.Tracks.tracks_step (fun s1 => exam_run_tests env code sc ii ti n (j + 1) s1)
      _ hstep (fun s1 _ => ih (j + 1) s1 (by omega)) (fun s1 h => by rw [h])
      (fun c s1 h => by rw [h])

theorem Flow.Tracks.tracks_next {σ : Type} {env : exam_env_t} {code : Nat → σ → Outcome σ}
    {s s1 s2 : Locals σ} {items : List (exam_scope_t × exam_test_t)}
    (h : Flow.Tracks env code s items (Flow.next s1)) (hu : s2.user = s1.user)
    (ht : trace_processed s2.trace = trace_processed s1.trace) :
    Flow.Tracks env code s items (Flow.next s2) := by
  constructor
  · intro u1 h1
    obtain ⟨s3, hr, hu3, hp3⟩ := h.1 u1 h1
    cases hr
    exact ⟨s2, rfl, hu.trans hu3, ht.trans hp3⟩
  · intro pre sc t post u1 u2 h1 h2 h3 h4 h5
    obtain ⟨s3, hr, _⟩ := h.2 pre sc t post u1 u2 h1 h2 h3 h4 h5
    cases hr

/-- Under die-on-fail and with shuffling off, one iteration of the scope loop
deals with the tests of its scope. -/
theorem exam_run_scope_tracks {σ : Type} (env : exam_env_t) (RAND_MAX : Nat)
    (rand : Nat → Nat) (code : Nat → σ → Outcome σ) (si : Option (Block Nat)) (i : Nat)
    (s : Locals σ) (hd : env.die_on_fail = true) (hsh : env.shuffle = false)
    (hwf : env.tbl.wf) (hi : i < env.tbl.len) :
    ∃ hi1 : i < env.tbl.scope_list.length,
      Flow.Tracks env code s
        (env.tbl.scope_list[i].test_list.map (fun t => (env.tbl.scope_list[i], t)))
        (exam_run_scope env RAND_MAX rand code si i s) := by
  obtain ⟨hi1, hat, hscwf⟩ := hwf.scope_at_wf i hi
  refine ⟨hi1, ?_⟩
  generalize env.tbl.scope_list[i] = sc at hat hscwf
  unfold exam_run_scope
  simp only [hsh, Bool.false_eq_true, if_false, hat,
    exam_create_shuffle_off env RAND_MAX rand _ _ hsh]
  have h1 := exam_run_tests_tracks env code sc i none hd hsh hscwf sc.len 0
    { s with printed_scope := false, scope_passed := 0, rand_calls := s.rand_calls }
    (by omega)
  rw [List.drop_zero] at h1
  have h2 : Flow.Tracks env code s (sc.test_list.map (fun t => (sc, t)))
      (exam_run_tests env code sc i none sc.len 0
        { s with printed_scope := false, scope_passed := 0, rand_calls := s.rand_calls }) :=
    h1.tracks_congr rfl rfl
  revert h2
  generalize exam_run_tests env code sc i none sc.len 0
    { s with printed_scope := false, scope_passed := 0, rand_calls := s.rand_calls } = r
  intro h2
  cases r with
  | exit c s1 => exact h2
  | undefined s1 => exact h2
  | next s1 =>
    simp only
    split
    · refine h2.tracks_next rfl ?_
      rw [trace_processed_emit, trace_processed_emit]
      simp [Event.processed]
    · exact h2

/-- Under die-on-fail and with shuffling off, the scope loop from index `i`
deals with the tests of the scopes from `i` on. -/
theorem exam_run_scopes_tracks {σ : Type} (env : exam_env_t) (RAND_MAX : Nat)
    (rand : Nat → Nat) (code : Nat → σ → Outcome σ) (si : Option (Block Nat))
    (hd : env.die_on_fail = true) (hsh : env.shuffle = false) (hwf : env.tbl.wf) :
    ∀ (n i : Nat) (s : Locals σ), i + n = env.tbl.len →
      Flow.Tracks env code s
        ((env.tbl.scope_list.drop i).flatMap
          (fun sc => sc.test_list.map (fun t => (sc, t))))
        (exam_run_scopes env RAND_MAX rand code si n i s) := by
  intro n
  induction n with
  | zero =>
    intro i s hi
    have : env.tbl.scope_list.drop i = [] := List.drop_of_length_le (by rw [hwf.1]; omega)
    rw [this]
    exact Flow.Tracks.tracks_nil env code s
  | succ n ih =>
    intro i s hi
    obtain ⟨hi1, hstep⟩ := exam_run_scope_tracks env RAND_MAX rand code si i s hd hsh hwf
      (by omega)
    have hdrop : env.tbl.scope_list.drop i
        = [env.tbl.scope_list[i]] ++ env.tbl.scope_list.drop (i + 1) := by
      rw [List.drop_eq_getElem_cons hi1]
      rfl
    rw [hdrop, List.flatMap_append]
    have hone : [env.tbl.scope_list[i]].flatMap
          (fun sc => sc.test_list.map (fun t => (sc, t)))
        = env.tbl.scope_list[i].test_list.map (fun t => (env.tbl.scope_list[i], t)) := by
      simp [List.flatMap]
    rw [hone]
    unfold exam_run_scopes
    exact Flow.Tracks.tracks_step
      (fun s1 => exam_run_scopes env RAND_MAX rand code si n (i + 1) s1)
      _ hstep (fun s1 _ => ih (i + 1) s1 (by omega)) (fun s1 h => by rw [h])
      (fun c s1 h => by rw [h])

theorem run_items_tests (tbl : exam_tbl_t) : tbl.run_items.map Prod.snd = tbl.all_tests := by
  unfold exam_tbl_t.run_items exam_tbl_t.all_tests
  induction tbl.scope_list with
  | nil => rfl
  | cons sc l ih =>
    simp only [List.flatMap_cons, List.map_append, ih, List.map_map]
    congr 1
    exact List.map_id _

/-- Under die-on-fail, with shuffling off and outside list mode, a run over a
well-formed table deals with the tests of the table in table order: if none
fails it returns; if the test `t` is the first to fail, it leaves through
`exit(1)` with the program under test as the failing repetition left it, having
processed the selected tests before `t` and then `t`. -/
theorem exam_run_tracks {σ : Type} (env : exam_env_t) (RAND_MAX : Nat) (rand : Nat → Nat)
    (code : Nat → σ → Outcome σ) (user : σ) (hwf : env.tbl.wf)
    (hsh : env.shuffle = false) (hl : env.list = false) (hd : env.die_on_fail = true) :
    (∀ u1, exam_tests_user env code env.tbl.run_items user = Outcome.done u1 →
      (exam_run env RAND_MAX rand code user).status
          = Status.returned (exam_run env RAND_MAX rand code user).final.retValue ∧
        (exam_run env RAND_MAX rand code user).final.user = u1) ∧
    (∀ pre sc t post u1 u2, env.tbl.run_items = pre ++ (sc, t) :: post →
      exam_tests_user env code pre user = Outcome.done u1 →
      env.selects t = true → t.pending = false →
      exam_repeat_user code sc t env.repeat_ u1 = Outcome.jump u2 →
      (exam_run env RAND_MAX rand code user).status = Status.exited 1 ∧
        (exam_run env RAND_MAX rand code user).final.user = u2 ∧
        trace_processed (exam_run env RAND_MAX rand code user).final.trace
          = env.selected_names (pre.map Prod.snd) ++ [exam_concat_scope_name t]) := by
  obtain ⟨s2, heq, _, htr2, _, hu2, _, _, _⟩ :=
    exam_run_eq_scopes env RAND_MAX rand code user hwf hsh hl
  rw [heq]
  have h1 := exam_run_scopes_tracks env RAND_MAX rand code none hd hsh hwf env.tbl.len 0 s2
    (by omega)
  rw [List.drop_zero] at h1
  obtain ⟨h1a, h1b⟩ := h1
  rw [hu2, htr2] at h1a h1b
  constructor
  · intro u1 h
    obtain ⟨s3, hr, hu3, _⟩ := h1a u1 h
    rw [hr]
    exact ⟨rfl, hu3⟩
  · intro pre sc t post u1 u2 hitems hpre hsel hpend hfail
    obtain ⟨s3, hr, hu3, hp3⟩ := h1b pre sc t post u1 u2 hitems hpre hsel hpend hfail
    rw [hr]
    refine ⟨rfl, hu3, ?_⟩
    simp only
    rw [hp3]
    rfl

/-- C4: with die-on-fail enabled and shuffling off (and outside list mode, in
which no test is run), a run over the registered tests stops at the first
failing test.  Let the tests in run order be `pre`, then `t` of the scope `sc`,
then `post`, where the tests of `pre` that are executed all pass, leaving the
program under test in `u1`, and `t` passes the filter, is not pending and fails
in one of its repetitions from `u1`, leaving the program under test in `u2`.
Then the run leaves through `exit(1)`; the program under test is left in `u2`,
the state at the failure, so every test before `t` was executed and nothing
was executed after the failure; the tests processed are the selected tests of
`pre`, in order, and then `t`, so no test of `post` is reported or run; the
failure report of `t` is the last event of the trace, so no body or hook is
called and nothing is reported after it, and no failure is reported before
it. -/
theorem exam_run_stops_at_first_failure {σ : Type} (calls : List Registration)
    (env : exam_env_t) (RAND_MAX : Nat) (rand : Nat → Nat) (code : Nat → σ → Outcome σ)
    (user : σ) (henv : exam_register_all exam_tbl_t.zero calls = some env.tbl)
    (hsh : env.shuffle = false) (hl : env.list = false) (hdie : env.die_on_fail = true)
    (pre post : List (exam_scope_t × exam_test_t)) (sc : exam_scope_t) (t : exam_test_t)
    (u1 u2 : σ) (hitems : env.tbl.run_items = pre ++ (sc, t) :: post)
    (hpre : exam_tests_user env code pre user = Outcome.done u1)
    (hsel : env.selects t = true) (hpend : t.pending = false)
    (hfail : exam_repeat_user code sc t env.repeat_ u1 = Outcome.jump u2) :
    (exam_run env RAND_MAX rand code user).status = Status.exited 1 ∧
    (exam_run env RAND_MAX rand code user).final.user = u2 ∧
    trace_processed (exam_run env RAND_MAX rand code user).final.trace
      = env.selected_names (pre.map Prod.snd) ++ [exam_concat_scope_name t] ∧
    (∃ tr : List Event,
      (exam_run env RAND_MAX rand code user).final.trace
        = tr ++ [Event.exam_print_failed (exam_concat_scope_name t)] ∧
      ∀ e ∈ tr, e.is_failed = false) ∧
    pre.map Prod.snd ++ t :: post.map Prod.snd
      = (spec_scope_names calls).flatMap (spec_scope_tests calls) := by
  obtain ⟨hwf, hall⟩ := exam_register_all_tests calls env.tbl henv
  obtain ⟨hst, hu, hp⟩ := (exam_run_tracks env RAND_MAX rand code user hwf hsh hl hdie).2
    pre sc t post u1 u2 hitems hpre hsel hpend hfail
  refine ⟨hst, hu, hp, ?_, ?_⟩
  · rcases exam_run_shape env RAND_MAX rand code user hwf hsh hl with
      ⟨h1, _⟩ | ⟨_, _, l, buf1, s2, _, h4, h5, h6, h7⟩
    · rw [hst] at h1
      cases h1
    · have hlast : l ++ [buf1]
          = env.selected_names (pre.map Prod.snd) ++ [exam_concat_scope_name t] :=
        h4.symm.trans hp
      have hb := (List.append_inj' hlast rfl).2
      injection hb with hb1 _
      subst hb1
      exact ⟨s2.trace, h7, h5.no_failed h6⟩
  · have h1 := run_items_tests env.tbl
    rw [hitems, hall] at h1
    rw [← h1]
    simp

/-- C4 at the tests `[A passes, B fails, C passes]` of one scope with
die-on-fail: `A` is before the failing `B` and `C` after it; the run leaves
through `exit(1)` right after reporting `s.B` failed, having processed `s.A`
and `s.B`; the bodies of `A` (at 1) and `B` (at 2) were called, which is what
the program under test has logged, and the body of `C` (at 3) was not. -/
theorem exam_run_stops_at_first_failure_witness :
    (exam_register_all exam_tbl_t.zero abc_calls = some abc_env.tbl ∧
      abc_env.shuffle = false ∧ abc_env.list = false ∧ abc_env.die_on_fail = true ∧
      abc_env.tbl.run_items
        = [(demo_scope abc_calls 0, demo_test abc_calls 0 0)]
          ++ (demo_scope abc_calls 0, demo_test abc_calls 0 1)
            :: [(demo_scope abc_calls 0, demo_test abc_calls 0 2)] ∧
      exam_tests_user abc_env (demo_code [2])
          [(demo_scope abc_calls 0, demo_test abc_calls 0 0)] []
        = Outcome.done [1] ∧
      abc_env.selects (demo_test abc_calls 0 1) = true ∧
      (demo_test abc_calls 0 1).pending = false ∧
      exam_repeat_user (demo_code [2]) (demo_scope abc_calls 0) (demo_test abc_calls 0 1)
          abc_env.repeat_ [1]
        = Outcome.jump [1, 2]) ∧
    ((exam_run abc_env 32767 (fun _ => 0) (demo_code [2]) []).status = Status.exited 1 ∧
      (exam_run abc_env 32767 (fun _ => 0) (demo_code [2]) []).final.user = [1, 2] ∧
      trace_processed (exam_run abc_env 32767 (fun _ => 0) (demo_code [2]) []).final.trace
        = abc_env.selected_names
            ([(demo_scope abc_calls 0, demo_test abc_calls 0 0)].map Prod.snd)
          ++ [exam_concat_scope_name (demo_test abc_calls 0 1)] ∧
      (∃ tr : List Event,
        (exam_run abc_env 32767 (fun _ => 0) (demo_code [2]) []).final.trace
          = tr ++ [Event.exam_print_failed
              (exam_concat_scope_name (demo_test abc_calls 0 1))] ∧
        ∀ e ∈ tr, e.is_failed = false) ∧
      [(demo_scope abc_calls 0, demo_test abc_calls 0 0)].map Prod.snd
          ++ demo_test abc_calls 0 1
            :: [(demo_scope abc_calls 0, demo_test abc_calls 0 2)].map Prod.snd
        = (spec_scope_names abc_calls).flatMap (spec_scope_tests abc_calls)) ∧
    exam_concat_scope_name (demo_test abc_calls 0 1) = "s.B".toList ∧
    trace_processed (exam_run abc_env 32767 (fun _ => 0) (demo_code [2]) []).final.trace
      = ["s.A".toList, "s.B".toList] ∧
    (exam_run abc_env 32767 (fun _ => 0) (demo_code [2]) []).final.trace.filter Event.is_call
      = [Event.call_fn 0 0 1, Event.call_fn 0 1 2] :=
  ⟨⟨by decide, by decide, by decide, by decide, by decide, by decide, by decide, by decide,
      by decide⟩,
    exam_run_stops_at_first_failure abc_calls abc_env 32767 (fun _ => 0) (demo_code [2]) []
      (by decide) (by decide) (by decide) (by decide)
      [(demo_scope abc_calls 0, demo_test abc_calls 0 0)]
      [(demo_scope abc_calls 0, demo_test abc_calls 0 2)]
      (demo_scope abc_calls 0) (demo_test abc_calls 0 1) [1] [1, 2]
      (by decide) (by decide) (by decide) (by decide) (by decide),
    by decide, by decide, by decide⟩

end Examiner
